import Mathlib

/-!
Verification of the `rolling-dual-crc` library (CRC-32C and CRC-64/XZ,
one-shot, streaming, zero-run extension and rolling-window computation).

The Rust sources are shallowly embedded over `Nat`:
* `u8` values are `Nat < 256`, `u32` values are `Nat < 2^32`,
  `u64` / `usize` values are `Nat < 2^64`;
* wrapping arithmetic carries an explicit `% 2^32` or `% 2^64`;
* byte slices are `List Nat`;
* the lookup tables generated by `build.rs` are embedded as the recursive
  functions that `build.rs` uses to fill them;
* fixed-count loops (`for _ in 0..32`) are embedded with a structural
  counter; value-driven loops (`power >>= 1`) are embedded with a fuel of
  64 steps, sufficient for every `usize` value (`usize` is 64-bit here).
-/

-- ======================================================================
-- Constants (build.rs, zeros.rs)

def POLYNOMIAL_32 : Nat := 0x1EDC6F41
def REVERSED_POLYNOMIAL_32 : Nat := 0x82F63B78
def POLYNOMIAL_64 : Nat := 0x42F0E1EBA9EA3693
def REVERSED_POLYNOMIAL_64 : Nat := 0xC96C5795D7870F42
def USIZE_BITS : Nat := 64

/-- Bitwise complement of a `u32` value (`!x` in Rust). -/
def not32 (x : Nat) : Nat := x ^^^ 0xFFFFFFFF

/-- Bitwise complement of a `u64` value (`!x` in Rust). -/
def not64 (x : Nat) : Nat := x ^^^ 0xFFFFFFFFFFFFFFFF

-- ======================================================================
-- CRC tables (build.rs, write_crc32_table / write_crc64_table)

/-- One step of the 8-fold table generator loop of `write_crc32_table`:
`crc = (crc >> 1) ^ (0u32.wrapping_sub(crc & 1) & REVERSED_POLYNOMIAL_32)`. -/
def crcStep32 (crc : Nat) : Nat :=
  (crc >>> 1) ^^^ (((2 ^ 32 - (crc &&& 1)) % 2 ^ 32) &&& REVERSED_POLYNOMIAL_32)

/-- One step of the 8-fold table generator loop of `write_crc64_table`. -/
def crcStep64 (crc : Nat) : Nat :=
  (crc >>> 1) ^^^ (((2 ^ 64 - (crc &&& 1)) % 2 ^ 64) &&& REVERSED_POLYNOMIAL_64)

/-- Row 0 of the `CRC32` table: the byte folded eight times by `crcStep32`. -/
def CRC32row0 (byte : Nat) : Nat := crcStep32^[8] byte

/-- Row 0 of the `CRC64` table: the byte folded eight times by `crcStep64`. -/
def CRC64row0 (byte : Nat) : Nat := crcStep64^[8] byte

/-- `CRC32[k][byte]`, the slicing-by-8 tables of `build.rs`:
row 0 folds the byte eight times, row `k+1` is
`(table[k][byte] >> 8) ^ table[0][table[k][byte] & 0xFF]`. -/
def CRC32 : Nat → Nat → Nat
  | 0, byte => CRC32row0 byte
  | k + 1, byte => (CRC32 k byte >>> 8) ^^^ CRC32row0 (CRC32 k byte &&& 0xFF)

/-- `CRC64[k][byte]`, the slicing-by-8 tables of `build.rs`. -/
def CRC64 : Nat → Nat → Nat
  | 0, byte => CRC64row0 byte
  | k + 1, byte => (CRC64 k byte >>> 8) ^^^ CRC64row0 (CRC64 k byte &&& 0xFF)

-- ======================================================================
-- Byte-update kernels (src/tables.rs)

/-- `update_inverted_crc32`:
`CRC32[0][(inverted_crc as u8 ^ byte) as usize] ^ (inverted_crc >> 8)`. -/
def update_inverted_crc32 (inverted_crc byte : Nat) : Nat :=
  CRC32 0 ((inverted_crc &&& 0xFF) ^^^ byte) ^^^ (inverted_crc >>> 8)

/-- `update_inverted_crc64`. -/
def update_inverted_crc64 (inverted_crc byte : Nat) : Nat :=
  CRC64 0 ((inverted_crc &&& 0xFF) ^^^ byte) ^^^ (inverted_crc >>> 8)

/-- `update_inverted_crc32_8bytes`, the slicing-by-8 kernel of
`src/tables.rs`; the 8-byte chunk `data[0..8]` is passed as 8 bytes. -/
def update_inverted_crc32_8bytes
    (inverted_crc d0 d1 d2 d3 d4 d5 d6 d7 : Nat) : Nat :=
  let inv := inverted_crc ^^^ (d0 ||| (d1 <<< 8) ||| (d2 <<< 16) ||| (d3 <<< 24))
  CRC32 0 d7 ^^^ CRC32 1 d6 ^^^ CRC32 2 d5 ^^^ CRC32 3 d4
    ^^^ CRC32 4 (inv >>> 24) ^^^ CRC32 5 ((inv >>> 16) &&& 0xFF)
    ^^^ CRC32 6 ((inv >>> 8) &&& 0xFF) ^^^ CRC32 7 (inv &&& 0xFF)

/-- `update_inverted_crc64_8bytes`, the slicing-by-8 kernel of
`src/tables.rs`; the 8-byte chunk `data[0..8]` is passed as 8 bytes. -/
def update_inverted_crc64_8bytes
    (inverted_crc d0 d1 d2 d3 d4 d5 d6 d7 : Nat) : Nat :=
  let inv := inverted_crc
    ^^^ (d0 ||| (d1 <<< 8) ||| (d2 <<< 16) ||| (d3 <<< 24)
      ||| (d4 <<< 32) ||| (d5 <<< 40) ||| (d6 <<< 48) ||| (d7 <<< 56))
  CRC64 7 (inv &&& 0xFF) ^^^ CRC64 6 ((inv >>> 8) &&& 0xFF)
    ^^^ CRC64 5 ((inv >>> 16) &&& 0xFF) ^^^ CRC64 4 ((inv >>> 24) &&& 0xFF)
    ^^^ CRC64 3 ((inv >>> 32) &&& 0xFF) ^^^ CRC64 2 ((inv >>> 40) &&& 0xFF)
    ^^^ CRC64 1 ((inv >>> 48) &&& 0xFF) ^^^ CRC64 0 (inv >>> 56)

-- ======================================================================
-- One-shot checksums (src/dual_crc.rs): internal loops

/-- The loop of `DualCrc::checksum32` (default feature set): 8-byte chunks
while at least 8 bytes remain, then byte-at-a-time for the tail. -/
def checksum32Loop : Nat → List Nat → Nat
  | inv, d0 :: d1 :: d2 :: d3 :: d4 :: d5 :: d6 :: d7 :: rest =>
      checksum32Loop (update_inverted_crc32_8bytes inv d0 d1 d2 d3 d4 d5 d6 d7) rest
  | inv, rest => rest.foldl update_inverted_crc32 inv

/-- The loop of `DualCrc::checksum64` (default feature set). -/
def checksum64Loop : Nat → List Nat → Nat
  | inv, d0 :: d1 :: d2 :: d3 :: d4 :: d5 :: d6 :: d7 :: rest =>
      checksum64Loop (update_inverted_crc64_8bytes inv d0 d1 d2 d3 d4 d5 d6 d7) rest
  | inv, rest => rest.foldl update_inverted_crc64 inv

-- ======================================================================
-- DualCrc (src/dual_crc.rs)

/-- The `DualCrc` streaming accumulator: the two inverted CRC states. -/
structure DualCrc where
  inverted_crc32 : Nat
  inverted_crc64 : Nat
  deriving DecidableEq

/-- `DualCrc::checksum32`: start from `!0`, run the loop, complement. -/
def DualCrc.checksum32 (data : List Nat) : Nat :=
  not32 (checksum32Loop 0xFFFFFFFF data)

/-- `DualCrc::checksum64`: start from `!0`, run the loop, complement. -/
def DualCrc.checksum64 (data : List Nat) : Nat :=
  not64 (checksum64Loop 0xFFFFFFFFFFFFFFFF data)

/-- `DualCrc::checksum`: the pair `(checksum32 data, checksum64 data)`. -/
def DualCrc.checksum (data : List Nat) : Nat × Nat :=
  (DualCrc.checksum32 data, DualCrc.checksum64 data)

/-- `DualCrc::new`: both inverted states start at all-ones. -/
def DualCrc.new : DualCrc :=
  ⟨0xFFFFFFFF, 0xFFFFFFFFFFFFFFFF⟩

/-- `DualCrc::get`. -/
def DualCrc.get (c : DualCrc) : Nat × Nat :=
  (not32 c.inverted_crc32, not64 c.inverted_crc64)

/-- `DualCrc::get32`. -/
def DualCrc.get32 (c : DualCrc) : Nat :=
  not32 c.inverted_crc32

/-- `DualCrc::get64`. -/
def DualCrc.get64 (c : DualCrc) : Nat :=
  not64 c.inverted_crc64

/-- `DualCrc::update` (default feature set): both inverted states advance
in lockstep, by 8-byte chunks while at least 8 bytes remain, then by
single bytes. -/
def DualCrc.update : DualCrc → List Nat → DualCrc
  | c, d0 :: d1 :: d2 :: d3 :: d4 :: d5 :: d6 :: d7 :: rest =>
      DualCrc.update
        ⟨update_inverted_crc32_8bytes c.inverted_crc32 d0 d1 d2 d3 d4 d5 d6 d7,
         update_inverted_crc64_8bytes c.inverted_crc64 d0 d1 d2 d3 d4 d5 d6 d7⟩
        rest
  | c, rest =>
      ⟨rest.foldl update_inverted_crc32 c.inverted_crc32,
       rest.foldl update_inverted_crc64 c.inverted_crc64⟩

-- ======================================================================
-- Galois-field multiplication (src/zeros.rs, mul32 / mul64)

/-- The 32-iteration loop body state of `mul32`, with a structural
iteration counter for the `for _ in 0..32` loop.  Each step is
`product = (product << 1) ^ (0u32.wrapping_sub(product >> 31) & POLYNOMIAL_32);
product ^= 0u32.wrapping_sub(b >> 31) & a; b <<= 1;`. -/
def xtime32 (product : Nat) : Nat :=
  ((product <<< 1) % 2 ^ 32)
    ^^^ (((2 ^ 32 - (product >>> 31)) % 2 ^ 32) &&& POLYNOMIAL_32)

def mulStep32 (a b product : Nat) : Nat :=
  xtime32 product ^^^ (((2 ^ 32 - (b >>> 31)) % 2 ^ 32) &&& a)

def mul32go : Nat → Nat → Nat → Nat → Nat
  | 0, _, _, product => product
  | fuel + 1, a, b, product =>
      mul32go fuel a ((b <<< 1) % 2 ^ 32) (mulStep32 a b product)

/-- `mul32`: product of `a` and `b` in the Galois field of `POLYNOMIAL_32`. -/
def mul32 (a b : Nat) : Nat := mul32go 32 a b 0

/-- The 64-iteration loop of `mul64`, analogous to `mul32go`. -/
def xtime64 (product : Nat) : Nat :=
  ((product <<< 1) % 2 ^ 64)
    ^^^ (((2 ^ 64 - (product >>> 63)) % 2 ^ 64) &&& POLYNOMIAL_64)

def mulStep64 (a b product : Nat) : Nat :=
  xtime64 product ^^^ (((2 ^ 64 - (b >>> 63)) % 2 ^ 64) &&& a)

def mul64go : Nat → Nat → Nat → Nat → Nat
  | 0, _, _, product => product
  | fuel + 1, a, b, product =>
      mul64go fuel a ((b <<< 1) % 2 ^ 64) (mulStep64 a b product)

/-- `mul64`: product of `a` and `b` in the Galois field of `POLYNOMIAL_64`. -/
def mul64 (a b : Nat) : Nat := mul64go 64 a b 0

-- ======================================================================
-- POW256 tables (build.rs, write_pow256_32_table / write_pow256_64_table)

/-- `POW256_32[n]`: entry 0 is 256, entry `n+1` squares entry `n`. -/
def POW256_32 : Nat → Nat
  | 0 => 256
  | n + 1 => mul32 (POW256_32 n) (POW256_32 n)

/-- `POW256_64[n]`: entry 0 is 256, entry `n+1` squares entry `n`. -/
def POW256_64 : Nat → Nat
  | 0 => 256
  | n + 1 => mul64 (POW256_64 n) (POW256_64 n)

/-- The generated `POW256_32` table as the finite array written by
`build.rs` (`USIZE_BITS` entries). -/
def POW256_32table : List Nat := (List.range USIZE_BITS).map POW256_32

/-- The generated `POW256_64` table as the finite array written by
`build.rs` (`USIZE_BITS` entries). -/
def POW256_64table : List Nat := (List.range USIZE_BITS).map POW256_64

-- ======================================================================
-- Zeros (src/zeros.rs)

/-- `usize::trailing_zeros`, with a structural bit counter: `usize` is
64-bit here, and the result for input `0` is 64, as in Rust. -/
def tzgo : Nat → Nat → Nat
  | 0, _ => 0
  | fuel + 1, n => if n % 2 = 1 then 0 else tzgo fuel (n / 2) + 1

/-- `usize::trailing_zeros` on a 64-bit `usize`. -/
def trailing_zeros (n : Nat) : Nat := tzgo USIZE_BITS n

/-- The `while power > 0` loop of `pow256_32` (src/zeros.rs), with a fuel
counter; 64 steps are enough for any `usize` power. -/
def pow256_32go : Nat → Nat → Nat → Nat → Nat
  | 0, result, _, _ => result
  | fuel + 1, result, pos, power =>
      if power = 0 then result
      else
        pow256_32go fuel
          (if power &&& 1 = 1 then mul32 result (POW256_32 pos) else result)
          (pos + 1) (power >>> 1)

/-- `pow256_32` (src/zeros.rs): `256 ** power` in the Galois field by
exponentiation by squaring over the `POW256_32` table.  Exact for every
`power ≠ 2^63`: there `trailing_zeros + 1 ≤ 63` and the plain `Nat`
shift is the source's `power >>= pos`.  At `power = 2^63` the source
overflows that shift (debug builds panic; release builds mask the
amount and then index the table out of bounds) — see the checked
models below, which surface that failure. -/
def pow256_32 (power : Nat) : Nat :=
  if power = 0 then 1
  else
    let pos := trailing_zeros power
    let result := POW256_32 pos
    let pos := pos + 1
    let power := power >>> pos
    pow256_32go 64 result pos power

/-- The `while power > 0` loop of `pow256_64` (src/zeros.rs). -/
def pow256_64go : Nat → Nat → Nat → Nat → Nat
  | 0, result, _, _ => result
  | fuel + 1, result, pos, power =>
      if power = 0 then result
      else
        pow256_64go fuel
          (if power &&& 1 = 1 then mul64 result (POW256_64 pos) else result)
          (pos + 1) (power >>> 1)

/-- `pow256_64` (src/zeros.rs); exact for every `power ≠ 2^63`, like
`pow256_32`. -/
def pow256_64 (power : Nat) : Nat :=
  if power = 0 then 1
  else
    let pos := trailing_zeros power
    let result := POW256_64 pos
    let pos := pos + 1
    let power := power >>> pos
    pow256_64go 64 result pos power

/-- The `Zeros` value: the pair of Galois-field factors. -/
structure Zeros where
  factor32 : Nat
  factor64 : Nat
  deriving DecidableEq

/-- `Zeros::new(byte_count)`. -/
def Zeros.new (byte_count : Nat) : Zeros :=
  ⟨pow256_32 byte_count, pow256_64 byte_count⟩

/-- `u32::reverse_bits` / `u64::reverse_bits`: bit `i` of the result is
bit `w - 1 - i` of the input. -/
def reverseBits (w x : Nat) : Nat :=
  (List.range w).foldl (fun acc i => acc ^^^ (if x.testBit i then 2 ^ (w - 1 - i) else 0)) 0

/-- `Zeros::apply_to_inverted_crc32`:
`mul32(inverted_crc.reverse_bits(), self.factor32).reverse_bits()`. -/
def Zeros.apply_to_inverted_crc32 (z : Zeros) (inverted_crc : Nat) : Nat :=
  reverseBits 32 (mul32 (reverseBits 32 inverted_crc) z.factor32)

/-- `Zeros::apply_to_inverted_crc64`. -/
def Zeros.apply_to_inverted_crc64 (z : Zeros) (inverted_crc : Nat) : Nat :=
  reverseBits 64 (mul64 (reverseBits 64 inverted_crc) z.factor64)

/-- `DualCrc::update_with_zeros`. -/
def DualCrc.update_with_zeros (c : DualCrc) (zeros : Zeros) : DualCrc :=
  ⟨zeros.apply_to_inverted_crc32 c.inverted_crc32,
   zeros.apply_to_inverted_crc64 c.inverted_crc64⟩

-- ======================================================================
-- Fallible models of pow256_32 / pow256_64: same algorithm, but every
-- table read goes through `List.get?` on the finite generated table, so
-- an out-of-bounds index surfaces as `none`, and the initial
-- `power >>= pos` is modelled with the shift amount masked to the 64-bit
-- width (`% 64`), which is what a release build executes when
-- `pos = trailing_zeros(power) + 1` reaches 64 (at `power = 2^63`; a
-- debug build panics on that shift overflow right away).  For
-- `pos <= 63` the mask is the identity, so on that domain these agree
-- with the total functions above.

/-- The `while` loop of `pow256_32` with checked table reads; the table
is read exactly when `power & 1 == 1`, as in the source. -/
def pow256_32goChecked : Nat → Nat → Nat → Nat → Option Nat
  | 0, result, _, _ => some result
  | fuel + 1, result, pos, power =>
      if power = 0 then some result
      else
        (if power &&& 1 = 1 then (POW256_32table.get? pos).map (mul32 result)
         else some result).bind
          (fun r => pow256_32goChecked fuel r (pos + 1) (power >>> 1))

/-- `pow256_32` with checked table reads and the masked initial shift:
the faithful (release-semantics) model of the source function. -/
def pow256_32Checked (power : Nat) : Option Nat :=
  if power = 0 then some 1
  else
    let pos := trailing_zeros power
    (POW256_32table.get? pos).bind
      (fun result =>
        pow256_32goChecked 64 result (pos + 1) (power >>> ((pos + 1) % 64)))

/-- The `while` loop of `pow256_64` with checked table reads. -/
def pow256_64goChecked : Nat → Nat → Nat → Nat → Option Nat
  | 0, result, _, _ => some result
  | fuel + 1, result, pos, power =>
      if power = 0 then some result
      else
        (if power &&& 1 = 1 then (POW256_64table.get? pos).map (mul64 result)
         else some result).bind
          (fun r => pow256_64goChecked fuel r (pos + 1) (power >>> 1))

/-- `pow256_64` with checked table reads and the masked initial shift:
the faithful (release-semantics) model of the source function. -/
def pow256_64Checked (power : Nat) : Option Nat :=
  if power = 0 then some 1
  else
    let pos := trailing_zeros power
    (POW256_64table.get? pos).bind
      (fun result =>
        pow256_64goChecked 64 result (pos + 1) (power >>> ((pos + 1) % 64)))

/-- `Zeros::new` through the fallible pow256 models: `none` exactly when
one of the exponentiations hits the error path. -/
def Zeros.newChecked (byte_count : Nat) : Option Zeros :=
  match pow256_32Checked byte_count, pow256_64Checked byte_count with
  | some f32, some f64 => some ⟨f32, f64⟩
  | _, _ => none

-- ======================================================================
-- RollingDualCrc (src/rolling_dual_crc.rs)

/-- The `RollingDualCrc` state: inverted CRCs, circular buffer bookkeeping
and the two 256-entry removal tables (embedded as functions on bytes). -/
structure RollingDualCrc where
  inverted_crc32 : Nat
  inverted_crc64 : Nat
  start_pos : Nat
  window_size : Nat
  data : List Nat
  table32 : Nat → Nat
  table64 : Nat → Nat

/-- `RollingDualCrc::build_tables`: for each byte value, the checksum of
that byte followed by `window_size` zeros, relative to the checksum of
`window_size` zeros alone. -/
def RollingDualCrc.build_tables (window_size : Nat) : (Nat → Nat) × (Nat → Nat) :=
  let zeros := Zeros.new window_size
  let zero_crc := DualCrc.update_with_zeros DualCrc.new zeros
  (fun byte =>
      let byte_crc := DualCrc.update_with_zeros (DualCrc.update DualCrc.new [byte]) zeros
      byte_crc.get32 ^^^ zero_crc.get32,
   fun byte =>
      let byte_crc := DualCrc.update_with_zeros (DualCrc.update DualCrc.new [byte]) zeros
      byte_crc.get64 ^^^ zero_crc.get64)

/-- `RollingDualCrc::new`: `none` models the panic on an empty window. -/
def RollingDualCrc.new (initial_window : List Nat) : Option RollingDualCrc :=
  let window_size := initial_window.length
  if window_size = 0 then none
  else
    let cs := DualCrc.checksum initial_window
    let tables := RollingDualCrc.build_tables window_size
    some
      { inverted_crc32 := not32 cs.1
        inverted_crc64 := not64 cs.2
        start_pos := 0
        window_size := window_size
        data := initial_window
        table32 := tables.1
        table64 := tables.2 }

/-- `RollingDualCrc::get`. -/
def RollingDualCrc.get (c : RollingDualCrc) : Nat × Nat :=
  (not32 c.inverted_crc32, not64 c.inverted_crc64)

/-- `RollingDualCrc::get32`. -/
def RollingDualCrc.get32 (c : RollingDualCrc) : Nat :=
  not32 c.inverted_crc32

/-- `RollingDualCrc::get64`. -/
def RollingDualCrc.get64 (c : RollingDualCrc) : Nat :=
  not64 c.inverted_crc64

/-- `RollingDualCrc::roll`: append the new byte, XOR out the removal
contribution of the departing byte `data[start_pos]`, store the new byte
there and advance `start_pos` circularly. -/
def RollingDualCrc.roll (c : RollingDualCrc) (data : Nat) : RollingDualCrc :=
  let leaving := c.data.getD c.start_pos 0
  let inverted_crc32 := update_inverted_crc32 c.inverted_crc32 data ^^^ c.table32 leaving
  let inverted_crc64 := update_inverted_crc64 c.inverted_crc64 data ^^^ c.table64 leaving
  let newPos := c.start_pos + 1
  { c with
      inverted_crc32 := inverted_crc32
      inverted_crc64 := inverted_crc64
      data := c.data.set c.start_pos data
      start_pos := if newPos = c.window_size then 0 else newPos }

/-- `RollingDualCrc::roll_slice`: `roll` once per byte, in order. -/
def RollingDualCrc.roll_slice (c : RollingDualCrc) (data : List Nat) : RollingDualCrc :=
  data.foldl RollingDualCrc.roll c

/-- The window currently held by the circular buffer, read from
`start_pos` around. -/
def RollingDualCrc.windowBytes (c : RollingDualCrc) : List Nat :=
  c.data.drop c.start_pos ++ c.data.take c.start_pos


-- ======================================================================
-- Derived definitions used by the verification

/-- XOR-linearity of a map, on all of `Nat`. -/
def IsLin (f : Nat → Nat) : Prop :=
  ∀ x y, f (x ^^^ y) = f x ^^^ f y

/-- XOR-linearity of a map on `w`-bit values. -/
def LinOn (w : Nat) (f : Nat → Nat) : Prop :=
  ∀ x, x < 2 ^ w → ∀ y, y < 2 ^ w → f (x ^^^ y) = f x ^^^ f y

/-- The single zero-byte update of the inverted CRC-32 state: the
XOR-linear core of all 32-bit kernels. -/
def uz32 (inv : Nat) : Nat := CRC32row0 (inv &&& 0xFF) ^^^ (inv >>> 8)

/-- The per-message part of a byte-at-a-time CRC-32 fold from state 0:
byte `i` of an `n`-byte message contributes `uz32^[n-i]` of itself. -/
def tower32 : List Nat → Nat
  | [] => 0
  | b :: r => uz32^[r.length + 1] b ^^^ tower32 r

/-- The single zero-byte update of the inverted CRC-64 state. -/
def uz64 (inv : Nat) : Nat := CRC64row0 (inv &&& 0xFF) ^^^ (inv >>> 8)

/-- The per-message part of a byte-at-a-time CRC-64 fold from state 0. -/
def tower64 : List Nat → Nat
  | [] => 0
  | b :: r => uz64^[r.length + 1] b ^^^ tower64 r

/-- Multiply by `256` (the byte shift) in the 32-bit Galois field. -/
def m256_32 (r : Nat) : Nat := mul32 r 256

def m256_64 (r : Nat) : Nat := mul64 r 256

/-- The rolling window produced by seeding with the byte `a`. -/
def rollSeed : RollingDualCrc :=
  (RollingDualCrc.new [97]).getD
    ⟨0, 0, 0, 0, [], fun _ => 0, fun _ => 0⟩

-- ======================================================================
-- GF(2) linearity toolkit: XOR-linear maps on w-bit values are
-- determined by their values on the basis vectors 2^i, which lets
-- identities between compositions of the embedded primitives be settled
-- by finite computation.

/-- Distribution of XOR over right shift. -/
theorem xor_shiftRight_distrib (x y k : Nat) :
    (x ^^^ y) >>> k = x >>> k ^^^ y >>> k := by
  apply Nat.eq_of_testBit_eq
  intro i
  simp [Nat.testBit_shiftRight, Nat.testBit_xor]

/-- Distribution of XOR over left shift. -/
theorem xor_shiftLeft_distrib (x y k : Nat) :
    (x ^^^ y) <<< k = x <<< k ^^^ y <<< k := by
  apply Nat.eq_of_testBit_eq
  intro i
  simp [Nat.testBit_shiftLeft, Nat.testBit_xor]
  rcases Nat.decLe k i with h | h <;> simp [h]

/-- Distribution of XOR over reduction modulo a power of two. -/
theorem xor_mod_two_pow (x y n : Nat) :
    (x ^^^ y) % 2 ^ n = x % 2 ^ n ^^^ y % 2 ^ n := by
  apply Nat.eq_of_testBit_eq
  intro i
  simp [Nat.testBit_mod_two_pow, Nat.testBit_xor]
  rcases Nat.decLt i n with h | h <;> simp [h]

/-- Masking with `2^n - 1` is reduction modulo `2^n`. -/
theorem and_two_pow_sub_one (x n : Nat) : x &&& (2 ^ n - 1) = x % 2 ^ n := by
  apply Nat.eq_of_testBit_eq
  intro i
  simp [Nat.testBit_and, Nat.testBit_mod_two_pow, Nat.testBit_two_pow_sub_one,
    Bool.and_comm]



theorem IsLin.linOn {f : Nat → Nat} (hf : IsLin f) (w : Nat) : LinOn w f :=
  fun x _ y _ => hf x y

theorem LinOn.mono {w : Nat} {f : Nat → Nat} (hf : LinOn w f) {v : Nat}
    (hv : v ≤ w) : LinOn v f := by
  intro x hx y hy
  have hle : (2 : Nat) ^ v ≤ 2 ^ w := Nat.pow_le_pow_right (by omega) hv
  exact hf x (lt_of_lt_of_le hx hle) y (lt_of_lt_of_le hy hle)

theorem LinOn.map_zero {w : Nat} {f : Nat → Nat} (hf : LinOn w f) : f 0 = 0 := by
  have h := hf 0 (Nat.two_pow_pos w) 0 (Nat.two_pow_pos w)
  rwa [Nat.xor_self, Nat.xor_self] at h

/-- On disjoint bit ranges, XOR with a power of two is addition. -/
theorem two_pow_xor_eq_add {w r : Nat} (hr : r < 2 ^ w) :
    2 ^ w ^^^ r = 2 ^ w + r := by
  apply Nat.eq_of_testBit_eq
  intro i
  rcases lt_trichotomy i w with hi | rfl | hi
  · rw [Nat.testBit_xor, Nat.testBit_two_pow, Nat.testBit_two_pow_add_gt hi]
    simp [Nat.ne_of_gt hi]
  · rw [Nat.testBit_xor, Nat.testBit_two_pow, Nat.testBit_two_pow_add_eq]
    simp [Nat.testBit_lt_two_pow hr]
  · have hb : 2 ^ w + r < 2 ^ i := by
      have h1 : 2 ^ (w + 1) ≤ 2 ^ i := Nat.pow_le_pow_right (by omega) (by omega)
      have h2 : 2 ^ (w + 1) = 2 ^ w + 2 ^ w := by rw [Nat.pow_succ]; omega
      omega
    rw [Nat.testBit_xor, Nat.testBit_two_pow, Nat.testBit_lt_two_pow hb,
      Nat.testBit_lt_two_pow (lt_trans hr (by omega))]
    simp [Nat.ne_of_lt hi]

/-- The top bit of a `w+1`-bit value, as the quotient by `2^w`. -/
theorem div_two_pow_cases {w x : Nat} (hx : x < 2 ^ (w + 1)) :
    x / 2 ^ w = 0 ∨ x / 2 ^ w = 1 := by
  have h2 : 2 ^ (w + 1) = 2 ^ w * 2 := Nat.pow_succ ..
  have hq : x / 2 ^ w < 2 := Nat.div_lt_of_lt_mul (by omega)
  rcases e : x / 2 ^ w with _ | n
  · exact Or.inl rfl
  · rw [e] at hq
    right
    omega

/-- Every `w+1`-bit value splits as its low `w` bits XOR its top bit. -/
theorem split_top_bit {w x : Nat} (hx : x < 2 ^ (w + 1)) :
    x = x % 2 ^ w ^^^ 2 ^ w * (x / 2 ^ w) := by
  have hdm := Nat.div_add_mod x (2 ^ w)
  have hm : x % 2 ^ w < 2 ^ w := Nat.mod_lt _ (Nat.two_pow_pos w)
  rcases div_two_pow_cases hx with h | h
  · rw [h, Nat.mul_zero, Nat.zero_add] at hdm
    rw [h, Nat.mul_zero, Nat.xor_zero]
    exact hdm.symm
  · rw [h, Nat.mul_one] at hdm
    rw [h, Nat.mul_one, Nat.xor_comm, two_pow_xor_eq_add hm]
    exact hdm.symm

/-- Two maps that are XOR-linear on `w`-bit values and agree on the basis
vectors `2^i`, `i < w`, agree on all `w`-bit values. -/
theorem linOn_ext {f g : Nat → Nat} :
    ∀ w, LinOn w f → LinOn w g → (∀ i, i < w → f (2 ^ i) = g (2 ^ i)) →
      ∀ x, x < 2 ^ w → f x = g x := by
  intro w
  induction w with
  | zero =>
      intro hf hg _ x hx
      have hx0 : x = 0 := by simpa using hx
      rw [hx0, hf.map_zero, hg.map_zero]
  | succ w ih =>
      intro hf hg hb x hx
      have hlo : x % 2 ^ w < 2 ^ w := Nat.mod_lt _ (Nat.two_pow_pos w)
      have hflo : f (x % 2 ^ w) = g (x % 2 ^ w) :=
        ih (hf.mono (by omega)) (hg.mono (by omega))
          (fun i hi => hb i (by omega)) _ hlo
      have hsplit := split_top_bit hx
      have hwlt : 2 ^ w < 2 ^ (w + 1) := by
        have h2 : 2 ^ (w + 1) = 2 ^ w * 2 := Nat.pow_succ ..
        have := Nat.two_pow_pos w
        omega
      rcases div_two_pow_cases hx with h | h
      · have hx' : x = x % 2 ^ w := by
          rw [h, Nat.mul_zero, Nat.xor_zero] at hsplit
          exact hsplit
        rw [hx']
        exact hflo
      · have hx' : x = x % 2 ^ w ^^^ 2 ^ w := by
          rw [h, Nat.mul_one] at hsplit
          exact hsplit
        rw [hx', hf _ (by omega) _ hwlt, hg _ (by omega) _ hwlt, hflo,
          hb w (by omega)]

/-- Bilinear maps agreeing on pairs of basis vectors agree everywhere. -/
theorem linOn_ext2 {f g : Nat → Nat → Nat} {w v : Nat}
    (hfx : ∀ y, y < 2 ^ v → LinOn w (fun x => f x y))
    (hgx : ∀ y, y < 2 ^ v → LinOn w (fun x => g x y))
    (hfy : ∀ x, x < 2 ^ w → LinOn v (fun y => f x y))
    (hgy : ∀ x, x < 2 ^ w → LinOn v (fun y => g x y))
    (hb : ∀ i, i < w → ∀ j, j < v → f (2 ^ i) (2 ^ j) = g (2 ^ i) (2 ^ j)) :
    ∀ x, x < 2 ^ w → ∀ y, y < 2 ^ v → f x y = g x y := by
  intro x hx y hy
  have hybasis : ∀ j, j < v → f x (2 ^ j) = g x (2 ^ j) := by
    intro j hj
    have hjlt : 2 ^ j < 2 ^ v := Nat.pow_lt_pow_right (by omega) hj
    exact linOn_ext w (hfx _ hjlt) (hgx _ hjlt) (fun i hi => hb i hi j hj) x hx
  exact linOn_ext v (hfy x hx) (hgy x hx) hybasis y hy

theorem xor_left_comm (a b c : Nat) : a ^^^ (b ^^^ c) = b ^^^ (a ^^^ c) := by
  rw [← Nat.xor_assoc, Nat.xor_comm a b, Nat.xor_assoc]

theorem IsLin.comp {f g : Nat → Nat} (hf : IsLin f) (hg : IsLin g) :
    IsLin (fun x => f (g x)) := by
  intro x y
  show f (g (x ^^^ y)) = f (g x) ^^^ f (g y)
  rw [hg x y, hf (g x) (g y)]

theorem IsLin.xorFun {f g : Nat → Nat} (hf : IsLin f) (hg : IsLin g) :
    IsLin (fun x => f x ^^^ g x) := by
  intro x y
  simp only [hf x y, hg x y]
  simp only [Nat.xor_assoc]
  rw [Nat.xor_comm (f y) (g x ^^^ g y), Nat.xor_assoc, Nat.xor_comm (g y) (f y)]

theorem isLin_id : IsLin (fun x => x) := fun _ _ => rfl

theorem isLin_zero : IsLin (fun _ => 0) := by
  intro _ _
  simp

theorem isLin_shiftRight (k : Nat) : IsLin (fun x => x >>> k) :=
  fun x y => xor_shiftRight_distrib x y k

theorem isLin_shiftLeft (k : Nat) : IsLin (fun x => x <<< k) :=
  fun x y => xor_shiftLeft_distrib x y k

theorem isLin_and_mask (m : Nat) : IsLin (fun x => x &&& m) :=
  fun _ _ => Nat.and_xor_distrib_right ..

theorem isLin_mod_two_pow (n : Nat) : IsLin (fun x => x % 2 ^ n) :=
  fun x y => xor_mod_two_pow x y n

theorem IsLin.iterate {f : Nat → Nat} (hf : IsLin f) (n : Nat) : IsLin f^[n] := by
  induction n with
  | zero => simpa using isLin_id
  | succ n ih =>
      intro x y
      rw [Function.iterate_succ_apply, Function.iterate_succ_apply,
        Function.iterate_succ_apply, hf x y, ih]

/-- The value of `0uW.wrapping_sub(v) & c` for a bit `v`. -/
theorem wrap_mask_zero (W c : Nat) : ((2 ^ W - 0) % 2 ^ W) &&& c = 0 := by
  simp [Nat.mod_self]

theorem wrap_mask_one (W c : Nat) (hc : c < 2 ^ W) :
    ((2 ^ W - 1) % 2 ^ W) &&& c = c := by
  have h1 : 2 ^ W - 1 < 2 ^ W := by
    have := Nat.two_pow_pos W
    omega
  rw [Nat.mod_eq_of_lt h1]
  apply Nat.eq_of_testBit_eq
  intro i
  rw [Nat.testBit_and, Nat.testBit_two_pow_sub_one]
  rcases Nat.decLt i W with h | h
  · have hlt : c < 2 ^ i := lt_of_lt_of_le hc (Nat.pow_le_pow_right (by omega) (by omega))
    simp [h, Nat.testBit_lt_two_pow hlt]
  · simp [h]

/-- `x &&& 1` is a bit. -/
theorem and_one_cases (x : Nat) : x &&& 1 = 0 ∨ x &&& 1 = 1 := by
  rw [Nat.and_one_is_mod]
  omega

/-- The table-generator step of `build.rs` is XOR-linear. -/
theorem isLin_crcStep32 : IsLin crcStep32 := by
  intro x y
  unfold crcStep32
  have hxy : (x ^^^ y) &&& 1 = (x &&& 1) ^^^ (y &&& 1) := Nat.and_xor_distrib_right ..
  have hrp : REVERSED_POLYNOMIAL_32 < 2 ^ 32 := by decide
  rw [xor_shiftRight_distrib]
  rcases and_one_cases x with hx | hx <;> rcases and_one_cases y with hy | hy <;>
    rw [hxy, hx, hy] <;>
    simp only [Nat.xor_self, Nat.xor_zero, Nat.zero_xor, wrap_mask_zero,
      wrap_mask_one 32 _ hrp] <;>
    simp [Nat.xor_assoc, Nat.xor_comm, xor_left_comm, Nat.xor_self, Nat.xor_zero,
      Nat.zero_xor, Nat.xor_cancel_left]

/-- The table-generator step for the 64-bit table is XOR-linear. -/
theorem isLin_crcStep64 : IsLin crcStep64 := by
  intro x y
  unfold crcStep64
  have hxy : (x ^^^ y) &&& 1 = (x &&& 1) ^^^ (y &&& 1) := Nat.and_xor_distrib_right ..
  have hrp : REVERSED_POLYNOMIAL_64 < 2 ^ 64 := by decide
  rw [xor_shiftRight_distrib]
  rcases and_one_cases x with hx | hx <;> rcases and_one_cases y with hy | hy <;>
    rw [hxy, hx, hy] <;>
    simp only [Nat.xor_self, Nat.xor_zero, Nat.zero_xor, wrap_mask_zero,
      wrap_mask_one 64 _ hrp] <;>
    simp [Nat.xor_assoc, Nat.xor_comm, xor_left_comm, Nat.xor_self, Nat.xor_zero,
      Nat.zero_xor, Nat.xor_cancel_left]

theorem isLin_CRC32row0 : IsLin CRC32row0 :=
  fun x y => isLin_crcStep32.iterate 8 x y

theorem isLin_CRC64row0 : IsLin CRC64row0 :=
  fun x y => isLin_crcStep64.iterate 8 x y

/-- Swap the middle operands of a double XOR. -/
theorem xor_xor_swap (a b c d : Nat) :
    (a ^^^ b) ^^^ (c ^^^ d) = (a ^^^ c) ^^^ (b ^^^ d) := by
  simp only [Nat.xor_assoc]
  rw [xor_left_comm b c d]

/-- Iterating a bound-preserving map preserves the bound. -/
theorem iterate_lt {f : Nat → Nat} {B : Nat} (hf : ∀ x, x < B → f x < B)
    (n : Nat) : ∀ x, x < B → f^[n] x < B := by
  induction n with
  | zero => intro x hx; simpa using hx
  | succ n ih =>
      intro x hx
      rw [Function.iterate_succ_apply]
      exact ih _ (hf x hx)

theorem shiftRight_le_self (x k : Nat) : x >>> k ≤ x := by
  rw [Nat.shiftRight_eq_div_pow]
  exact Nat.div_le_self ..

theorem and_255_eq_mod (x : Nat) : x &&& 0xFF = x % 256 := by
  have h : (0xFF : Nat) = 2 ^ 8 - 1 := by norm_num
  have h2 : (256 : Nat) = 2 ^ 8 := by norm_num
  rw [h, and_two_pow_sub_one, h2]

theorem byte_and_255 {b : Nat} (hb : b < 256) : b &&& 0xFF = b := by
  rw [and_255_eq_mod, Nat.mod_eq_of_lt hb]

theorem byte_shiftRight8 {b : Nat} (hb : b < 256) : b >>> 8 = 0 := by
  rw [Nat.shiftRight_eq_div_pow]
  exact Nat.div_eq_of_lt (by omega)

theorem and_255_lt (x : Nat) : x &&& 0xFF < 256 := by
  rw [and_255_eq_mod]
  exact Nat.mod_lt _ (by omega)

theorem shiftLeft_and_255 {k : Nat} (hk : 8 ≤ k) (x : Nat) :
    (x <<< k) &&& 0xFF = 0 := by
  rw [and_255_eq_mod, Nat.shiftLeft_eq]
  have h : x * 2 ^ k = x * 2 ^ (k - 8) * 256 := by
    rw [Nat.mul_assoc]
    congr 1
    have h8 : (256 : Nat) = 2 ^ 8 := by norm_num
    rw [h8, ← Nat.pow_add]
    congr 1
    omega
  rw [h]
  exact Nat.mul_mod_left _ _

theorem shiftLeft_shiftRight8 {k : Nat} (hk : 8 ≤ k) (x : Nat) :
    (x <<< k) >>> 8 = x <<< (k - 8) := by
  rw [Nat.shiftLeft_eq, Nat.shiftLeft_eq, Nat.shiftRight_eq_div_pow]
  have h : x * 2 ^ k = x * 2 ^ (k - 8) * 2 ^ 8 := by
    rw [Nat.mul_assoc, ← Nat.pow_add]
    congr 2
    omega
  rw [h]
  exact Nat.mul_div_cancel _ (by norm_num)

theorem shiftRight_lt_of_lt {x w k : Nat} (hx : x < 2 ^ w) :
    x >>> k < 2 ^ (w - k) := by
  rw [Nat.shiftRight_eq_div_pow]
  by_cases h : k ≤ w
  · apply Nat.div_lt_of_lt_mul
    rw [← Nat.pow_add]
    exact lt_of_lt_of_le hx (Nat.pow_le_pow_right (by omega) (by omega))
  · have hw : x < 2 ^ k := lt_of_lt_of_le hx (Nat.pow_le_pow_right (by omega) (by omega))
    rw [Nat.div_eq_of_lt hw]
    exact Nat.two_pow_pos _

-- ======================================================================
-- The zero-byte update map and the table characterization (32-bit side)


theorem update32_zero (inv : Nat) : update_inverted_crc32 inv 0 = uz32 inv := by
  simp [update_inverted_crc32, uz32, CRC32]

theorem isLin_uz32 : IsLin uz32 := by
  intro x y
  unfold uz32
  rw [Nat.and_xor_distrib_right, isLin_CRC32row0 (x &&& 0xFF) (y &&& 0xFF),
    xor_shiftRight_distrib, xor_xor_swap]

theorem isLin_uz32_iter (n : Nat) : IsLin uz32^[n] := isLin_uz32.iterate n

/-- A byte update is the zero-byte update of the XORed state. -/
theorem update32_eq_uz32 (inv : Nat) {b : Nat} (hb : b < 256) :
    update_inverted_crc32 inv b = uz32 (inv ^^^ b) := by
  unfold update_inverted_crc32 uz32
  have h1 : (inv ^^^ b) &&& 0xFF = (inv &&& 0xFF) ^^^ b := by
    rw [Nat.and_xor_distrib_right, byte_and_255 hb]
  have h2 : (inv ^^^ b) >>> 8 = inv >>> 8 := by
    rw [xor_shiftRight_distrib, byte_shiftRight8 hb, Nat.xor_zero]
  rw [h1, h2]
  rfl

/-- The slicing tables are iterated zero-byte updates of the byte. -/
theorem CRC32_eq_uz32_iter (k : Nat) {b : Nat} (hb : b < 256) :
    CRC32 k b = uz32^[k + 1] b := by
  induction k with
  | zero =>
      show CRC32row0 b = uz32^[1] b
      simp [uz32, byte_and_255 hb, byte_shiftRight8 hb]
  | succ k ih =>
      show (CRC32 k b >>> 8) ^^^ CRC32row0 (CRC32 k b &&& 0xFF) = uz32^[k + 1 + 1] b
      rw [Nat.xor_comm, Function.iterate_succ_apply', ← ih]
      rfl

theorem crcStep32_lt (x : Nat) (hx : x < 2 ^ 32) : crcStep32 x < 2 ^ 32 := by
  unfold crcStep32
  apply Nat.xor_lt_two_pow
  · exact lt_of_le_of_lt (shiftRight_le_self ..) hx
  · exact lt_of_le_of_lt (Nat.and_le_right ..) (by decide)

theorem CRC32row0_lt (x : Nat) (hx : x < 2 ^ 32) : CRC32row0 x < 2 ^ 32 :=
  iterate_lt crcStep32_lt 8 x hx

theorem uz32_lt (x : Nat) (hx : x < 2 ^ 32) : uz32 x < 2 ^ 32 := by
  unfold uz32
  apply Nat.xor_lt_two_pow
  · exact CRC32row0_lt _ (lt_trans (and_255_lt x) (by norm_num))
  · exact lt_of_le_of_lt (shiftRight_le_self ..) hx

theorem uz32_iter_lt (n x : Nat) (hx : x < 2 ^ 32) : uz32^[n] x < 2 ^ 32 :=
  iterate_lt uz32_lt n x hx

-- ======================================================================
-- Byte-fold reference semantics (32-bit side)


/-- A byte-at-a-time fold splits into the state part and the message part. -/
theorem fold32_split (ds : List Nat) (hds : ∀ b ∈ ds, b < 256) (x : Nat) :
    ds.foldl update_inverted_crc32 x = uz32^[ds.length] x ^^^ tower32 ds := by
  induction ds generalizing x with
  | nil => simp [tower32]
  | cons b r ih =>
      have hb : b < 256 := hds b (by simp)
      have hr : ∀ c ∈ r, c < 256 := fun c hc => hds c (by simp [hc])
      rw [List.foldl_cons, ih hr, update32_eq_uz32 x hb, isLin_uz32 x b,
        isLin_uz32_iter r.length (uz32 x) (uz32 b)]
      show uz32^[r.length] (uz32 x) ^^^ uz32^[r.length] (uz32 b) ^^^ tower32 r = _
      rw [← Function.iterate_succ_apply, ← Function.iterate_succ_apply]
      show uz32^[r.length + 1] x ^^^ uz32^[r.length + 1] b ^^^ tower32 r = _
      rw [List.length_cons, tower32, Nat.xor_assoc]

set_option maxRecDepth 100000 in
/-- Bytes of a 32-bit state feed the towers of heights 8 down to 5. -/
theorem uz32_iter8_bytes (inv : Nat) (hinv : inv < 2 ^ 32) :
    uz32^[8] inv
      = uz32^[8] (inv &&& 0xFF) ^^^ uz32^[7] ((inv >>> 8) &&& 0xFF)
        ^^^ uz32^[6] ((inv >>> 16) &&& 0xFF) ^^^ uz32^[5] (inv >>> 24) := by
  have hL : LinOn 32 (fun v => uz32^[8] v) := (isLin_uz32_iter 8).linOn 32
  have hR : LinOn 32 (fun v =>
      uz32^[8] (v &&& 0xFF) ^^^ uz32^[7] ((v >>> 8) &&& 0xFF)
        ^^^ uz32^[6] ((v >>> 16) &&& 0xFF) ^^^ uz32^[5] (v >>> 24)) := by
    have h1 : IsLin (fun v => uz32^[8] (v &&& 0xFF)) :=
      (isLin_uz32_iter 8).comp (isLin_and_mask 0xFF)
    have h2 : IsLin (fun v => uz32^[7] ((v >>> 8) &&& 0xFF)) :=
      (isLin_uz32_iter 7).comp ((isLin_and_mask 0xFF).comp (isLin_shiftRight 8))
    have h3 : IsLin (fun v => uz32^[6] ((v >>> 16) &&& 0xFF)) :=
      (isLin_uz32_iter 6).comp ((isLin_and_mask 0xFF).comp (isLin_shiftRight 16))
    have h4 : IsLin (fun v => uz32^[5] (v >>> 24)) :=
      (isLin_uz32_iter 5).comp (isLin_shiftRight 24)
    exact (((h1.xorFun h2).xorFun h3).xorFun h4).linOn 32
  exact linOn_ext 32 hL hR (by decide) inv hinv

-- ======================================================================
-- Little-endian word packing lemmas

/-- OR of values with disjoint bits is XOR. -/
theorem or_eq_xor_of_and_eq_zero {a b : Nat} (h : a &&& b = 0) :
    a ||| b = a ^^^ b := by
  apply Nat.eq_of_testBit_eq
  intro i
  have hi : (a &&& b).testBit i = false := by rw [h]; exact Nat.zero_testBit i
  rw [Nat.testBit_and] at hi
  rw [Nat.testBit_or, Nat.testBit_xor]
  rcases ha : a.testBit i <;> rcases hb : b.testBit i <;> simp_all

/-- A value below `2^k` has no bits in common with anything shifted by `k`. -/
theorem and_shl_eq_zero {a k : Nat} (ha : a < 2 ^ k) (b : Nat) :
    a &&& b <<< k = 0 := by
  apply Nat.eq_of_testBit_eq
  intro i
  rw [Nat.testBit_and, Nat.testBit_shiftLeft, Nat.zero_testBit]
  by_cases h : k ≤ i
  · have hz : a.testBit i = false :=
      Nat.testBit_lt_two_pow (lt_of_lt_of_le ha (Nat.pow_le_pow_right (by omega) h))
    simp [hz]
  · simp [h]

theorem shiftLeft_lt {x m : Nat} (hx : x < 2 ^ m) (k : Nat) :
    x <<< k < 2 ^ (m + k) := by
  rw [Nat.shiftLeft_eq, Nat.pow_add]
  exact Nat.mul_lt_mul_of_lt_of_le hx (le_refl _) (Nat.two_pow_pos k)

theorem shiftRight_eq_zero {x k : Nat} (hx : x < 2 ^ k) : x >>> k = 0 := by
  rw [Nat.shiftRight_eq_div_pow]
  exact Nat.div_eq_of_lt hx

theorem shl_shr_of_le {k j : Nat} (h : k ≤ j) (x : Nat) :
    (x <<< k) >>> j = x >>> (j - k) := by
  rw [Nat.shiftLeft_eq, Nat.shiftRight_eq_div_pow, Nat.shiftRight_eq_div_pow]
  have hj : 2 ^ j = 2 ^ k * 2 ^ (j - k) := by
    rw [← Nat.pow_add]
    congr 1
    omega
  rw [hj, Nat.mul_comm x (2 ^ k), Nat.mul_div_mul_left _ _ (Nat.two_pow_pos k)]

-- ======================================================================
-- The slicing-by-8 kernel agrees with eight single-byte updates (32-bit)

theorem byte_lt_pow8 {b : Nat} (hb : b < 256) : b < 2 ^ 8 := by
  have h : (2 : Nat) ^ 8 = 256 := by norm_num
  omega

/-- The packed little-endian 32-bit word is the XOR of its shifted bytes. -/
theorem word32_or_eq_xor {d0 d1 d2 : Nat} (d3 : Nat)
    (h0 : d0 < 256) (h1 : d1 < 256) (h2 : d2 < 256) :
    d0 ||| d1 <<< 8 ||| d2 <<< 16 ||| d3 <<< 24
      = d0 ^^^ d1 <<< 8 ^^^ d2 <<< 16 ^^^ d3 <<< 24 := by
  have b0 := byte_lt_pow8 h0
  have b1 := byte_lt_pow8 h1
  have b2 := byte_lt_pow8 h2
  have e1 : d0 ||| d1 <<< 8 = d0 ^^^ d1 <<< 8 :=
    or_eq_xor_of_and_eq_zero (and_shl_eq_zero b0 d1)
  have s1 : d0 ^^^ d1 <<< 8 < 2 ^ 16 :=
    Nat.xor_lt_two_pow (lt_of_lt_of_le b0 (by norm_num)) (shiftLeft_lt b1 8)
  have e2 : d0 ^^^ d1 <<< 8 ||| d2 <<< 16 = d0 ^^^ d1 <<< 8 ^^^ d2 <<< 16 :=
    or_eq_xor_of_and_eq_zero (and_shl_eq_zero s1 d2)
  have s2 : d0 ^^^ d1 <<< 8 ^^^ d2 <<< 16 < 2 ^ 24 :=
    Nat.xor_lt_two_pow (lt_of_lt_of_le s1 (by norm_num)) (shiftLeft_lt b2 16)
  have e3 : d0 ^^^ d1 <<< 8 ^^^ d2 <<< 16 ||| d3 <<< 24
      = d0 ^^^ d1 <<< 8 ^^^ d2 <<< 16 ^^^ d3 <<< 24 :=
    or_eq_xor_of_and_eq_zero (and_shl_eq_zero s2 d3)
  rw [e1, e2, e3]

/-- Byte 0 of the packed word. -/
theorem word32_byte0 {d0 : Nat} (d1 d2 d3 : Nat) (h0 : d0 < 256) :
    (d0 ^^^ d1 <<< 8 ^^^ d2 <<< 16 ^^^ d3 <<< 24) &&& 0xFF = d0 := by
  rw [Nat.and_xor_distrib_right, Nat.and_xor_distrib_right, Nat.and_xor_distrib_right,
    byte_and_255 h0, shiftLeft_and_255 (by omega) d1, shiftLeft_and_255 (by omega) d2,
    shiftLeft_and_255 (by omega) d3]
  simp

/-- Shifting left then right by less cancels partially. -/
theorem shr_of_shl {k j : Nat} (h : j ≤ k) (x : Nat) :
    (x <<< k) >>> j = x <<< (k - j) := by
  rw [Nat.shiftLeft_eq, Nat.shiftLeft_eq, Nat.shiftRight_eq_div_pow]
  have hk : 2 ^ k = 2 ^ (k - j) * 2 ^ j := by
    rw [← Nat.pow_add]
    congr 1
    omega
  rw [hk, ← Nat.mul_assoc]
  exact Nat.mul_div_cancel _ (Nat.two_pow_pos j)

/-- Byte 1 of the packed word. -/
theorem word32_byte1 {d0 d1 : Nat} (d2 d3 : Nat) (h0 : d0 < 256) (h1 : d1 < 256) :
    ((d0 ^^^ d1 <<< 8 ^^^ d2 <<< 16 ^^^ d3 <<< 24) >>> 8) &&& 0xFF = d1 := by
  have t1 : (d1 <<< 8) >>> 8 = d1 := by
    rw [shr_of_shl (le_refl 8) d1]
    simp
  have t2 : (d2 <<< 16) >>> 8 = d2 <<< 8 := by
    rw [shr_of_shl (show 8 ≤ 16 by norm_num) d2]
  have t3 : (d3 <<< 24) >>> 8 = d3 <<< 16 := by
    rw [shr_of_shl (show 8 ≤ 24 by norm_num) d3]
  rw [xor_shiftRight_distrib, xor_shiftRight_distrib, xor_shiftRight_distrib,
    byte_shiftRight8 h0, t1, t2, t3, Nat.zero_xor, Nat.and_xor_distrib_right,
    Nat.and_xor_distrib_right, byte_and_255 h1,
    shiftLeft_and_255 (show 8 ≤ 8 by norm_num) d2,
    shiftLeft_and_255 (show 8 ≤ 16 by norm_num) d3]
  simp

/-- Byte 2 of the packed word. -/
theorem word32_byte2 {d0 d1 d2 : Nat} (d3 : Nat) (h0 : d0 < 256) (h1 : d1 < 256)
    (h2 : d2 < 256) :
    ((d0 ^^^ d1 <<< 8 ^^^ d2 <<< 16 ^^^ d3 <<< 24) >>> 16) &&& 0xFF = d2 := by
  have t0 : d0 >>> 16 = 0 :=
    shiftRight_eq_zero (lt_of_lt_of_le (byte_lt_pow8 h0) (by norm_num))
  have t1 : (d1 <<< 8) >>> 16 = 0 := by
    rw [shl_shr_of_le (show 8 ≤ 16 by norm_num) d1]
    exact shiftRight_eq_zero (lt_of_lt_of_le (byte_lt_pow8 h1) (by norm_num))
  have t2 : (d2 <<< 16) >>> 16 = d2 := by
    rw [shr_of_shl (le_refl 16) d2]
    simp
  have t3 : (d3 <<< 24) >>> 16 = d3 <<< 8 := by
    rw [shr_of_shl (show 16 ≤ 24 by norm_num) d3]
  rw [xor_shiftRight_distrib, xor_shiftRight_distrib, xor_shiftRight_distrib,
    t0, t1, t2, t3, Nat.zero_xor, Nat.zero_xor, Nat.and_xor_distrib_right,
    byte_and_255 h2, shiftLeft_and_255 (show 8 ≤ 8 by norm_num) d3]
  simp

/-- Byte 3 of the packed word. -/
theorem word32_byte3 {d0 d1 d2 d3 : Nat} (h0 : d0 < 256) (h1 : d1 < 256)
    (h2 : d2 < 256) :
    (d0 ^^^ d1 <<< 8 ^^^ d2 <<< 16 ^^^ d3 <<< 24) >>> 24 = d3 := by
  have t0 : d0 >>> 24 = 0 :=
    shiftRight_eq_zero (lt_of_lt_of_le (byte_lt_pow8 h0) (by norm_num))
  have t1 : (d1 <<< 8) >>> 24 = 0 := by
    rw [shl_shr_of_le (show 8 ≤ 24 by norm_num) d1]
    exact shiftRight_eq_zero (lt_of_lt_of_le (byte_lt_pow8 h1) (by norm_num))
  have t2 : (d2 <<< 16) >>> 24 = 0 := by
    rw [shl_shr_of_le (show 16 ≤ 24 by norm_num) d2]
    exact shiftRight_eq_zero (lt_of_lt_of_le (byte_lt_pow8 h2) (by norm_num))
  have t3 : (d3 <<< 24) >>> 24 = d3 := by
    rw [shr_of_shl (le_refl 24) d3]
    simp
  rw [xor_shiftRight_distrib, xor_shiftRight_distrib, xor_shiftRight_distrib,
    t0, t1, t2, t3, Nat.zero_xor, Nat.zero_xor, Nat.zero_xor]

theorem xor_lt_256 {a b : Nat} (ha : a < 256) (hb : b < 256) : a ^^^ b < 256 := by
  have h : (256 : Nat) = 2 ^ 8 := by norm_num
  rw [h] at ha hb ⊢
  exact Nat.xor_lt_two_pow ha hb

theorem uz32_iter_xor (n a b : Nat) :
    uz32^[n] (a ^^^ b) = uz32^[n] a ^^^ uz32^[n] b := isLin_uz32_iter n a b

set_option maxHeartbeats 800000 in
theorem kernel32_eq_fold
    {x d0 d1 d2 d3 d4 d5 d6 d7 : Nat} (hx : x < 2 ^ 32)
    (h0 : d0 < 256) (h1 : d1 < 256) (h2 : d2 < 256) (h3 : d3 < 256)
    (h4 : d4 < 256) (h5 : d5 < 256) (h6 : d6 < 256) (h7 : d7 < 256) :
    update_inverted_crc32_8bytes x d0 d1 d2 d3 d4 d5 d6 d7
      = [d0, d1, d2, d3, d4, d5, d6, d7].foldl update_inverted_crc32 x := by
  have hds : ∀ b ∈ [d0, d1, d2, d3, d4, d5, d6, d7], b < 256 := by
    intro b hb
    simp only [List.mem_cons, List.not_mem_nil, or_false] at hb
    rcases hb with rfl | rfl | rfl | rfl | rfl | rfl | rfl | rfl <;> assumption
  rw [fold32_split _ hds x]
  simp only [update_inverted_crc32_8bytes]
  rw [word32_or_eq_xor d3 h0 h1 h2]
  have hI0 : (x ^^^ (d0 ^^^ d1 <<< 8 ^^^ d2 <<< 16 ^^^ d3 <<< 24)) &&& 0xFF
      = (x &&& 0xFF) ^^^ d0 := by
    rw [Nat.and_xor_distrib_right, word32_byte0 d1 d2 d3 h0]
  have hI1 : ((x ^^^ (d0 ^^^ d1 <<< 8 ^^^ d2 <<< 16 ^^^ d3 <<< 24)) >>> 8) &&& 0xFF
      = ((x >>> 8) &&& 0xFF) ^^^ d1 := by
    rw [xor_shiftRight_distrib, Nat.and_xor_distrib_right, word32_byte1 d2 d3 h0 h1]
  have hI2 : ((x ^^^ (d0 ^^^ d1 <<< 8 ^^^ d2 <<< 16 ^^^ d3 <<< 24)) >>> 16) &&& 0xFF
      = ((x >>> 16) &&& 0xFF) ^^^ d2 := by
    rw [xor_shiftRight_distrib, Nat.and_xor_distrib_right, word32_byte2 d3 h0 h1 h2]
  have hI3 : (x ^^^ (d0 ^^^ d1 <<< 8 ^^^ d2 <<< 16 ^^^ d3 <<< 24)) >>> 24
      = (x >>> 24) ^^^ d3 := by
    rw [xor_shiftRight_distrib, word32_byte3 h0 h1 h2]
  rw [hI0, hI1, hI2, hI3]
  have hx24 : x >>> 24 < 256 := by
    have h := @shiftRight_lt_of_lt x 32 24 hx
    norm_num at h
    exact h
  rw [CRC32_eq_uz32_iter 0 h7, CRC32_eq_uz32_iter 1 h6, CRC32_eq_uz32_iter 2 h5,
    CRC32_eq_uz32_iter 3 h4,
    CRC32_eq_uz32_iter 4 (xor_lt_256 hx24 h3),
    CRC32_eq_uz32_iter 5 (xor_lt_256 (and_255_lt _) h2),
    CRC32_eq_uz32_iter 6 (xor_lt_256 (and_255_lt _) h1),
    CRC32_eq_uz32_iter 7 (xor_lt_256 (and_255_lt _) h0)]
  simp only [uz32_iter_xor, List.length_cons, List.length_nil, Nat.reduceAdd]
  rw [uz32_iter8_bytes x hx]
  simp only [tower32, List.length_cons, List.length_nil, Nat.reduceAdd]
  ac_rfl

-- ======================================================================
-- The zero-byte update map and the table characterization (64-bit side)


theorem update64_zero (inv : Nat) : update_inverted_crc64 inv 0 = uz64 inv := by
  simp [update_inverted_crc64, uz64, CRC64]

theorem isLin_uz64 : IsLin uz64 := by
  intro x y
  unfold uz64
  rw [Nat.and_xor_distrib_right, isLin_CRC64row0 (x &&& 0xFF) (y &&& 0xFF),
    xor_shiftRight_distrib, xor_xor_swap]

theorem isLin_uz64_iter (n : Nat) : IsLin uz64^[n] := isLin_uz64.iterate n

theorem uz64_iter_xor (n a b : Nat) :
    uz64^[n] (a ^^^ b) = uz64^[n] a ^^^ uz64^[n] b := isLin_uz64_iter n a b

/-- A byte update is the zero-byte update of the XORed state. -/
theorem update64_eq_uz64 (inv : Nat) {b : Nat} (hb : b < 256) :
    update_inverted_crc64 inv b = uz64 (inv ^^^ b) := by
  unfold update_inverted_crc64 uz64
  have h1 : (inv ^^^ b) &&& 0xFF = (inv &&& 0xFF) ^^^ b := by
    rw [Nat.and_xor_distrib_right, byte_and_255 hb]
  have h2 : (inv ^^^ b) >>> 8 = inv >>> 8 := by
    rw [xor_shiftRight_distrib, byte_shiftRight8 hb, Nat.xor_zero]
  rw [h1, h2]
  rfl

/-- The slicing tables are iterated zero-byte updates of the byte. -/
theorem CRC64_eq_uz64_iter (k : Nat) {b : Nat} (hb : b < 256) :
    CRC64 k b = uz64^[k + 1] b := by
  induction k with
  | zero =>
      show CRC64row0 b = uz64^[1] b
      simp [uz64, byte_and_255 hb, byte_shiftRight8 hb]
  | succ k ih =>
      show (CRC64 k b >>> 8) ^^^ CRC64row0 (CRC64 k b &&& 0xFF) = uz64^[k + 1 + 1] b
      rw [Nat.xor_comm, Function.iterate_succ_apply', ← ih]
      rfl

theorem crcStep64_lt (x : Nat) (hx : x < 2 ^ 64) : crcStep64 x < 2 ^ 64 := by
  unfold crcStep64
  apply Nat.xor_lt_two_pow
  · exact lt_of_le_of_lt (shiftRight_le_self ..) hx
  · exact lt_of_le_of_lt (Nat.and_le_right ..) (by decide)

theorem CRC64row0_lt (x : Nat) (hx : x < 2 ^ 64) : CRC64row0 x < 2 ^ 64 :=
  iterate_lt crcStep64_lt 8 x hx

theorem uz64_lt (x : Nat) (hx : x < 2 ^ 64) : uz64 x < 2 ^ 64 := by
  unfold uz64
  apply Nat.xor_lt_two_pow
  · exact CRC64row0_lt _ (lt_trans (and_255_lt x) (by norm_num))
  · exact lt_of_le_of_lt (shiftRight_le_self ..) hx

theorem uz64_iter_lt (n x : Nat) (hx : x < 2 ^ 64) : uz64^[n] x < 2 ^ 64 :=
  iterate_lt uz64_lt n x hx

-- ======================================================================
-- Byte-fold reference semantics (64-bit side)


/-- A byte-at-a-time fold splits into the state part and the message part. -/
theorem fold64_split (ds : List Nat) (hds : ∀ b ∈ ds, b < 256) (x : Nat) :
    ds.foldl update_inverted_crc64 x = uz64^[ds.length] x ^^^ tower64 ds := by
  induction ds generalizing x with
  | nil => simp [tower64]
  | cons b r ih =>
      have hb : b < 256 := hds b (by simp)
      have hr : ∀ c ∈ r, c < 256 := fun c hc => hds c (by simp [hc])
      rw [List.foldl_cons, ih hr, update64_eq_uz64 x hb, isLin_uz64 x b,
        isLin_uz64_iter r.length (uz64 x) (uz64 b)]
      show uz64^[r.length] (uz64 x) ^^^ uz64^[r.length] (uz64 b) ^^^ tower64 r = _
      rw [← Function.iterate_succ_apply, ← Function.iterate_succ_apply]
      show uz64^[r.length + 1] x ^^^ uz64^[r.length + 1] b ^^^ tower64 r = _
      rw [List.length_cons, tower64, Nat.xor_assoc]

set_option maxRecDepth 1000000 in
set_option maxHeartbeats 1000000 in
/-- Bytes of a 64-bit state feed the towers of heights 8 down to 1. -/
theorem uz64_iter8_bytes (inv : Nat) (hinv : inv < 2 ^ 64) :
    uz64^[8] inv
      = uz64^[8] (inv &&& 0xFF) ^^^ uz64^[7] ((inv >>> 8) &&& 0xFF)
        ^^^ uz64^[6] ((inv >>> 16) &&& 0xFF) ^^^ uz64^[5] ((inv >>> 24) &&& 0xFF)
        ^^^ uz64^[4] ((inv >>> 32) &&& 0xFF) ^^^ uz64^[3] ((inv >>> 40) &&& 0xFF)
        ^^^ uz64^[2] ((inv >>> 48) &&& 0xFF) ^^^ uz64^[1] (inv >>> 56) := by
  have hL : LinOn 64 (fun v => uz64^[8] v) := (isLin_uz64_iter 8).linOn 64
  have hR : LinOn 64 (fun v =>
      uz64^[8] (v &&& 0xFF) ^^^ uz64^[7] ((v >>> 8) &&& 0xFF)
        ^^^ uz64^[6] ((v >>> 16) &&& 0xFF) ^^^ uz64^[5] ((v >>> 24) &&& 0xFF)
        ^^^ uz64^[4] ((v >>> 32) &&& 0xFF) ^^^ uz64^[3] ((v >>> 40) &&& 0xFF)
        ^^^ uz64^[2] ((v >>> 48) &&& 0xFF) ^^^ uz64^[1] (v >>> 56)) := by
    have h1 : IsLin (fun v => uz64^[8] (v &&& 0xFF)) :=
      (isLin_uz64_iter 8).comp (isLin_and_mask 0xFF)
    have h2 : IsLin (fun v => uz64^[7] ((v >>> 8) &&& 0xFF)) :=
      (isLin_uz64_iter 7).comp ((isLin_and_mask 0xFF).comp (isLin_shiftRight 8))
    have h3 : IsLin (fun v => uz64^[6] ((v >>> 16) &&& 0xFF)) :=
      (isLin_uz64_iter 6).comp ((isLin_and_mask 0xFF).comp (isLin_shiftRight 16))
    have h4 : IsLin (fun v => uz64^[5] ((v >>> 24) &&& 0xFF)) :=
      (isLin_uz64_iter 5).comp ((isLin_and_mask 0xFF).comp (isLin_shiftRight 24))
    have h5 : IsLin (fun v => uz64^[4] ((v >>> 32) &&& 0xFF)) :=
      (isLin_uz64_iter 4).comp ((isLin_and_mask 0xFF).comp (isLin_shiftRight 32))
    have h6 : IsLin (fun v => uz64^[3] ((v >>> 40) &&& 0xFF)) :=
      (isLin_uz64_iter 3).comp ((isLin_and_mask 0xFF).comp (isLin_shiftRight 40))
    have h7 : IsLin (fun v => uz64^[2] ((v >>> 48) &&& 0xFF)) :=
      (isLin_uz64_iter 2).comp ((isLin_and_mask 0xFF).comp (isLin_shiftRight 48))
    have h8 : IsLin (fun v => uz64^[1] (v >>> 56)) :=
      (isLin_uz64_iter 1).comp (isLin_shiftRight 56)
    exact ((((((h1.xorFun h2).xorFun h3).xorFun h4).xorFun h5).xorFun
      h6).xorFun h7).xorFun h8 |>.linOn 64
  exact linOn_ext 64 hL hR (by decide) inv hinv

/-- The packed little-endian 64-bit word is the XOR of its shifted bytes. -/
theorem word64_or_eq_xor {d0 d1 d2 d3 d4 d5 d6 : Nat} (d7 : Nat)
    (h0 : d0 < 256) (h1 : d1 < 256) (h2 : d2 < 256) (h3 : d3 < 256)
    (h4 : d4 < 256) (h5 : d5 < 256) (h6 : d6 < 256) :
    d0 ||| d1 <<< 8 ||| d2 <<< 16 ||| d3 <<< 24 ||| d4 <<< 32 ||| d5 <<< 40 ||| d6 <<< 48 ||| d7 <<< 56
      = d0 ^^^ d1 <<< 8 ^^^ d2 <<< 16 ^^^ d3 <<< 24 ^^^ d4 <<< 32 ^^^ d5 <<< 40 ^^^ d6 <<< 48 ^^^ d7 <<< 56 := by
  have b0 := byte_lt_pow8 h0
  have b1 := byte_lt_pow8 h1
  have b2 := byte_lt_pow8 h2
  have b3 := byte_lt_pow8 h3
  have b4 := byte_lt_pow8 h4
  have b5 := byte_lt_pow8 h5
  have b6 := byte_lt_pow8 h6
  have e1 : d0 ||| d1 <<< 8 = d0 ^^^ d1 <<< 8 :=
    or_eq_xor_of_and_eq_zero (and_shl_eq_zero b0 d1)
  have s1 : d0 ^^^ d1 <<< 8 < 2 ^ 16 :=
    Nat.xor_lt_two_pow (lt_of_lt_of_le b0 (by norm_num)) (shiftLeft_lt b1 8)
  have e2 : d0 ^^^ d1 <<< 8 ||| d2 <<< 16 = d0 ^^^ d1 <<< 8 ^^^ d2 <<< 16 :=
    or_eq_xor_of_and_eq_zero (and_shl_eq_zero s1 d2)
  have s2 : d0 ^^^ d1 <<< 8 ^^^ d2 <<< 16 < 2 ^ 24 :=
    Nat.xor_lt_two_pow (lt_of_lt_of_le s1 (by norm_num)) (shiftLeft_lt b2 16)
  have e3 : d0 ^^^ d1 <<< 8 ^^^ d2 <<< 16 ||| d3 <<< 24 = d0 ^^^ d1 <<< 8 ^^^ d2 <<< 16 ^^^ d3 <<< 24 :=
    or_eq_xor_of_and_eq_zero (and_shl_eq_zero s2 d3)
  have s3 : d0 ^^^ d1 <<< 8 ^^^ d2 <<< 16 ^^^ d3 <<< 24 < 2 ^ 32 :=
    Nat.xor_lt_two_pow (lt_of_lt_of_le s2 (by norm_num)) (shiftLeft_lt b3 24)
  have e4 : d0 ^^^ d1 <<< 8 ^^^ d2 <<< 16 ^^^ d3 <<< 24 ||| d4 <<< 32 = d0 ^^^ d1 <<< 8 ^^^ d2 <<< 16 ^^^ d3 <<< 24 ^^^ d4 <<< 32 :=
    or_eq_xor_of_and_eq_zero (and_shl_eq_zero s3 d4)
  have s4 : d0 ^^^ d1 <<< 8 ^^^ d2 <<< 16 ^^^ d3 <<< 24 ^^^ d4 <<< 32 < 2 ^ 40 :=
    Nat.xor_lt_two_pow (lt_of_lt_of_le s3 (by norm_num)) (shiftLeft_lt b4 32)
  have e5 : d0 ^^^ d1 <<< 8 ^^^ d2 <<< 16 ^^^ d3 <<< 24 ^^^ d4 <<< 32 ||| d5 <<< 40 = d0 ^^^ d1 <<< 8 ^^^ d2 <<< 16 ^^^ d3 <<< 24 ^^^ d4 <<< 32 ^^^ d5 <<< 40 :=
    or_eq_xor_of_and_eq_zero (and_shl_eq_zero s4 d5)
  have s5 : d0 ^^^ d1 <<< 8 ^^^ d2 <<< 16 ^^^ d3 <<< 24 ^^^ d4 <<< 32 ^^^ d5 <<< 40 < 2 ^ 48 :=
    Nat.xor_lt_two_pow (lt_of_lt_of_le s4 (by norm_num)) (shiftLeft_lt b5 40)
  have e6 : d0 ^^^ d1 <<< 8 ^^^ d2 <<< 16 ^^^ d3 <<< 24 ^^^ d4 <<< 32 ^^^ d5 <<< 40 ||| d6 <<< 48 = d0 ^^^ d1 <<< 8 ^^^ d2 <<< 16 ^^^ d3 <<< 24 ^^^ d4 <<< 32 ^^^ d5 <<< 40 ^^^ d6 <<< 48 :=
    or_eq_xor_of_and_eq_zero (and_shl_eq_zero s5 d6)
  have s6 : d0 ^^^ d1 <<< 8 ^^^ d2 <<< 16 ^^^ d3 <<< 24 ^^^ d4 <<< 32 ^^^ d5 <<< 40 ^^^ d6 <<< 48 < 2 ^ 56 :=
    Nat.xor_lt_two_pow (lt_of_lt_of_le s5 (by norm_num)) (shiftLeft_lt b6 48)
  have e7 : d0 ^^^ d1 <<< 8 ^^^ d2 <<< 16 ^^^ d3 <<< 24 ^^^ d4 <<< 32 ^^^ d5 <<< 40 ^^^ d6 <<< 48 ||| d7 <<< 56 = d0 ^^^ d1 <<< 8 ^^^ d2 <<< 16 ^^^ d3 <<< 24 ^^^ d4 <<< 32 ^^^ d5 <<< 40 ^^^ d6 <<< 48 ^^^ d7 <<< 56 :=
    or_eq_xor_of_and_eq_zero (and_shl_eq_zero s6 d7)
  rw [e1, e2, e3, e4, e5, e6, e7]

/-- Byte 0 of the packed 64-bit word. -/
theorem word64_byte0 {d0 : Nat} (d1 d2 d3 d4 d5 d6 d7 : Nat) (h0 : d0 < 256) :
    (d0 ^^^ d1 <<< 8 ^^^ d2 <<< 16 ^^^ d3 <<< 24 ^^^ d4 <<< 32 ^^^ d5 <<< 40 ^^^ d6 <<< 48 ^^^ d7 <<< 56) &&& 0xFF = d0 := by
  rw [Nat.and_xor_distrib_right,
    Nat.and_xor_distrib_right,
    Nat.and_xor_distrib_right,
    Nat.and_xor_distrib_right,
    Nat.and_xor_distrib_right,
    Nat.and_xor_distrib_right,
    Nat.and_xor_distrib_right,
    byte_and_255 h0,
    shiftLeft_and_255 (show 8 ≤ 8 by norm_num) d1,
    shiftLeft_and_255 (show 8 ≤ 16 by norm_num) d2,
    shiftLeft_and_255 (show 8 ≤ 24 by norm_num) d3,
    shiftLeft_and_255 (show 8 ≤ 32 by norm_num) d4,
    shiftLeft_and_255 (show 8 ≤ 40 by norm_num) d5,
    shiftLeft_and_255 (show 8 ≤ 48 by norm_num) d6,
    shiftLeft_and_255 (show 8 ≤ 56 by norm_num) d7]
  simp

/-- Byte 1 of the packed 64-bit word. -/
theorem word64_byte1 {d0 d1 : Nat} (d2 d3 d4 d5 d6 d7 : Nat) (h0 : d0 < 256) (h1 : d1 < 256) :
    ((d0 ^^^ d1 <<< 8 ^^^ d2 <<< 16 ^^^ d3 <<< 24 ^^^ d4 <<< 32 ^^^ d5 <<< 40 ^^^ d6 <<< 48 ^^^ d7 <<< 56) >>> 8) &&& 0xFF = d1 := by
  have t0 : d0 >>> 8 = 0 :=
    shiftRight_eq_zero (lt_of_lt_of_le (byte_lt_pow8 h0) (by norm_num))
  have t1 : (d1 <<< 8) >>> 8 = d1 := by
    rw [shr_of_shl (le_refl 8) d1]
    simp
  have t2 : (d2 <<< 16) >>> 8 = d2 <<< 8 := by
    rw [shr_of_shl (show 8 ≤ 16 by norm_num) d2]
  have t3 : (d3 <<< 24) >>> 8 = d3 <<< 16 := by
    rw [shr_of_shl (show 8 ≤ 24 by norm_num) d3]
  have t4 : (d4 <<< 32) >>> 8 = d4 <<< 24 := by
    rw [shr_of_shl (show 8 ≤ 32 by norm_num) d4]
  have t5 : (d5 <<< 40) >>> 8 = d5 <<< 32 := by
    rw [shr_of_shl (show 8 ≤ 40 by norm_num) d5]
  have t6 : (d6 <<< 48) >>> 8 = d6 <<< 40 := by
    rw [shr_of_shl (show 8 ≤ 48 by norm_num) d6]
  have t7 : (d7 <<< 56) >>> 8 = d7 <<< 48 := by
    rw [shr_of_shl (show 8 ≤ 56 by norm_num) d7]
  rw [xor_shiftRight_distrib,
    xor_shiftRight_distrib,
    xor_shiftRight_distrib,
    xor_shiftRight_distrib,
    xor_shiftRight_distrib,
    xor_shiftRight_distrib,
    xor_shiftRight_distrib,
    t0,
    t1,
    t2,
    t3,
    t4,
    t5,
    t6,
    t7]
  rw [Nat.and_xor_distrib_right,
    Nat.and_xor_distrib_right,
    Nat.and_xor_distrib_right,
    Nat.and_xor_distrib_right,
    Nat.and_xor_distrib_right,
    Nat.and_xor_distrib_right,
    Nat.and_xor_distrib_right,
    byte_and_255 h1,
    shiftLeft_and_255 (show 8 ≤ 8 by norm_num) d2,
    shiftLeft_and_255 (show 8 ≤ 16 by norm_num) d3,
    shiftLeft_and_255 (show 8 ≤ 24 by norm_num) d4,
    shiftLeft_and_255 (show 8 ≤ 32 by norm_num) d5,
    shiftLeft_and_255 (show 8 ≤ 40 by norm_num) d6,
    shiftLeft_and_255 (show 8 ≤ 48 by norm_num) d7]
  simp

/-- Byte 2 of the packed 64-bit word. -/
theorem word64_byte2 {d0 d1 d2 : Nat} (d3 d4 d5 d6 d7 : Nat) (h0 : d0 < 256) (h1 : d1 < 256) (h2 : d2 < 256) :
    ((d0 ^^^ d1 <<< 8 ^^^ d2 <<< 16 ^^^ d3 <<< 24 ^^^ d4 <<< 32 ^^^ d5 <<< 40 ^^^ d6 <<< 48 ^^^ d7 <<< 56) >>> 16) &&& 0xFF = d2 := by
  have t0 : d0 >>> 16 = 0 :=
    shiftRight_eq_zero (lt_of_lt_of_le (byte_lt_pow8 h0) (by norm_num))
  have t1 : (d1 <<< 8) >>> 16 = 0 := by
    rw [shl_shr_of_le (show 8 ≤ 16 by norm_num) d1]
    exact shiftRight_eq_zero (lt_of_lt_of_le (byte_lt_pow8 h1) (by norm_num))
  have t2 : (d2 <<< 16) >>> 16 = d2 := by
    rw [shr_of_shl (le_refl 16) d2]
    simp
  have t3 : (d3 <<< 24) >>> 16 = d3 <<< 8 := by
    rw [shr_of_shl (show 16 ≤ 24 by norm_num) d3]
  have t4 : (d4 <<< 32) >>> 16 = d4 <<< 16 := by
    rw [shr_of_shl (show 16 ≤ 32 by norm_num) d4]
  have t5 : (d5 <<< 40) >>> 16 = d5 <<< 24 := by
    rw [shr_of_shl (show 16 ≤ 40 by norm_num) d5]
  have t6 : (d6 <<< 48) >>> 16 = d6 <<< 32 := by
    rw [shr_of_shl (show 16 ≤ 48 by norm_num) d6]
  have t7 : (d7 <<< 56) >>> 16 = d7 <<< 40 := by
    rw [shr_of_shl (show 16 ≤ 56 by norm_num) d7]
  rw [xor_shiftRight_distrib,
    xor_shiftRight_distrib,
    xor_shiftRight_distrib,
    xor_shiftRight_distrib,
    xor_shiftRight_distrib,
    xor_shiftRight_distrib,
    xor_shiftRight_distrib,
    t0,
    t1,
    t2,
    t3,
    t4,
    t5,
    t6,
    t7]
  rw [Nat.and_xor_distrib_right,
    Nat.and_xor_distrib_right,
    Nat.and_xor_distrib_right,
    Nat.and_xor_distrib_right,
    Nat.and_xor_distrib_right,
    Nat.and_xor_distrib_right,
    Nat.and_xor_distrib_right,
    byte_and_255 h2,
    shiftLeft_and_255 (show 8 ≤ 8 by norm_num) d3,
    shiftLeft_and_255 (show 8 ≤ 16 by norm_num) d4,
    shiftLeft_and_255 (show 8 ≤ 24 by norm_num) d5,
    shiftLeft_and_255 (show 8 ≤ 32 by norm_num) d6,
    shiftLeft_and_255 (show 8 ≤ 40 by norm_num) d7]
  simp

/-- Byte 3 of the packed 64-bit word. -/
theorem word64_byte3 {d0 d1 d2 d3 : Nat} (d4 d5 d6 d7 : Nat) (h0 : d0 < 256) (h1 : d1 < 256) (h2 : d2 < 256) (h3 : d3 < 256) :
    ((d0 ^^^ d1 <<< 8 ^^^ d2 <<< 16 ^^^ d3 <<< 24 ^^^ d4 <<< 32 ^^^ d5 <<< 40 ^^^ d6 <<< 48 ^^^ d7 <<< 56) >>> 24) &&& 0xFF = d3 := by
  have t0 : d0 >>> 24 = 0 :=
    shiftRight_eq_zero (lt_of_lt_of_le (byte_lt_pow8 h0) (by norm_num))
  have t1 : (d1 <<< 8) >>> 24 = 0 := by
    rw [shl_shr_of_le (show 8 ≤ 24 by norm_num) d1]
    exact shiftRight_eq_zero (lt_of_lt_of_le (byte_lt_pow8 h1) (by norm_num))
  have t2 : (d2 <<< 16) >>> 24 = 0 := by
    rw [shl_shr_of_le (show 16 ≤ 24 by norm_num) d2]
    exact shiftRight_eq_zero (lt_of_lt_of_le (byte_lt_pow8 h2) (by norm_num))
  have t3 : (d3 <<< 24) >>> 24 = d3 := by
    rw [shr_of_shl (le_refl 24) d3]
    simp
  have t4 : (d4 <<< 32) >>> 24 = d4 <<< 8 := by
    rw [shr_of_shl (show 24 ≤ 32 by norm_num) d4]
  have t5 : (d5 <<< 40) >>> 24 = d5 <<< 16 := by
    rw [shr_of_shl (show 24 ≤ 40 by norm_num) d5]
  have t6 : (d6 <<< 48) >>> 24 = d6 <<< 24 := by
    rw [shr_of_shl (show 24 ≤ 48 by norm_num) d6]
  have t7 : (d7 <<< 56) >>> 24 = d7 <<< 32 := by
    rw [shr_of_shl (show 24 ≤ 56 by norm_num) d7]
  rw [xor_shiftRight_distrib,
    xor_shiftRight_distrib,
    xor_shiftRight_distrib,
    xor_shiftRight_distrib,
    xor_shiftRight_distrib,
    xor_shiftRight_distrib,
    xor_shiftRight_distrib,
    t0,
    t1,
    t2,
    t3,
    t4,
    t5,
    t6,
    t7]
  rw [Nat.and_xor_distrib_right,
    Nat.and_xor_distrib_right,
    Nat.and_xor_distrib_right,
    Nat.and_xor_distrib_right,
    Nat.and_xor_distrib_right,
    Nat.and_xor_distrib_right,
    Nat.and_xor_distrib_right,
    byte_and_255 h3,
    shiftLeft_and_255 (show 8 ≤ 8 by norm_num) d4,
    shiftLeft_and_255 (show 8 ≤ 16 by norm_num) d5,
    shiftLeft_and_255 (show 8 ≤ 24 by norm_num) d6,
    shiftLeft_and_255 (show 8 ≤ 32 by norm_num) d7]
  simp

/-- Byte 4 of the packed 64-bit word. -/
theorem word64_byte4 {d0 d1 d2 d3 d4 : Nat} (d5 d6 d7 : Nat) (h0 : d0 < 256) (h1 : d1 < 256) (h2 : d2 < 256) (h3 : d3 < 256) (h4 : d4 < 256) :
    ((d0 ^^^ d1 <<< 8 ^^^ d2 <<< 16 ^^^ d3 <<< 24 ^^^ d4 <<< 32 ^^^ d5 <<< 40 ^^^ d6 <<< 48 ^^^ d7 <<< 56) >>> 32) &&& 0xFF = d4 := by
  have t0 : d0 >>> 32 = 0 :=
    shiftRight_eq_zero (lt_of_lt_of_le (byte_lt_pow8 h0) (by norm_num))
  have t1 : (d1 <<< 8) >>> 32 = 0 := by
    rw [shl_shr_of_le (show 8 ≤ 32 by norm_num) d1]
    exact shiftRight_eq_zero (lt_of_lt_of_le (byte_lt_pow8 h1) (by norm_num))
  have t2 : (d2 <<< 16) >>> 32 = 0 := by
    rw [shl_shr_of_le (show 16 ≤ 32 by norm_num) d2]
    exact shiftRight_eq_zero (lt_of_lt_of_le (byte_lt_pow8 h2) (by norm_num))
  have t3 : (d3 <<< 24) >>> 32 = 0 := by
    rw [shl_shr_of_le (show 24 ≤ 32 by norm_num) d3]
    exact shiftRight_eq_zero (lt_of_lt_of_le (byte_lt_pow8 h3) (by norm_num))
  have t4 : (d4 <<< 32) >>> 32 = d4 := by
    rw [shr_of_shl (le_refl 32) d4]
    simp
  have t5 : (d5 <<< 40) >>> 32 = d5 <<< 8 := by
    rw [shr_of_shl (show 32 ≤ 40 by norm_num) d5]
  have t6 : (d6 <<< 48) >>> 32 = d6 <<< 16 := by
    rw [shr_of_shl (show 32 ≤ 48 by norm_num) d6]
  have t7 : (d7 <<< 56) >>> 32 = d7 <<< 24 := by
    rw [shr_of_shl (show 32 ≤ 56 by norm_num) d7]
  rw [xor_shiftRight_distrib,
    xor_shiftRight_distrib,
    xor_shiftRight_distrib,
    xor_shiftRight_distrib,
    xor_shiftRight_distrib,
    xor_shiftRight_distrib,
    xor_shiftRight_distrib,
    t0,
    t1,
    t2,
    t3,
    t4,
    t5,
    t6,
    t7]
  rw [Nat.and_xor_distrib_right,
    Nat.and_xor_distrib_right,
    Nat.and_xor_distrib_right,
    Nat.and_xor_distrib_right,
    Nat.and_xor_distrib_right,
    Nat.and_xor_distrib_right,
    Nat.and_xor_distrib_right,
    byte_and_255 h4,
    shiftLeft_and_255 (show 8 ≤ 8 by norm_num) d5,
    shiftLeft_and_255 (show 8 ≤ 16 by norm_num) d6,
    shiftLeft_and_255 (show 8 ≤ 24 by norm_num) d7]
  simp

/-- Byte 5 of the packed 64-bit word. -/
theorem word64_byte5 {d0 d1 d2 d3 d4 d5 : Nat} (d6 d7 : Nat) (h0 : d0 < 256) (h1 : d1 < 256) (h2 : d2 < 256) (h3 : d3 < 256) (h4 : d4 < 256) (h5 : d5 < 256) :
    ((d0 ^^^ d1 <<< 8 ^^^ d2 <<< 16 ^^^ d3 <<< 24 ^^^ d4 <<< 32 ^^^ d5 <<< 40 ^^^ d6 <<< 48 ^^^ d7 <<< 56) >>> 40) &&& 0xFF = d5 := by
  have t0 : d0 >>> 40 = 0 :=
    shiftRight_eq_zero (lt_of_lt_of_le (byte_lt_pow8 h0) (by norm_num))
  have t1 : (d1 <<< 8) >>> 40 = 0 := by
    rw [shl_shr_of_le (show 8 ≤ 40 by norm_num) d1]
    exact shiftRight_eq_zero (lt_of_lt_of_le (byte_lt_pow8 h1) (by norm_num))
  have t2 : (d2 <<< 16) >>> 40 = 0 := by
    rw [shl_shr_of_le (show 16 ≤ 40 by norm_num) d2]
    exact shiftRight_eq_zero (lt_of_lt_of_le (byte_lt_pow8 h2) (by norm_num))
  have t3 : (d3 <<< 24) >>> 40 = 0 := by
    rw [shl_shr_of_le (show 24 ≤ 40 by norm_num) d3]
    exact shiftRight_eq_zero (lt_of_lt_of_le (byte_lt_pow8 h3) (by norm_num))
  have t4 : (d4 <<< 32) >>> 40 = 0 := by
    rw [shl_shr_of_le (show 32 ≤ 40 by norm_num) d4]
    exact shiftRight_eq_zero (lt_of_lt_of_le (byte_lt_pow8 h4) (by norm_num))
  have t5 : (d5 <<< 40) >>> 40 = d5 := by
    rw [shr_of_shl (le_refl 40) d5]
    simp
  have t6 : (d6 <<< 48) >>> 40 = d6 <<< 8 := by
    rw [shr_of_shl (show 40 ≤ 48 by norm_num) d6]
  have t7 : (d7 <<< 56) >>> 40 = d7 <<< 16 := by
    rw [shr_of_shl (show 40 ≤ 56 by norm_num) d7]
  rw [xor_shiftRight_distrib,
    xor_shiftRight_distrib,
    xor_shiftRight_distrib,
    xor_shiftRight_distrib,
    xor_shiftRight_distrib,
    xor_shiftRight_distrib,
    xor_shiftRight_distrib,
    t0,
    t1,
    t2,
    t3,
    t4,
    t5,
    t6,
    t7]
  rw [Nat.and_xor_distrib_right,
    Nat.and_xor_distrib_right,
    Nat.and_xor_distrib_right,
    Nat.and_xor_distrib_right,
    Nat.and_xor_distrib_right,
    Nat.and_xor_distrib_right,
    Nat.and_xor_distrib_right,
    byte_and_255 h5,
    shiftLeft_and_255 (show 8 ≤ 8 by norm_num) d6,
    shiftLeft_and_255 (show 8 ≤ 16 by norm_num) d7]
  simp

/-- Byte 6 of the packed 64-bit word. -/
theorem word64_byte6 {d0 d1 d2 d3 d4 d5 d6 : Nat} (d7 : Nat) (h0 : d0 < 256) (h1 : d1 < 256) (h2 : d2 < 256) (h3 : d3 < 256) (h4 : d4 < 256) (h5 : d5 < 256) (h6 : d6 < 256) :
    ((d0 ^^^ d1 <<< 8 ^^^ d2 <<< 16 ^^^ d3 <<< 24 ^^^ d4 <<< 32 ^^^ d5 <<< 40 ^^^ d6 <<< 48 ^^^ d7 <<< 56) >>> 48) &&& 0xFF = d6 := by
  have t0 : d0 >>> 48 = 0 :=
    shiftRight_eq_zero (lt_of_lt_of_le (byte_lt_pow8 h0) (by norm_num))
  have t1 : (d1 <<< 8) >>> 48 = 0 := by
    rw [shl_shr_of_le (show 8 ≤ 48 by norm_num) d1]
    exact shiftRight_eq_zero (lt_of_lt_of_le (byte_lt_pow8 h1) (by norm_num))
  have t2 : (d2 <<< 16) >>> 48 = 0 := by
    rw [shl_shr_of_le (show 16 ≤ 48 by norm_num) d2]
    exact shiftRight_eq_zero (lt_of_lt_of_le (byte_lt_pow8 h2) (by norm_num))
  have t3 : (d3 <<< 24) >>> 48 = 0 := by
    rw [shl_shr_of_le (show 24 ≤ 48 by norm_num) d3]
    exact shiftRight_eq_zero (lt_of_lt_of_le (byte_lt_pow8 h3) (by norm_num))
  have t4 : (d4 <<< 32) >>> 48 = 0 := by
    rw [shl_shr_of_le (show 32 ≤ 48 by norm_num) d4]
    exact shiftRight_eq_zero (lt_of_lt_of_le (byte_lt_pow8 h4) (by norm_num))
  have t5 : (d5 <<< 40) >>> 48 = 0 := by
    rw [shl_shr_of_le (show 40 ≤ 48 by norm_num) d5]
    exact shiftRight_eq_zero (lt_of_lt_of_le (byte_lt_pow8 h5) (by norm_num))
  have t6 : (d6 <<< 48) >>> 48 = d6 := by
    rw [shr_of_shl (le_refl 48) d6]
    simp
  have t7 : (d7 <<< 56) >>> 48 = d7 <<< 8 := by
    rw [shr_of_shl (show 48 ≤ 56 by norm_num) d7]
  rw [xor_shiftRight_distrib,
    xor_shiftRight_distrib,
    xor_shiftRight_distrib,
    xor_shiftRight_distrib,
    xor_shiftRight_distrib,
    xor_shiftRight_distrib,
    xor_shiftRight_distrib,
    t0,
    t1,
    t2,
    t3,
    t4,
    t5,
    t6,
    t7]
  rw [Nat.and_xor_distrib_right,
    Nat.and_xor_distrib_right,
    Nat.and_xor_distrib_right,
    Nat.and_xor_distrib_right,
    Nat.and_xor_distrib_right,
    Nat.and_xor_distrib_right,
    Nat.and_xor_distrib_right,
    byte_and_255 h6,
    shiftLeft_and_255 (show 8 ≤ 8 by norm_num) d7]
  simp

/-- Byte 7 of the packed 64-bit word. -/
theorem word64_byte7 {d0 d1 d2 d3 d4 d5 d6 : Nat} (d7 : Nat) (h0 : d0 < 256) (h1 : d1 < 256) (h2 : d2 < 256) (h3 : d3 < 256) (h4 : d4 < 256) (h5 : d5 < 256) (h6 : d6 < 256) :
    (d0 ^^^ d1 <<< 8 ^^^ d2 <<< 16 ^^^ d3 <<< 24 ^^^ d4 <<< 32 ^^^ d5 <<< 40 ^^^ d6 <<< 48 ^^^ d7 <<< 56) >>> 56 = d7 := by
  have t0 : d0 >>> 56 = 0 :=
    shiftRight_eq_zero (lt_of_lt_of_le (byte_lt_pow8 h0) (by norm_num))
  have t1 : (d1 <<< 8) >>> 56 = 0 := by
    rw [shl_shr_of_le (show 8 ≤ 56 by norm_num) d1]
    exact shiftRight_eq_zero (lt_of_lt_of_le (byte_lt_pow8 h1) (by norm_num))
  have t2 : (d2 <<< 16) >>> 56 = 0 := by
    rw [shl_shr_of_le (show 16 ≤ 56 by norm_num) d2]
    exact shiftRight_eq_zero (lt_of_lt_of_le (byte_lt_pow8 h2) (by norm_num))
  have t3 : (d3 <<< 24) >>> 56 = 0 := by
    rw [shl_shr_of_le (show 24 ≤ 56 by norm_num) d3]
    exact shiftRight_eq_zero (lt_of_lt_of_le (byte_lt_pow8 h3) (by norm_num))
  have t4 : (d4 <<< 32) >>> 56 = 0 := by
    rw [shl_shr_of_le (show 32 ≤ 56 by norm_num) d4]
    exact shiftRight_eq_zero (lt_of_lt_of_le (byte_lt_pow8 h4) (by norm_num))
  have t5 : (d5 <<< 40) >>> 56 = 0 := by
    rw [shl_shr_of_le (show 40 ≤ 56 by norm_num) d5]
    exact shiftRight_eq_zero (lt_of_lt_of_le (byte_lt_pow8 h5) (by norm_num))
  have t6 : (d6 <<< 48) >>> 56 = 0 := by
    rw [shl_shr_of_le (show 48 ≤ 56 by norm_num) d6]
    exact shiftRight_eq_zero (lt_of_lt_of_le (byte_lt_pow8 h6) (by norm_num))
  have t7 : (d7 <<< 56) >>> 56 = d7 := by
    rw [shr_of_shl (le_refl 56) d7]
    simp
  rw [xor_shiftRight_distrib,
    xor_shiftRight_distrib,
    xor_shiftRight_distrib,
    xor_shiftRight_distrib,
    xor_shiftRight_distrib,
    xor_shiftRight_distrib,
    xor_shiftRight_distrib,
    t0,
    t1,
    t2,
    t3,
    t4,
    t5,
    t6,
    t7]
  simp


-- ======================================================================
-- The slicing-by-8 kernel agrees with eight single-byte updates (64-bit)

set_option maxHeartbeats 1600000 in
theorem kernel64_eq_fold
    {x d0 d1 d2 d3 d4 d5 d6 d7 : Nat} (hx : x < 2 ^ 64)
    (h0 : d0 < 256) (h1 : d1 < 256) (h2 : d2 < 256) (h3 : d3 < 256)
    (h4 : d4 < 256) (h5 : d5 < 256) (h6 : d6 < 256) (h7 : d7 < 256) :
    update_inverted_crc64_8bytes x d0 d1 d2 d3 d4 d5 d6 d7
      = [d0, d1, d2, d3, d4, d5, d6, d7].foldl update_inverted_crc64 x := by
  have hds : ∀ b ∈ [d0, d1, d2, d3, d4, d5, d6, d7], b < 256 := by
    intro b hb
    simp only [List.mem_cons, List.not_mem_nil, or_false] at hb
    rcases hb with rfl | rfl | rfl | rfl | rfl | rfl | rfl | rfl <;> assumption
  rw [fold64_split _ hds x]
  simp only [update_inverted_crc64_8bytes]
  rw [word64_or_eq_xor d7 h0 h1 h2 h3 h4 h5 h6]
  have hI0 : (x ^^^ (d0 ^^^ d1 <<< 8 ^^^ d2 <<< 16 ^^^ d3 <<< 24 ^^^ d4 <<< 32 ^^^ d5 <<< 40 ^^^ d6 <<< 48 ^^^ d7 <<< 56)) &&& 0xFF = (x &&& 0xFF) ^^^ d0 := by
    rw [Nat.and_xor_distrib_right, word64_byte0 d1 d2 d3 d4 d5 d6 d7 h0]
  have hI1 : ((x ^^^ (d0 ^^^ d1 <<< 8 ^^^ d2 <<< 16 ^^^ d3 <<< 24 ^^^ d4 <<< 32 ^^^ d5 <<< 40 ^^^ d6 <<< 48 ^^^ d7 <<< 56)) >>> 8) &&& 0xFF = ((x >>> 8) &&& 0xFF) ^^^ d1 := by
    rw [xor_shiftRight_distrib, Nat.and_xor_distrib_right, word64_byte1 d2 d3 d4 d5 d6 d7 h0 h1]
  have hI2 : ((x ^^^ (d0 ^^^ d1 <<< 8 ^^^ d2 <<< 16 ^^^ d3 <<< 24 ^^^ d4 <<< 32 ^^^ d5 <<< 40 ^^^ d6 <<< 48 ^^^ d7 <<< 56)) >>> 16) &&& 0xFF = ((x >>> 16) &&& 0xFF) ^^^ d2 := by
    rw [xor_shiftRight_distrib, Nat.and_xor_distrib_right, word64_byte2 d3 d4 d5 d6 d7 h0 h1 h2]
  have hI3 : ((x ^^^ (d0 ^^^ d1 <<< 8 ^^^ d2 <<< 16 ^^^ d3 <<< 24 ^^^ d4 <<< 32 ^^^ d5 <<< 40 ^^^ d6 <<< 48 ^^^ d7 <<< 56)) >>> 24) &&& 0xFF = ((x >>> 24) &&& 0xFF) ^^^ d3 := by
    rw [xor_shiftRight_distrib, Nat.and_xor_distrib_right, word64_byte3 d4 d5 d6 d7 h0 h1 h2 h3]
  have hI4 : ((x ^^^ (d0 ^^^ d1 <<< 8 ^^^ d2 <<< 16 ^^^ d3 <<< 24 ^^^ d4 <<< 32 ^^^ d5 <<< 40 ^^^ d6 <<< 48 ^^^ d7 <<< 56)) >>> 32) &&& 0xFF = ((x >>> 32) &&& 0xFF) ^^^ d4 := by
    rw [xor_shiftRight_distrib, Nat.and_xor_distrib_right, word64_byte4 d5 d6 d7 h0 h1 h2 h3 h4]
  have hI5 : ((x ^^^ (d0 ^^^ d1 <<< 8 ^^^ d2 <<< 16 ^^^ d3 <<< 24 ^^^ d4 <<< 32 ^^^ d5 <<< 40 ^^^ d6 <<< 48 ^^^ d7 <<< 56)) >>> 40) &&& 0xFF = ((x >>> 40) &&& 0xFF) ^^^ d5 := by
    rw [xor_shiftRight_distrib, Nat.and_xor_distrib_right, word64_byte5 d6 d7 h0 h1 h2 h3 h4 h5]
  have hI6 : ((x ^^^ (d0 ^^^ d1 <<< 8 ^^^ d2 <<< 16 ^^^ d3 <<< 24 ^^^ d4 <<< 32 ^^^ d5 <<< 40 ^^^ d6 <<< 48 ^^^ d7 <<< 56)) >>> 48) &&& 0xFF = ((x >>> 48) &&& 0xFF) ^^^ d6 := by
    rw [xor_shiftRight_distrib, Nat.and_xor_distrib_right, word64_byte6 d7 h0 h1 h2 h3 h4 h5 h6]
  have hI7 : (x ^^^ (d0 ^^^ d1 <<< 8 ^^^ d2 <<< 16 ^^^ d3 <<< 24 ^^^ d4 <<< 32 ^^^ d5 <<< 40 ^^^ d6 <<< 48 ^^^ d7 <<< 56)) >>> 56 = (x >>> 56) ^^^ d7 := by
    rw [xor_shiftRight_distrib, word64_byte7 d7 h0 h1 h2 h3 h4 h5 h6]
  rw [hI0, hI1, hI2, hI3, hI4, hI5, hI6, hI7]
  have hx56 : x >>> 56 < 256 := by
    have h := @shiftRight_lt_of_lt x 64 56 hx
    norm_num at h
    exact h
  rw [CRC64_eq_uz64_iter 7 (xor_lt_256 (and_255_lt _) h0),
    CRC64_eq_uz64_iter 6 (xor_lt_256 (and_255_lt _) h1),
    CRC64_eq_uz64_iter 5 (xor_lt_256 (and_255_lt _) h2),
    CRC64_eq_uz64_iter 4 (xor_lt_256 (and_255_lt _) h3),
    CRC64_eq_uz64_iter 3 (xor_lt_256 (and_255_lt _) h4),
    CRC64_eq_uz64_iter 2 (xor_lt_256 (and_255_lt _) h5),
    CRC64_eq_uz64_iter 1 (xor_lt_256 (and_255_lt _) h6),
    CRC64_eq_uz64_iter 0 (xor_lt_256 hx56 h7)]
  simp only [uz64_iter_xor, List.length_cons, List.length_nil, Nat.reduceAdd]
  rw [uz64_iter8_bytes x hx]
  simp only [tower64, List.length_cons, List.length_nil, Nat.reduceAdd]
  ac_rfl

-- ======================================================================
-- All three source loops compute the byte-at-a-time fold

theorem update32_lt {x b : Nat} (hx : x < 2 ^ 32) (hb : b < 256) :
    update_inverted_crc32 x b < 2 ^ 32 := by
  rw [update32_eq_uz32 x hb]
  exact uz32_lt _ (Nat.xor_lt_two_pow hx (lt_trans hb (by norm_num)))

theorem update64_lt {x b : Nat} (hx : x < 2 ^ 64) (hb : b < 256) :
    update_inverted_crc64 x b < 2 ^ 64 := by
  rw [update64_eq_uz64 x hb]
  exact uz64_lt _ (Nat.xor_lt_two_pow hx (lt_trans hb (by norm_num)))

theorem fold32_lt (ds : List Nat) (hds : ∀ b ∈ ds, b < 256) :
    ∀ x, x < 2 ^ 32 → ds.foldl update_inverted_crc32 x < 2 ^ 32 := by
  induction ds with
  | nil => intro x hx; simpa using hx
  | cons b r ih =>
      intro x hx
      rw [List.foldl_cons]
      exact ih (fun c hc => hds c (by simp [hc])) _
        (update32_lt hx (hds b (by simp)))

theorem fold64_lt (ds : List Nat) (hds : ∀ b ∈ ds, b < 256) :
    ∀ x, x < 2 ^ 64 → ds.foldl update_inverted_crc64 x < 2 ^ 64 := by
  induction ds with
  | nil => intro x hx; simpa using hx
  | cons b r ih =>
      intro x hx
      rw [List.foldl_cons]
      exact ih (fun c hc => hds c (by simp [hc])) _
        (update64_lt hx (hds b (by simp)))

/-- The `checksum32` loop is the byte-at-a-time fold (by fuel on length). -/
theorem checksum32Loop_eq_fold :
    ∀ (n : Nat) (data : List Nat), data.length ≤ n → (∀ b ∈ data, b < 256) →
      ∀ inv, inv < 2 ^ 32 →
      checksum32Loop inv data = data.foldl update_inverted_crc32 inv := by
  intro n
  induction n with
  | zero =>
      intro data hlen _ inv _
      have hnil : data = [] := List.eq_nil_of_length_eq_zero (by omega)
      subst hnil
      rfl
  | succ n ih =>
      intro data hlen hds inv hinv
      rcases data with _ | ⟨e0, _ | ⟨e1, _ | ⟨e2, _ | ⟨e3, _ | ⟨e4, _ | ⟨e5,
        _ | ⟨e6, _ | ⟨e7, rest⟩⟩⟩⟩⟩⟩⟩⟩
      · rfl
      · rfl
      · rfl
      · rfl
      · rfl
      · rfl
      · rfl
      · rfl
      · have hrest : rest.length ≤ n := by
          simp only [List.length_cons] at hlen
          omega
        have h0 : e0 < 256 := hds _ (by simp)
        have h1 : e1 < 256 := hds _ (by simp)
        have h2 : e2 < 256 := hds _ (by simp)
        have h3 : e3 < 256 := hds _ (by simp)
        have h4 : e4 < 256 := hds _ (by simp)
        have h5 : e5 < 256 := hds _ (by simp)
        have h6 : e6 < 256 := hds _ (by simp)
        have h7 : e7 < 256 := hds _ (by simp)
        have hd8 : ∀ b ∈ [e0, e1, e2, e3, e4, e5, e6, e7], b < 256 := by
          intro b hb
          simp only [List.mem_cons, List.not_mem_nil, or_false] at hb
          rcases hb with rfl | rfl | rfl | rfl | rfl | rfl | rfl | rfl <;> assumption
        have hdr : ∀ b ∈ rest, b < 256 := fun b hb => hds b (by simp [hb])
        show checksum32Loop (update_inverted_crc32_8bytes inv e0 e1 e2 e3 e4 e5 e6 e7) rest = _
        rw [kernel32_eq_fold hinv h0 h1 h2 h3 h4 h5 h6 h7,
          ih rest hrest hdr _ (fold32_lt _ hd8 inv hinv)]
        simp only [List.foldl_cons, List.foldl_nil]

/-- The `checksum64` loop is the byte-at-a-time fold. -/
theorem checksum64Loop_eq_fold :
    ∀ (n : Nat) (data : List Nat), data.length ≤ n → (∀ b ∈ data, b < 256) →
      ∀ inv, inv < 2 ^ 64 →
      checksum64Loop inv data = data.foldl update_inverted_crc64 inv := by
  intro n
  induction n with
  | zero =>
      intro data hlen _ inv _
      have hnil : data = [] := List.eq_nil_of_length_eq_zero (by omega)
      subst hnil
      rfl
  | succ n ih =>
      intro data hlen hds inv hinv
      rcases data with _ | ⟨e0, _ | ⟨e1, _ | ⟨e2, _ | ⟨e3, _ | ⟨e4, _ | ⟨e5,
        _ | ⟨e6, _ | ⟨e7, rest⟩⟩⟩⟩⟩⟩⟩⟩
      · rfl
      · rfl
      · rfl
      · rfl
      · rfl
      · rfl
      · rfl
      · rfl
      · have hrest : rest.length ≤ n := by
          simp only [List.length_cons] at hlen
          omega
        have h0 : e0 < 256 := hds _ (by simp)
        have h1 : e1 < 256 := hds _ (by simp)
        have h2 : e2 < 256 := hds _ (by simp)
        have h3 : e3 < 256 := hds _ (by simp)
        have h4 : e4 < 256 := hds _ (by simp)
        have h5 : e5 < 256 := hds _ (by simp)
        have h6 : e6 < 256 := hds _ (by simp)
        have h7 : e7 < 256 := hds _ (by simp)
        have hd8 : ∀ b ∈ [e0, e1, e2, e3, e4, e5, e6, e7], b < 256 := by
          intro b hb
          simp only [List.mem_cons, List.not_mem_nil, or_false] at hb
          rcases hb with rfl | rfl | rfl | rfl | rfl | rfl | rfl | rfl <;> assumption
        have hdr : ∀ b ∈ rest, b < 256 := fun b hb => hds b (by simp [hb])
        show checksum64Loop (update_inverted_crc64_8bytes inv e0 e1 e2 e3 e4 e5 e6 e7) rest = _
        rw [kernel64_eq_fold hinv h0 h1 h2 h3 h4 h5 h6 h7,
          ih rest hrest hdr _ (fold64_lt _ hd8 inv hinv)]
        simp only [List.foldl_cons, List.foldl_nil]

/-- The lockstep `update` loop is the pair of byte-at-a-time folds. -/
theorem updateLoop_eq_folds :
    ∀ (n : Nat) (data : List Nat), data.length ≤ n → (∀ b ∈ data, b < 256) →
      ∀ c : DualCrc, c.inverted_crc32 < 2 ^ 32 → c.inverted_crc64 < 2 ^ 64 →
      DualCrc.update c data
        = ⟨data.foldl update_inverted_crc32 c.inverted_crc32,
           data.foldl update_inverted_crc64 c.inverted_crc64⟩ := by
  intro n
  induction n with
  | zero =>
      intro data hlen _ c _ _
      have hnil : data = [] := List.eq_nil_of_length_eq_zero (by omega)
      subst hnil
      rfl
  | succ n ih =>
      intro data hlen hds c h32 h64
      rcases data with _ | ⟨e0, _ | ⟨e1, _ | ⟨e2, _ | ⟨e3, _ | ⟨e4, _ | ⟨e5,
        _ | ⟨e6, _ | ⟨e7, rest⟩⟩⟩⟩⟩⟩⟩⟩
      · rfl
      · rfl
      · rfl
      · rfl
      · rfl
      · rfl
      · rfl
      · rfl
      · have hrest : rest.length ≤ n := by
          simp only [List.length_cons] at hlen
          omega
        have h0 : e0 < 256 := hds _ (by simp)
        have h1 : e1 < 256 := hds _ (by simp)
        have h2 : e2 < 256 := hds _ (by simp)
        have h3 : e3 < 256 := hds _ (by simp)
        have h4 : e4 < 256 := hds _ (by simp)
        have h5 : e5 < 256 := hds _ (by simp)
        have h6 : e6 < 256 := hds _ (by simp)
        have h7 : e7 < 256 := hds _ (by simp)
        have hd8 : ∀ b ∈ [e0, e1, e2, e3, e4, e5, e6, e7], b < 256 := by
          intro b hb
          simp only [List.mem_cons, List.not_mem_nil, or_false] at hb
          rcases hb with rfl | rfl | rfl | rfl | rfl | rfl | rfl | rfl <;> assumption
        have hdr : ∀ b ∈ rest, b < 256 := fun b hb => hds b (by simp [hb])
        show DualCrc.update
            ⟨update_inverted_crc32_8bytes c.inverted_crc32 e0 e1 e2 e3 e4 e5 e6 e7,
             update_inverted_crc64_8bytes c.inverted_crc64 e0 e1 e2 e3 e4 e5 e6 e7⟩ rest = _
        rw [ih rest hrest hdr _
            (by
              show update_inverted_crc32_8bytes c.inverted_crc32 e0 e1 e2 e3 e4 e5 e6 e7 < 2 ^ 32
              rw [kernel32_eq_fold h32 h0 h1 h2 h3 h4 h5 h6 h7]
              exact fold32_lt _ hd8 _ h32)
            (by
              show update_inverted_crc64_8bytes c.inverted_crc64 e0 e1 e2 e3 e4 e5 e6 e7 < 2 ^ 64
              rw [kernel64_eq_fold h64 h0 h1 h2 h3 h4 h5 h6 h7]
              exact fold64_lt _ hd8 _ h64)]
        show (⟨_, _⟩ : DualCrc) = _
        rw [kernel32_eq_fold h32 h0 h1 h2 h3 h4 h5 h6 h7,
          kernel64_eq_fold h64 h0 h1 h2 h3 h4 h5 h6 h7]
        simp only [List.foldl_cons, List.foldl_nil]

/-- `DualCrc::update` is the pair of byte-at-a-time folds. -/
theorem DualCrc.update_eq_fold (c : DualCrc) (data : List Nat)
    (hds : ∀ b ∈ data, b < 256) (h32 : c.inverted_crc32 < 2 ^ 32)
    (h64 : c.inverted_crc64 < 2 ^ 64) :
    DualCrc.update c data
      = ⟨data.foldl update_inverted_crc32 c.inverted_crc32,
         data.foldl update_inverted_crc64 c.inverted_crc64⟩ :=
  updateLoop_eq_folds data.length data (le_refl _) hds c h32 h64

-- ======================================================================
-- Galois-field multiply: linearity and bounds (32-bit side)

theorem shiftRight_top_cases {w p : Nat} (hp : p < 2 ^ (w + 1)) :
    p >>> w = 0 ∨ p >>> w = 1 := by
  rw [Nat.shiftRight_eq_div_pow]
  exact div_two_pow_cases hp


theorem linOn_iterate {w : Nat} {f : Nat → Nat} (hf : LinOn w f)
    (hbound : ∀ x, x < 2 ^ w → f x < 2 ^ w) (n : Nat) : LinOn w f^[n] := by
  induction n with
  | zero => intro x _ y _; simp
  | succ n ih =>
      intro x hx y hy
      rw [Function.iterate_succ_apply, Function.iterate_succ_apply,
        Function.iterate_succ_apply, hf x hx y hy]
      exact ih _ (hbound x hx) _ (hbound y hy)

theorem xtime32_lt (p : Nat) : xtime32 p < 2 ^ 32 := by
  unfold xtime32
  apply Nat.xor_lt_two_pow
  · exact Nat.mod_lt _ (by norm_num)
  · exact lt_of_le_of_lt (Nat.and_le_right ..) (by decide)

theorem xtime32_iter_lt (n p : Nat) (hp : p < 2 ^ 32) : xtime32^[n] p < 2 ^ 32 :=
  iterate_lt (fun x _ => xtime32_lt x) n p hp

theorem xtime32_zero : xtime32 0 = 0 := by decide

theorem xtime32_linOn : LinOn 32 xtime32 := by
  intro p1 hp1 p2 hp2
  unfold xtime32
  have hsh : ((p1 ^^^ p2) <<< 1) % 2 ^ 32
      = (p1 <<< 1) % 2 ^ 32 ^^^ (p2 <<< 1) % 2 ^ 32 := by
    rw [xor_shiftLeft_distrib, xor_mod_two_pow]
  have hP : POLYNOMIAL_32 < 2 ^ 32 := by decide
  have hmask : ((2 ^ 32 - ((p1 ^^^ p2) >>> 31)) % 2 ^ 32) &&& POLYNOMIAL_32
      = (((2 ^ 32 - (p1 >>> 31)) % 2 ^ 32) &&& POLYNOMIAL_32)
        ^^^ (((2 ^ 32 - (p2 >>> 31)) % 2 ^ 32) &&& POLYNOMIAL_32) := by
    rw [xor_shiftRight_distrib]
    rcases shiftRight_top_cases (show p1 < 2 ^ (31 + 1) by simpa using hp1) with h1 | h1 <;>
      rcases shiftRight_top_cases (show p2 < 2 ^ (31 + 1) by simpa using hp2) with h2 | h2 <;>
      rw [h1, h2] <;>
      simp only [Nat.xor_self, Nat.xor_zero, Nat.zero_xor, wrap_mask_zero,
        wrap_mask_one 32 _ hP]
  rw [hsh, hmask]
  ac_rfl

theorem mulStep32_lt {a p : Nat} (ha : a < 2 ^ 32) (b : Nat) (_hp : p < 2 ^ 32) :
    mulStep32 a b p < 2 ^ 32 := by
  unfold mulStep32
  apply Nat.xor_lt_two_pow
  · exact xtime32_lt p
  · exact lt_of_le_of_lt (Nat.and_le_right ..) ha

theorem mulStep32_linear_a {a1 a2 : Nat} (b : Nat) {p1 p2 : Nat}
    (hp1 : p1 < 2 ^ 32) (hp2 : p2 < 2 ^ 32) :
    mulStep32 (a1 ^^^ a2) b (p1 ^^^ p2) = mulStep32 a1 b p1 ^^^ mulStep32 a2 b p2 := by
  unfold mulStep32
  rw [xtime32_linOn p1 hp1 p2 hp2, Nat.and_xor_distrib_left]
  ac_rfl

theorem mulStep32_linear_bp {a : Nat} (ha : a < 2 ^ 32) {b1 b2 p1 p2 : Nat}
    (hb1 : b1 < 2 ^ 32) (hb2 : b2 < 2 ^ 32)
    (hp1 : p1 < 2 ^ 32) (hp2 : p2 < 2 ^ 32) :
    mulStep32 a (b1 ^^^ b2) (p1 ^^^ p2) = mulStep32 a b1 p1 ^^^ mulStep32 a b2 p2 := by
  unfold mulStep32
  have hmaskb : ((2 ^ 32 - ((b1 ^^^ b2) >>> 31)) % 2 ^ 32) &&& a
      = (((2 ^ 32 - (b1 >>> 31)) % 2 ^ 32) &&& a)
        ^^^ (((2 ^ 32 - (b2 >>> 31)) % 2 ^ 32) &&& a) := by
    rw [xor_shiftRight_distrib]
    rcases shiftRight_top_cases (show b1 < 2 ^ (31 + 1) by simpa using hb1) with h1 | h1 <;>
      rcases shiftRight_top_cases (show b2 < 2 ^ (31 + 1) by simpa using hb2) with h2 | h2 <;>
      rw [h1, h2] <;>
      simp only [Nat.xor_self, Nat.xor_zero, Nat.zero_xor, wrap_mask_zero,
        wrap_mask_one 32 _ ha]
  rw [xtime32_linOn p1 hp1 p2 hp2, hmaskb]
  ac_rfl

theorem mul32go_lt : ∀ (fuel : Nat) {a : Nat}, a < 2 ^ 32 → ∀ (b : Nat) {p : Nat},
    p < 2 ^ 32 → mul32go fuel a b p < 2 ^ 32 := by
  intro fuel
  induction fuel with
  | zero => intro a _ b p hp; exact hp
  | succ fuel ih =>
      intro a ha b p hp
      exact ih ha _ (mulStep32_lt ha b hp)

theorem mul32go_linear_a : ∀ (fuel : Nat) {a1 a2 : Nat}, a1 < 2 ^ 32 → a2 < 2 ^ 32 →
    ∀ (b : Nat) {p1 p2 : Nat}, p1 < 2 ^ 32 → p2 < 2 ^ 32 →
    mul32go fuel (a1 ^^^ a2) b (p1 ^^^ p2)
      = mul32go fuel a1 b p1 ^^^ mul32go fuel a2 b p2 := by
  intro fuel
  induction fuel with
  | zero => intro a1 a2 _ _ b p1 p2 _ _; rfl
  | succ fuel ih =>
      intro a1 a2 ha1 ha2 b p1 p2 hp1 hp2
      show mul32go fuel (a1 ^^^ a2) ((b <<< 1) % 2 ^ 32)
          (mulStep32 (a1 ^^^ a2) b (p1 ^^^ p2)) = _
      rw [mulStep32_linear_a b hp1 hp2]
      exact ih ha1 ha2 _ (mulStep32_lt ha1 b hp1) (mulStep32_lt ha2 b hp2)

theorem mul32go_linear_bp : ∀ (fuel : Nat) {a : Nat}, a < 2 ^ 32 →
    ∀ {b1 b2 p1 p2 : Nat}, b1 < 2 ^ 32 → b2 < 2 ^ 32 → p1 < 2 ^ 32 → p2 < 2 ^ 32 →
    mul32go fuel a (b1 ^^^ b2) (p1 ^^^ p2)
      = mul32go fuel a b1 p1 ^^^ mul32go fuel a b2 p2 := by
  intro fuel
  induction fuel with
  | zero => intro a _ b1 b2 p1 p2 _ _ _ _; rfl
  | succ fuel ih =>
      intro a ha b1 b2 p1 p2 hb1 hb2 hp1 hp2
      show mul32go fuel a (((b1 ^^^ b2) <<< 1) % 2 ^ 32)
          (mulStep32 a (b1 ^^^ b2) (p1 ^^^ p2)) = _
      rw [mulStep32_linear_bp ha hb1 hb2 hp1 hp2, xor_shiftLeft_distrib, xor_mod_two_pow]
      exact ih ha (Nat.mod_lt _ (by norm_num)) (Nat.mod_lt _ (by norm_num))
        (mulStep32_lt ha b1 hp1) (mulStep32_lt ha b2 hp2)

theorem mul32_lt {a : Nat} (ha : a < 2 ^ 32) (b : Nat) : mul32 a b < 2 ^ 32 :=
  mul32go_lt 32 ha b (by norm_num)

theorem mul32_linear_a {a1 a2 : Nat} (ha1 : a1 < 2 ^ 32) (ha2 : a2 < 2 ^ 32)
    (b : Nat) : mul32 (a1 ^^^ a2) b = mul32 a1 b ^^^ mul32 a2 b := by
  show mul32go 32 (a1 ^^^ a2) b (0 ^^^ 0) = _
  exact mul32go_linear_a 32 ha1 ha2 b (by norm_num) (by norm_num)

theorem mul32_linear_b {a : Nat} (ha : a < 2 ^ 32) {b1 b2 : Nat}
    (hb1 : b1 < 2 ^ 32) (hb2 : b2 < 2 ^ 32) :
    mul32 a (b1 ^^^ b2) = mul32 a b1 ^^^ mul32 a b2 := by
  show mul32go 32 a (b1 ^^^ b2) (0 ^^^ 0) = _
  exact mul32go_linear_bp 32 ha hb1 hb2 (by norm_num) (by norm_num)

-- ======================================================================
-- The multiply-by-x commutation: the structural core of the
-- exponentiation-by-squaring correctness (32-bit side)

theorem mulStep32_xtime {a b p : Nat} (ha : a < 2 ^ 32) (hb : b < 2 ^ 32)
    (_hp : p < 2 ^ 32) :
    mulStep32 (xtime32 a) b (xtime32 p) = xtime32 (mulStep32 a b p) := by
  unfold mulStep32
  rw [xtime32_linOn (xtime32 p) (xtime32_lt p) _ (lt_of_le_of_lt (Nat.and_le_right ..) ha)]
  rcases shiftRight_top_cases (show b < 2 ^ (31 + 1) by simpa using hb) with h | h <;>
    rw [h] <;>
    simp only [wrap_mask_zero, wrap_mask_one 32 _ ha, wrap_mask_one 32 _ (xtime32_lt a),
      xtime32_zero]

theorem mul32go_succ (fuel a b p : Nat) :
    mul32go (fuel + 1) a b p
      = mul32go fuel a ((b <<< 1) % 2 ^ 32) (mulStep32 a b p) := rfl

theorem mul32go_xtime : ∀ (fuel : Nat) {a b p : Nat}, a < 2 ^ 32 → b < 2 ^ 32 →
    p < 2 ^ 32 →
    mul32go fuel (xtime32 a) b (xtime32 p) = xtime32 (mul32go fuel a b p) := by
  intro fuel
  induction fuel with
  | zero => intro a b p _ _ _; rfl
  | succ fuel ih =>
      intro a b p ha hb hp
      rw [mul32go_succ, mul32go_succ, mulStep32_xtime ha hb hp]
      exact ih ha (Nat.mod_lt _ (by norm_num)) (mulStep32_lt ha b hp)

theorem mul32_xtime {a b : Nat} (ha : a < 2 ^ 32) (hb : b < 2 ^ 32) :
    mul32 (xtime32 a) b = xtime32 (mul32 a b) := by
  show mul32go 32 (xtime32 a) b 0 = xtime32 (mul32go 32 a b 0)
  rw [show (0 : Nat) = xtime32 0 from xtime32_zero.symm]
  exact mul32go_xtime 32 ha hb (by norm_num)

theorem mul32_xtime_iter : ∀ (k : Nat) {a b : Nat}, a < 2 ^ 32 → b < 2 ^ 32 →
    mul32 (xtime32^[k] a) b = xtime32^[k] (mul32 a b) := by
  intro k
  induction k with
  | zero => intro a b _ _; rfl
  | succ k ih =>
      intro a b ha hb
      rw [Function.iterate_succ_apply', mul32_xtime (xtime32_iter_lt k a ha) hb, ih ha hb]
      exact (Function.iterate_succ_apply' xtime32 k (mul32 a b)).symm

set_option maxRecDepth 100000 in
theorem xtime32_pow : ∀ i, i < 32 → xtime32^[i] 1 = 2 ^ i := by decide

set_option maxRecDepth 1000000 in
/-- `1` is a left identity of the Galois multiplication. -/
theorem mul32_one_left : ∀ f, f < 2 ^ 32 → mul32 1 f = f := by
  have h1 : LinOn 32 (fun f => mul32 1 f) :=
    fun f1 hf1 f2 hf2 => mul32_linear_b (by norm_num) hf1 hf2
  have h2 : LinOn 32 (fun f => f) := fun _ _ _ _ => rfl
  exact fun f hf => linOn_ext 32 h1 h2 (by decide) f hf

set_option maxRecDepth 1000000 in
/-- `1` is a right identity of the Galois multiplication. -/
theorem mul32_one_right : ∀ r, r < 2 ^ 32 → mul32 r 1 = r := by
  have h1 : LinOn 32 (fun r => mul32 r 1) :=
    fun r1 hr1 r2 hr2 => mul32_linear_a hr1 hr2 1
  have h2 : LinOn 32 (fun r => r) := fun _ _ _ _ => rfl
  exact fun r hr => linOn_ext 32 h1 h2 (by decide) r hr

/-- Basis products are iterated multiplications by x. -/
theorem mul32_basis {i j : Nat} (hi : i < 32) (hj : j < 32) :
    mul32 (2 ^ i) (2 ^ j) = xtime32^[i + j] 1 := by
  have hj2 : (2 : Nat) ^ j < 2 ^ 32 := Nat.pow_lt_pow_right (by omega) hj
  calc mul32 (2 ^ i) (2 ^ j) = mul32 (xtime32^[i] 1) (2 ^ j) := by rw [xtime32_pow i hi]
    _ = xtime32^[i] (mul32 1 (2 ^ j)) := mul32_xtime_iter i (by norm_num) hj2
    _ = xtime32^[i] (2 ^ j) := by rw [mul32_one_left _ hj2]
    _ = xtime32^[i] (xtime32^[j] 1) := by rw [xtime32_pow j hj]
    _ = xtime32^[i + j] 1 := by rw [← Function.iterate_add_apply]

/-- The Galois multiplication is commutative on 32-bit values. -/
theorem mul32_comm : ∀ a, a < 2 ^ 32 → ∀ b, b < 2 ^ 32 → mul32 a b = mul32 b a := by
  have hfx : ∀ b, b < 2 ^ 32 → LinOn 32 (fun a => mul32 a b) :=
    fun b _ a1 ha1 a2 ha2 => mul32_linear_a ha1 ha2 b
  have hgx : ∀ b, b < 2 ^ 32 → LinOn 32 (fun a => mul32 b a) :=
    fun b hb a1 ha1 a2 ha2 => mul32_linear_b hb ha1 ha2
  have hfy : ∀ a, a < 2 ^ 32 → LinOn 32 (fun b => mul32 a b) :=
    fun a ha b1 hb1 b2 hb2 => mul32_linear_b ha hb1 hb2
  have hgy : ∀ a, a < 2 ^ 32 → LinOn 32 (fun b => mul32 b a) :=
    fun a _ b1 hb1 b2 hb2 => mul32_linear_a hb1 hb2 a
  have hb : ∀ i, i < 32 → ∀ j, j < 32 → mul32 (2 ^ i) (2 ^ j) = mul32 (2 ^ j) (2 ^ i) := by
    intro i hi j hj
    rw [mul32_basis hi hj, mul32_basis hj hi, Nat.add_comm]
  exact fun a ha b hbd => linOn_ext2 hfx hgx hfy hgy hb a ha b hbd

-- ======================================================================
-- Multiplication by 256 and the exponentiation structure (32-bit side)


theorem m256_32_lt {r : Nat} (hr : r < 2 ^ 32) : m256_32 r < 2 ^ 32 :=
  mul32_lt hr 256

theorem m256_32_iter_lt (n : Nat) {r : Nat} (hr : r < 2 ^ 32) :
    m256_32^[n] r < 2 ^ 32 :=
  iterate_lt (fun _ hx => m256_32_lt hx) n r hr

/-- Multiplying by 256 is eight multiplications by x. -/
theorem m256_32_eq_xtime : ∀ f, f < 2 ^ 32 → m256_32 f = xtime32^[8] f := by
  have h1 : LinOn 32 m256_32 :=
    fun f1 hf1 f2 hf2 => mul32_linear_a hf1 hf2 256
  have h2 : LinOn 32 (fun f => xtime32^[8] f) :=
    linOn_iterate xtime32_linOn (fun x _ => xtime32_lt x) 8
  have hbase : ∀ i, i < 32 → m256_32 (2 ^ i) = xtime32^[8] (2 ^ i) := by
    intro i hi
    show mul32 (2 ^ i) 256 = _
    rw [show (256 : Nat) = 2 ^ 8 by norm_num, mul32_basis hi (by omega),
      Nat.add_comm, Function.iterate_add_apply, xtime32_pow i hi]
  exact fun f hf => linOn_ext 32 h1 h2 hbase f hf

/-- Multiplying by 256 first or last gives the same product. -/
theorem mul32_m256_left : ∀ r, r < 2 ^ 32 → ∀ f, f < 2 ^ 32 →
    mul32 (m256_32 r) f = m256_32 (mul32 r f) := by
  intro r hr f hf
  rw [m256_32_eq_xtime r hr, m256_32_eq_xtime (mul32 r f) (mul32_lt hr f),
    mul32_xtime_iter 8 hr hf]

/-- Multiplying the second factor by 256 multiplies the product by 256. -/
theorem mul32_m256_right : ∀ r, r < 2 ^ 32 → ∀ f, f < 2 ^ 32 →
    mul32 r (m256_32 f) = m256_32 (mul32 r f) := by
  intro r hr f hf
  rw [mul32_comm r hr (m256_32 f) (m256_32_lt hf), mul32_m256_left f hf r hr,
    mul32_comm f hf r hr]

theorem mul32_m256_iter_left : ∀ (j : Nat) {r : Nat}, r < 2 ^ 32 → ∀ {f : Nat}, f < 2 ^ 32 →
    mul32 (m256_32^[j] r) f = m256_32^[j] (mul32 r f) := by
  intro j
  induction j with
  | zero => intro r _ f _; rfl
  | succ j ih =>
      intro r hr f hf
      rw [Function.iterate_succ_apply', mul32_m256_left _ (m256_32_iter_lt j hr) f hf,
        ih hr hf]
      exact (Function.iterate_succ_apply' m256_32 j (mul32 r f)).symm

theorem mul32_m256_iter_right : ∀ (N : Nat) {r f : Nat}, r < 2 ^ 32 → f < 2 ^ 32 →
    mul32 r (m256_32^[N] f) = m256_32^[N] (mul32 r f) := by
  intro N
  induction N with
  | zero => intro r f _ _; rfl
  | succ N ih =>
      intro r f hr hf
      rw [Function.iterate_succ_apply, ih hr (m256_32_lt hf),
        mul32_m256_right r hr f hf, ← Function.iterate_succ_apply]

theorem POW256_32_lt (k : Nat) : POW256_32 k < 2 ^ 32 := by
  induction k with
  | zero => norm_num [POW256_32]
  | succ k ih => exact mul32_lt ih _

/-- The squaring table holds the iterated multiplications by 256. -/
theorem POW256_32_eq_iter (k : Nat) : POW256_32 k = m256_32^[2 ^ k] 1 := by
  induction k with
  | zero => decide
  | succ k ih =>
      show mul32 (POW256_32 k) (POW256_32 k) = _
      rw [ih]
      rw [mul32_m256_iter_left (2 ^ k) (by norm_num) (m256_32_iter_lt _ (by norm_num)),
        mul32_one_left _ (m256_32_iter_lt _ (by norm_num)),
        ← Function.iterate_add_apply]
      congr 1
      have h2 : 2 ^ (k + 1) = 2 ^ k * 2 := Nat.pow_succ ..
      omega

-- ======================================================================
-- pow256_32 computes iterated multiplication by 256

theorem pow256_32go_succ (fuel result pos power : Nat) :
    pow256_32go (fuel + 1) result pos power
      = if power = 0 then result
        else pow256_32go fuel
          (if power &&& 1 = 1 then mul32 result (POW256_32 pos) else result)
          (pos + 1) (power >>> 1) := rfl

theorem pow256_32go_eq : ∀ (fuel power : Nat), power < 2 ^ fuel → ∀ (pos : Nat)
    {result : Nat}, result < 2 ^ 32 →
    pow256_32go fuel result pos power = m256_32^[2 ^ pos * power] result := by
  intro fuel
  induction fuel with
  | zero =>
      intro power hpow pos result _
      have h0 : power = 0 := by simpa using hpow
      subst h0
      simp [pow256_32go]
  | succ fuel ih =>
      intro power hpow pos result hres
      by_cases h0 : power = 0
      · subst h0
        simp [pow256_32go]
      · rw [pow256_32go_succ, if_neg h0]
        have hs : power >>> 1 = power / 2 := by
          rw [Nat.shiftRight_eq_div_pow, Nat.pow_one]
        have h2f : 2 ^ (fuel + 1) = 2 ^ fuel * 2 := Nat.pow_succ ..
        have hlt : power / 2 < 2 ^ fuel := by omega
        have h2p : 2 ^ (pos + 1) = 2 ^ pos * 2 := Nat.pow_succ ..
        rcases and_one_cases power with he | ho
        · have hpar : power % 2 = 0 := by
            rw [← Nat.and_one_is_mod]
            exact he
          rw [if_neg (by omega), hs, ih (power / 2) hlt (pos + 1) hres]
          congr 1
          calc 2 ^ (pos + 1) * (power / 2) = 2 ^ pos * (2 * (power / 2)) := by
                rw [h2p]
                ring
            _ = 2 ^ pos * power := by
                congr 1
                omega
        · have hpar : power % 2 = 1 := by
            rw [← Nat.and_one_is_mod]
            exact ho
          rw [if_pos ho, hs, ih (power / 2) hlt (pos + 1) (mul32_lt hres _)]
          have hmr : mul32 result (POW256_32 pos) = m256_32^[2 ^ pos] result := by
            rw [POW256_32_eq_iter pos, mul32_m256_iter_right (2 ^ pos) hres (by norm_num),
              mul32_one_right result hres]
          rw [hmr, ← Function.iterate_add_apply]
          congr 1
          calc 2 ^ (pos + 1) * (power / 2) + 2 ^ pos
              = 2 ^ pos * (2 * (power / 2) + 1) := by
                rw [h2p]
                ring
            _ = 2 ^ pos * power := by
                congr 1
                omega

theorem tzgo_succ (fuel n : Nat) :
    tzgo (fuel + 1) n = if n % 2 = 1 then 0 else tzgo fuel (n / 2) + 1 := rfl

theorem tzgo_spec : ∀ (fuel n : Nat), n ≠ 0 → n < 2 ^ fuel →
    n % 2 ^ (tzgo fuel n + 1) = 2 ^ tzgo fuel n ∧ tzgo fuel n < fuel := by
  intro fuel
  induction fuel with
  | zero =>
      intro n h0 hn
      simp at hn
      omega
  | succ fuel ih =>
      intro n h0 hn
      rw [tzgo_succ]
      by_cases hodd : n % 2 = 1
      · rw [if_pos hodd]
        constructor
        · simpa using hodd
        · omega
      · have heven : n % 2 = 0 := by omega
        have hhalf0 : n / 2 ≠ 0 := by omega
        have hhalf : n / 2 < 2 ^ fuel := by
          have h2 : 2 ^ (fuel + 1) = 2 ^ fuel * 2 := Nat.pow_succ ..
          omega
        obtain ⟨ha, hb⟩ := ih (n / 2) hhalf0 hhalf
        rw [if_neg hodd]
        constructor
        · have h2 : ∀ m : Nat, 2 ^ (m + 1) = 2 * 2 ^ m := by
            intro m
            rw [Nat.pow_succ]
            ring
          have hn2 : n = 2 * (n / 2) := by omega
          set t := tzgo fuel (n / 2) with ht
          rw [hn2, h2 (t + 1), Nat.mul_mod_mul_left, ha, h2 t]
        · omega

theorem trailing_zeros_spec {n : Nat} (h0 : n ≠ 0) (hn : n < 2 ^ 64) :
    n % 2 ^ (trailing_zeros n + 1) = 2 ^ trailing_zeros n ∧ trailing_zeros n < 64 :=
  tzgo_spec 64 n h0 hn

/-- `pow256_32 N` is `N` multiplications by 256 applied to 1. -/
theorem pow256_32_eq_iter {N : Nat} (hN : N < 2 ^ 64) :
    pow256_32 N = m256_32^[N] 1 := by
  by_cases h0 : N = 0
  · subst h0
    rfl
  · obtain ⟨hmod, hlt⟩ := trailing_zeros_spec h0 hN
    show (if N = 0 then 1 else
      pow256_32go 64 (POW256_32 (trailing_zeros N)) (trailing_zeros N + 1)
        (N >>> (trailing_zeros N + 1))) = _
    rw [if_neg h0]
    have hshift : N >>> (trailing_zeros N + 1) = N / 2 ^ (trailing_zeros N + 1) :=
      Nat.shiftRight_eq_div_pow ..
    have hlt2 : N / 2 ^ (trailing_zeros N + 1) < 2 ^ 64 :=
      lt_of_le_of_lt (Nat.div_le_self ..) hN
    rw [hshift, pow256_32go_eq 64 _ hlt2 (trailing_zeros N + 1) (POW256_32_lt _),
      POW256_32_eq_iter, ← Function.iterate_add_apply]
    congr 1
    have hdm := Nat.div_add_mod N (2 ^ (trailing_zeros N + 1))
    omega

theorem pow256_32_lt {N : Nat} (hN : N < 2 ^ 64) : pow256_32 N < 2 ^ 32 := by
  rw [pow256_32_eq_iter hN]
  exact m256_32_iter_lt N (by norm_num)

-- ======================================================================
-- Bit reversal

theorem revfold_term_xor (w i x y : Nat) :
    (if (x ^^^ y).testBit i then 2 ^ (w - 1 - i) else 0)
      = (if x.testBit i then 2 ^ (w - 1 - i) else 0)
        ^^^ (if y.testBit i then 2 ^ (w - 1 - i) else 0) := by
  rw [Nat.testBit_xor]
  rcases hx : x.testBit i <;> rcases hy : y.testBit i <;> simp

theorem revfold_split (w x y : Nat) : ∀ (l : List Nat) (acc1 acc2 : Nat),
    l.foldl (fun acc i => acc ^^^ (if (x ^^^ y).testBit i then 2 ^ (w - 1 - i) else 0))
        (acc1 ^^^ acc2)
      = l.foldl (fun acc i => acc ^^^ (if x.testBit i then 2 ^ (w - 1 - i) else 0)) acc1
        ^^^ l.foldl (fun acc i => acc ^^^ (if y.testBit i then 2 ^ (w - 1 - i) else 0)) acc2 := by
  intro l
  induction l with
  | nil => intro acc1 acc2; rfl
  | cons i r ih =>
      intro acc1 acc2
      rw [List.foldl_cons, List.foldl_cons, List.foldl_cons, revfold_term_xor w i x y,
        xor_xor_swap]
      exact ih _ _

theorem isLin_reverseBits (w : Nat) : IsLin (reverseBits w) := by
  intro x y
  unfold reverseBits
  have h := revfold_split w x y (List.range w) 0 0
  simpa using h

theorem revfold_lt {w x : Nat} : ∀ (l : List Nat), (∀ i ∈ l, i < w) →
    ∀ (acc : Nat), acc < 2 ^ w →
    l.foldl (fun acc i => acc ^^^ (if x.testBit i then 2 ^ (w - 1 - i) else 0)) acc
      < 2 ^ w := by
  intro l
  induction l with
  | nil => intro _ acc hacc; simpa using hacc
  | cons i r ih =>
      intro hl acc hacc
      rw [List.foldl_cons]
      apply ih (fun j hj => hl j (by simp [hj]))
      apply Nat.xor_lt_two_pow hacc
      have hi : i < w := hl i (by simp)
      rcases hx : x.testBit i
      · simp [hx]
      · have : 2 ^ (w - 1 - i) < 2 ^ w :=
          Nat.pow_lt_pow_right (by omega) (by omega)
        simpa [hx] using this

theorem reverseBits_lt (w x : Nat) : reverseBits w x < 2 ^ w := by
  unfold reverseBits
  exact revfold_lt (List.range w) (fun i hi => List.mem_range.mp hi) 0 (Nat.two_pow_pos w)

set_option maxRecDepth 1000000 in
theorem reverseBits32_involutive : ∀ x, x < 2 ^ 32 →
    reverseBits 32 (reverseBits 32 x) = x := by
  have h1 : LinOn 32 (fun x => reverseBits 32 (reverseBits 32 x)) := by
    intro x _ y _
    show reverseBits 32 (reverseBits 32 (x ^^^ y)) = _
    rw [isLin_reverseBits 32 x y, isLin_reverseBits 32 (reverseBits 32 x) (reverseBits 32 y)]
  have h2 : LinOn 32 (fun x => x) := fun _ _ _ _ => rfl
  exact fun x hx => linOn_ext 32 h1 h2 (by decide) x hx

set_option maxRecDepth 1000000 in
/-- Multiplication by 256 in the reflected view is the zero-byte update. -/
theorem m256_32_reflected : ∀ inv, inv < 2 ^ 32 →
    reverseBits 32 (m256_32 (reverseBits 32 inv)) = uz32 inv := by
  have h1 : LinOn 32 (fun inv => reverseBits 32 (m256_32 (reverseBits 32 inv))) := by
    intro x _ y _
    show reverseBits 32 (m256_32 (reverseBits 32 (x ^^^ y))) = _
    rw [isLin_reverseBits 32 x y,
      show m256_32 (reverseBits 32 x ^^^ reverseBits 32 y)
          = m256_32 (reverseBits 32 x) ^^^ m256_32 (reverseBits 32 y) from
        mul32_linear_a (reverseBits_lt ..) (reverseBits_lt ..) 256,
      isLin_reverseBits 32 (m256_32 (reverseBits 32 x)) (m256_32 (reverseBits 32 y))]
  have h2 : LinOn 32 uz32 := isLin_uz32.linOn 32
  exact fun inv h => linOn_ext 32 h1 h2 (by decide) inv h

/-- Applying `Zeros::new N` to an inverted CRC-32 state is `N` zero-byte
updates. -/
theorem apply32_eq_uz_iter {N : Nat} (hN : N < 2 ^ 64) :
    ∀ inv, inv < 2 ^ 32 →
    (Zeros.new N).apply_to_inverted_crc32 inv = uz32^[N] inv := by
  have key : ∀ (M : Nat), ∀ inv, inv < 2 ^ 32 →
      reverseBits 32 (m256_32^[M] (reverseBits 32 inv)) = uz32^[M] inv := by
    intro M
    induction M with
    | zero => intro inv h; exact reverseBits32_involutive inv h
    | succ M ih =>
        intro inv h
        rw [Function.iterate_succ_apply]
        have hb : m256_32 (reverseBits 32 inv) < 2 ^ 32 := m256_32_lt (reverseBits_lt ..)
        rw [show m256_32 (reverseBits 32 inv)
            = reverseBits 32 (reverseBits 32 (m256_32 (reverseBits 32 inv))) from
            (reverseBits32_involutive _ hb).symm,
          ih _ (reverseBits_lt ..), m256_32_reflected inv h]
        exact (Function.iterate_succ_apply uz32 M inv).symm
  intro inv hinv
  show reverseBits 32 (mul32 (reverseBits 32 inv) (pow256_32 N)) = _
  rw [pow256_32_eq_iter hN, mul32_m256_iter_right N (reverseBits_lt ..) (by norm_num),
    mul32_one_right _ (reverseBits_lt ..)]
  exact key N inv hinv

-- ======================================================================
-- Galois-field multiply: 64-bit side

theorem xtime64_lt (p : Nat) : xtime64 p < 2 ^ 64 := by
  unfold xtime64
  apply Nat.xor_lt_two_pow
  · exact Nat.mod_lt _ (by norm_num)
  · exact lt_of_le_of_lt (Nat.and_le_right ..) (by decide)

theorem xtime64_iter_lt (n p : Nat) (hp : p < 2 ^ 64) : xtime64^[n] p < 2 ^ 64 :=
  iterate_lt (fun x _ => xtime64_lt x) n p hp

theorem xtime64_zero : xtime64 0 = 0 := by decide

theorem xtime64_linOn : LinOn 64 xtime64 := by
  intro p1 hp1 p2 hp2
  unfold xtime64
  have hsh : ((p1 ^^^ p2) <<< 1) % 2 ^ 64
      = (p1 <<< 1) % 2 ^ 64 ^^^ (p2 <<< 1) % 2 ^ 64 := by
    rw [xor_shiftLeft_distrib, xor_mod_two_pow]
  have hP : POLYNOMIAL_64 < 2 ^ 64 := by decide
  have hmask : ((2 ^ 64 - ((p1 ^^^ p2) >>> 63)) % 2 ^ 64) &&& POLYNOMIAL_64
      = (((2 ^ 64 - (p1 >>> 63)) % 2 ^ 64) &&& POLYNOMIAL_64)
        ^^^ (((2 ^ 64 - (p2 >>> 63)) % 2 ^ 64) &&& POLYNOMIAL_64) := by
    rw [xor_shiftRight_distrib]
    rcases shiftRight_top_cases (show p1 < 2 ^ (63 + 1) by simpa using hp1) with h1 | h1 <;>
      rcases shiftRight_top_cases (show p2 < 2 ^ (63 + 1) by simpa using hp2) with h2 | h2 <;>
      rw [h1, h2] <;>
      simp only [Nat.xor_self, Nat.xor_zero, Nat.zero_xor, wrap_mask_zero,
        wrap_mask_one 64 _ hP]
  rw [hsh, hmask]
  ac_rfl

theorem mulStep64_lt {a p : Nat} (ha : a < 2 ^ 64) (b : Nat) (_hp : p < 2 ^ 64) :
    mulStep64 a b p < 2 ^ 64 := by
  unfold mulStep64
  apply Nat.xor_lt_two_pow
  · exact xtime64_lt p
  · exact lt_of_le_of_lt (Nat.and_le_right ..) ha

theorem mulStep64_linear_a {a1 a2 : Nat} (b : Nat) {p1 p2 : Nat}
    (hp1 : p1 < 2 ^ 64) (hp2 : p2 < 2 ^ 64) :
    mulStep64 (a1 ^^^ a2) b (p1 ^^^ p2) = mulStep64 a1 b p1 ^^^ mulStep64 a2 b p2 := by
  unfold mulStep64
  rw [xtime64_linOn p1 hp1 p2 hp2, Nat.and_xor_distrib_left]
  ac_rfl

theorem mulStep64_linear_bp {a : Nat} (ha : a < 2 ^ 64) {b1 b2 p1 p2 : Nat}
    (hb1 : b1 < 2 ^ 64) (hb2 : b2 < 2 ^ 64)
    (hp1 : p1 < 2 ^ 64) (hp2 : p2 < 2 ^ 64) :
    mulStep64 a (b1 ^^^ b2) (p1 ^^^ p2) = mulStep64 a b1 p1 ^^^ mulStep64 a b2 p2 := by
  unfold mulStep64
  have hmaskb : ((2 ^ 64 - ((b1 ^^^ b2) >>> 63)) % 2 ^ 64) &&& a
      = (((2 ^ 64 - (b1 >>> 63)) % 2 ^ 64) &&& a)
        ^^^ (((2 ^ 64 - (b2 >>> 63)) % 2 ^ 64) &&& a) := by
    rw [xor_shiftRight_distrib]
    rcases shiftRight_top_cases (show b1 < 2 ^ (63 + 1) by simpa using hb1) with h1 | h1 <;>
      rcases shiftRight_top_cases (show b2 < 2 ^ (63 + 1) by simpa using hb2) with h2 | h2 <;>
      rw [h1, h2] <;>
      simp only [Nat.xor_self, Nat.xor_zero, Nat.zero_xor, wrap_mask_zero,
        wrap_mask_one 64 _ ha]
  rw [xtime64_linOn p1 hp1 p2 hp2, hmaskb]
  ac_rfl

theorem mul64go_lt : ∀ (fuel : Nat) {a : Nat}, a < 2 ^ 64 → ∀ (b : Nat) {p : Nat},
    p < 2 ^ 64 → mul64go fuel a b p < 2 ^ 64 := by
  intro fuel
  induction fuel with
  | zero => intro a _ b p hp; exact hp
  | succ fuel ih =>
      intro a ha b p hp
      exact ih ha _ (mulStep64_lt ha b hp)

theorem mul64go_linear_a : ∀ (fuel : Nat) {a1 a2 : Nat}, a1 < 2 ^ 64 → a2 < 2 ^ 64 →
    ∀ (b : Nat) {p1 p2 : Nat}, p1 < 2 ^ 64 → p2 < 2 ^ 64 →
    mul64go fuel (a1 ^^^ a2) b (p1 ^^^ p2)
      = mul64go fuel a1 b p1 ^^^ mul64go fuel a2 b p2 := by
  intro fuel
  induction fuel with
  | zero => intro a1 a2 _ _ b p1 p2 _ _; rfl
  | succ fuel ih =>
      intro a1 a2 ha1 ha2 b p1 p2 hp1 hp2
      show mul64go fuel (a1 ^^^ a2) ((b <<< 1) % 2 ^ 64)
          (mulStep64 (a1 ^^^ a2) b (p1 ^^^ p2)) = _
      rw [mulStep64_linear_a b hp1 hp2]
      exact ih ha1 ha2 _ (mulStep64_lt ha1 b hp1) (mulStep64_lt ha2 b hp2)

theorem mul64go_linear_bp : ∀ (fuel : Nat) {a : Nat}, a < 2 ^ 64 →
    ∀ {b1 b2 p1 p2 : Nat}, b1 < 2 ^ 64 → b2 < 2 ^ 64 → p1 < 2 ^ 64 → p2 < 2 ^ 64 →
    mul64go fuel a (b1 ^^^ b2) (p1 ^^^ p2)
      = mul64go fuel a b1 p1 ^^^ mul64go fuel a b2 p2 := by
  intro fuel
  induction fuel with
  | zero => intro a _ b1 b2 p1 p2 _ _ _ _; rfl
  | succ fuel ih =>
      intro a ha b1 b2 p1 p2 hb1 hb2 hp1 hp2
      show mul64go fuel a (((b1 ^^^ b2) <<< 1) % 2 ^ 64)
          (mulStep64 a (b1 ^^^ b2) (p1 ^^^ p2)) = _
      rw [mulStep64_linear_bp ha hb1 hb2 hp1 hp2, xor_shiftLeft_distrib, xor_mod_two_pow]
      exact ih ha (Nat.mod_lt _ (by norm_num)) (Nat.mod_lt _ (by norm_num))
        (mulStep64_lt ha b1 hp1) (mulStep64_lt ha b2 hp2)

theorem mul64_lt {a : Nat} (ha : a < 2 ^ 64) (b : Nat) : mul64 a b < 2 ^ 64 :=
  mul64go_lt 64 ha b (by norm_num)

theorem mul64_linear_a {a1 a2 : Nat} (ha1 : a1 < 2 ^ 64) (ha2 : a2 < 2 ^ 64)
    (b : Nat) : mul64 (a1 ^^^ a2) b = mul64 a1 b ^^^ mul64 a2 b := by
  show mul64go 64 (a1 ^^^ a2) b (0 ^^^ 0) = _
  exact mul64go_linear_a 64 ha1 ha2 b (by norm_num) (by norm_num)

theorem mul64_linear_b {a : Nat} (ha : a < 2 ^ 64) {b1 b2 : Nat}
    (hb1 : b1 < 2 ^ 64) (hb2 : b2 < 2 ^ 64) :
    mul64 a (b1 ^^^ b2) = mul64 a b1 ^^^ mul64 a b2 := by
  show mul64go 64 a (b1 ^^^ b2) (0 ^^^ 0) = _
  exact mul64go_linear_bp 64 ha hb1 hb2 (by norm_num) (by norm_num)
theorem mulStep64_xtime {a b p : Nat} (ha : a < 2 ^ 64) (hb : b < 2 ^ 64)
    (_hp : p < 2 ^ 64) :
    mulStep64 (xtime64 a) b (xtime64 p) = xtime64 (mulStep64 a b p) := by
  unfold mulStep64
  rw [xtime64_linOn (xtime64 p) (xtime64_lt p) _ (lt_of_le_of_lt (Nat.and_le_right ..) ha)]
  rcases shiftRight_top_cases (show b < 2 ^ (63 + 1) by simpa using hb) with h | h <;>
    rw [h] <;>
    simp only [wrap_mask_zero, wrap_mask_one 64 _ ha, wrap_mask_one 64 _ (xtime64_lt a),
      xtime64_zero]

theorem mul64go_succ (fuel a b p : Nat) :
    mul64go (fuel + 1) a b p
      = mul64go fuel a ((b <<< 1) % 2 ^ 64) (mulStep64 a b p) := rfl

theorem mul64go_xtime : ∀ (fuel : Nat) {a b p : Nat}, a < 2 ^ 64 → b < 2 ^ 64 →
    p < 2 ^ 64 →
    mul64go fuel (xtime64 a) b (xtime64 p) = xtime64 (mul64go fuel a b p) := by
  intro fuel
  induction fuel with
  | zero => intro a b p _ _ _; rfl
  | succ fuel ih =>
      intro a b p ha hb hp
      rw [mul64go_succ, mul64go_succ, mulStep64_xtime ha hb hp]
      exact ih ha (Nat.mod_lt _ (by norm_num)) (mulStep64_lt ha b hp)

theorem mul64_xtime {a b : Nat} (ha : a < 2 ^ 64) (hb : b < 2 ^ 64) :
    mul64 (xtime64 a) b = xtime64 (mul64 a b) := by
  show mul64go 64 (xtime64 a) b 0 = xtime64 (mul64go 64 a b 0)
  rw [show (0 : Nat) = xtime64 0 from xtime64_zero.symm]
  exact mul64go_xtime 64 ha hb (by norm_num)

theorem mul64_xtime_iter : ∀ (k : Nat) {a b : Nat}, a < 2 ^ 64 → b < 2 ^ 64 →
    mul64 (xtime64^[k] a) b = xtime64^[k] (mul64 a b) := by
  intro k
  induction k with
  | zero => intro a b _ _; rfl
  | succ k ih =>
      intro a b ha hb
      rw [Function.iterate_succ_apply', mul64_xtime (xtime64_iter_lt k a ha) hb, ih ha hb]
      exact (Function.iterate_succ_apply' xtime64 k (mul64 a b)).symm

set_option maxRecDepth 100000 in
theorem xtime64_pow : ∀ i, i < 64 → xtime64^[i] 1 = 2 ^ i := by decide

set_option maxRecDepth 1000000 in
/-- `1` is a left identity of the Galois multiplication. -/
theorem mul64_one_left : ∀ f, f < 2 ^ 64 → mul64 1 f = f := by
  have h1 : LinOn 64 (fun f => mul64 1 f) :=
    fun f1 hf1 f2 hf2 => mul64_linear_b (by norm_num) hf1 hf2
  have h2 : LinOn 64 (fun f => f) := fun _ _ _ _ => rfl
  exact fun f hf => linOn_ext 64 h1 h2 (by decide) f hf

set_option maxRecDepth 1000000 in
/-- `1` is a right identity of the Galois multiplication. -/
theorem mul64_one_right : ∀ r, r < 2 ^ 64 → mul64 r 1 = r := by
  have h1 : LinOn 64 (fun r => mul64 r 1) :=
    fun r1 hr1 r2 hr2 => mul64_linear_a hr1 hr2 1
  have h2 : LinOn 64 (fun r => r) := fun _ _ _ _ => rfl
  exact fun r hr => linOn_ext 64 h1 h2 (by decide) r hr

/-- Basis products are iterated multiplications by x. -/
theorem mul64_basis {i j : Nat} (hi : i < 64) (hj : j < 64) :
    mul64 (2 ^ i) (2 ^ j) = xtime64^[i + j] 1 := by
  have hj2 : (2 : Nat) ^ j < 2 ^ 64 := Nat.pow_lt_pow_right (by omega) hj
  calc mul64 (2 ^ i) (2 ^ j) = mul64 (xtime64^[i] 1) (2 ^ j) := by rw [xtime64_pow i hi]
    _ = xtime64^[i] (mul64 1 (2 ^ j)) := mul64_xtime_iter i (by norm_num) hj2
    _ = xtime64^[i] (2 ^ j) := by rw [mul64_one_left _ hj2]
    _ = xtime64^[i] (xtime64^[j] 1) := by rw [xtime64_pow j hj]
    _ = xtime64^[i + j] 1 := by rw [← Function.iterate_add_apply]

/-- The Galois multiplication is commutative on 64-bit values. -/
theorem mul64_comm : ∀ a, a < 2 ^ 64 → ∀ b, b < 2 ^ 64 → mul64 a b = mul64 b a := by
  have hfx : ∀ b, b < 2 ^ 64 → LinOn 64 (fun a => mul64 a b) :=
    fun b _ a1 ha1 a2 ha2 => mul64_linear_a ha1 ha2 b
  have hgx : ∀ b, b < 2 ^ 64 → LinOn 64 (fun a => mul64 b a) :=
    fun b hb a1 ha1 a2 ha2 => mul64_linear_b hb ha1 ha2
  have hfy : ∀ a, a < 2 ^ 64 → LinOn 64 (fun b => mul64 a b) :=
    fun a ha b1 hb1 b2 hb2 => mul64_linear_b ha hb1 hb2
  have hgy : ∀ a, a < 2 ^ 64 → LinOn 64 (fun b => mul64 b a) :=
    fun a _ b1 hb1 b2 hb2 => mul64_linear_a hb1 hb2 a
  have hb : ∀ i, i < 64 → ∀ j, j < 64 → mul64 (2 ^ i) (2 ^ j) = mul64 (2 ^ j) (2 ^ i) := by
    intro i hi j hj
    rw [mul64_basis hi hj, mul64_basis hj hi, Nat.add_comm]
  exact fun a ha b hbd => linOn_ext2 hfx hgx hfy hgy hb a ha b hbd

theorem m256_64_lt {r : Nat} (hr : r < 2 ^ 64) : m256_64 r < 2 ^ 64 :=
  mul64_lt hr 256

theorem m256_64_iter_lt (n : Nat) {r : Nat} (hr : r < 2 ^ 64) :
    m256_64^[n] r < 2 ^ 64 :=
  iterate_lt (fun _ hx => m256_64_lt hx) n r hr

/-- Multiplying by 256 is eight multiplications by x. -/
theorem m256_64_eq_xtime : ∀ f, f < 2 ^ 64 → m256_64 f = xtime64^[8] f := by
  have h1 : LinOn 64 m256_64 :=
    fun f1 hf1 f2 hf2 => mul64_linear_a hf1 hf2 256
  have h2 : LinOn 64 (fun f => xtime64^[8] f) :=
    linOn_iterate xtime64_linOn (fun x _ => xtime64_lt x) 8
  have hbase : ∀ i, i < 64 → m256_64 (2 ^ i) = xtime64^[8] (2 ^ i) := by
    intro i hi
    show mul64 (2 ^ i) 256 = _
    rw [show (256 : Nat) = 2 ^ 8 by norm_num, mul64_basis hi (by omega),
      Nat.add_comm, Function.iterate_add_apply, xtime64_pow i hi]
  exact fun f hf => linOn_ext 64 h1 h2 hbase f hf

/-- Multiplying by 256 first or last gives the same product. -/
theorem mul64_m256_left : ∀ r, r < 2 ^ 64 → ∀ f, f < 2 ^ 64 →
    mul64 (m256_64 r) f = m256_64 (mul64 r f) := by
  intro r hr f hf
  rw [m256_64_eq_xtime r hr, m256_64_eq_xtime (mul64 r f) (mul64_lt hr f),
    mul64_xtime_iter 8 hr hf]

/-- Multiplying the second factor by 256 multiplies the product by 256. -/
theorem mul64_m256_right : ∀ r, r < 2 ^ 64 → ∀ f, f < 2 ^ 64 →
    mul64 r (m256_64 f) = m256_64 (mul64 r f) := by
  intro r hr f hf
  rw [mul64_comm r hr (m256_64 f) (m256_64_lt hf), mul64_m256_left f hf r hr,
    mul64_comm f hf r hr]

theorem mul64_m256_iter_left : ∀ (j : Nat) {r : Nat}, r < 2 ^ 64 → ∀ {f : Nat}, f < 2 ^ 64 →
    mul64 (m256_64^[j] r) f = m256_64^[j] (mul64 r f) := by
  intro j
  induction j with
  | zero => intro r _ f _; rfl
  | succ j ih =>
      intro r hr f hf
      rw [Function.iterate_succ_apply', mul64_m256_left _ (m256_64_iter_lt j hr) f hf,
        ih hr hf]
      exact (Function.iterate_succ_apply' m256_64 j (mul64 r f)).symm

set_option maxRecDepth 100000 in
theorem mul64_m256_iter_right : ∀ (N : Nat) {r f : Nat}, r < 2 ^ 64 → f < 2 ^ 64 →
    mul64 r (m256_64^[N] f) = m256_64^[N] (mul64 r f) := by
  intro N
  induction N with
  | zero => intro r f _ _; rfl
  | succ N ih =>
      intro r f hr hf
      rw [Function.iterate_succ_apply, ih hr (m256_64_lt hf),
        mul64_m256_right r hr f hf, ← Function.iterate_succ_apply]

theorem POW256_64_lt (k : Nat) : POW256_64 k < 2 ^ 64 := by
  induction k with
  | zero => norm_num [POW256_64]
  | succ k ih => exact mul64_lt ih _

set_option maxRecDepth 100000 in
/-- The squaring table holds the iterated multiplications by 256. -/
theorem POW256_64_eq_iter (k : Nat) : POW256_64 k = m256_64^[2 ^ k] 1 := by
  induction k with
  | zero => decide
  | succ k ih =>
      show mul64 (POW256_64 k) (POW256_64 k) = _
      rw [ih]
      rw [mul64_m256_iter_left (2 ^ k) (by norm_num) (m256_64_iter_lt _ (by norm_num)),
        mul64_one_left _ (m256_64_iter_lt _ (by norm_num)),
        ← Function.iterate_add_apply]
      congr 1
      have h2 : 2 ^ (k + 1) = 2 ^ k * 2 := Nat.pow_succ ..
      omega
theorem pow256_64go_succ (fuel result pos power : Nat) :
    pow256_64go (fuel + 1) result pos power
      = if power = 0 then result
        else pow256_64go fuel
          (if power &&& 1 = 1 then mul64 result (POW256_64 pos) else result)
          (pos + 1) (power >>> 1) := rfl

theorem pow256_64go_eq : ∀ (fuel power : Nat), power < 2 ^ fuel → ∀ (pos : Nat)
    {result : Nat}, result < 2 ^ 64 →
    pow256_64go fuel result pos power = m256_64^[2 ^ pos * power] result := by
  intro fuel
  induction fuel with
  | zero =>
      intro power hpow pos result _
      have h0 : power = 0 := by simpa using hpow
      subst h0
      simp [pow256_64go]
  | succ fuel ih =>
      intro power hpow pos result hres
      by_cases h0 : power = 0
      · subst h0
        simp [pow256_64go]
      · rw [pow256_64go_succ, if_neg h0]
        have hs : power >>> 1 = power / 2 := by
          rw [Nat.shiftRight_eq_div_pow, Nat.pow_one]
        have h2f : 2 ^ (fuel + 1) = 2 ^ fuel * 2 := Nat.pow_succ ..
        have hlt : power / 2 < 2 ^ fuel := by omega
        have h2p : 2 ^ (pos + 1) = 2 ^ pos * 2 := Nat.pow_succ ..
        rcases and_one_cases power with he | ho
        · have hpar : power % 2 = 0 := by
            rw [← Nat.and_one_is_mod]
            exact he
          rw [if_neg (by omega), hs, ih (power / 2) hlt (pos + 1) hres]
          congr 1
          calc 2 ^ (pos + 1) * (power / 2) = 2 ^ pos * (2 * (power / 2)) := by
                rw [h2p]
                ring
            _ = 2 ^ pos * power := by
                congr 1
                omega
        · have hpar : power % 2 = 1 := by
            rw [← Nat.and_one_is_mod]
            exact ho
          rw [if_pos ho, hs, ih (power / 2) hlt (pos + 1) (mul64_lt hres _)]
          have hmr : mul64 result (POW256_64 pos) = m256_64^[2 ^ pos] result := by
            rw [POW256_64_eq_iter pos, mul64_m256_iter_right (2 ^ pos) hres (by norm_num),
              mul64_one_right result hres]
          rw [hmr, ← Function.iterate_add_apply]
          congr 1
          calc 2 ^ (pos + 1) * (power / 2) + 2 ^ pos
              = 2 ^ pos * (2 * (power / 2) + 1) := by
                rw [h2p]
                ring
            _ = 2 ^ pos * power := by
                congr 1
                omega
theorem pow256_64_eq_iter {N : Nat} (hN : N < 2 ^ 64) :
    pow256_64 N = m256_64^[N] 1 := by
  by_cases h0 : N = 0
  · subst h0
    rfl
  · obtain ⟨hmod, hlt⟩ := trailing_zeros_spec h0 hN
    show (if N = 0 then 1 else
      pow256_64go 64 (POW256_64 (trailing_zeros N)) (trailing_zeros N + 1)
        (N >>> (trailing_zeros N + 1))) = _
    rw [if_neg h0]
    have hshift : N >>> (trailing_zeros N + 1) = N / 2 ^ (trailing_zeros N + 1) :=
      Nat.shiftRight_eq_div_pow ..
    have hlt2 : N / 2 ^ (trailing_zeros N + 1) < 2 ^ 64 :=
      lt_of_le_of_lt (Nat.div_le_self ..) hN
    rw [hshift, pow256_64go_eq 64 _ hlt2 (trailing_zeros N + 1) (POW256_64_lt _),
      POW256_64_eq_iter, ← Function.iterate_add_apply]
    congr 1
    have hdm := Nat.div_add_mod N (2 ^ (trailing_zeros N + 1))
    omega

theorem pow256_64_lt {N : Nat} (hN : N < 2 ^ 64) : pow256_64 N < 2 ^ 64 := by
  rw [pow256_64_eq_iter hN]
  exact m256_64_iter_lt N (by norm_num)
set_option maxRecDepth 1000000 in
theorem reverseBits64_involutive : ∀ x, x < 2 ^ 64 →
    reverseBits 64 (reverseBits 64 x) = x := by
  have h1 : LinOn 64 (fun x => reverseBits 64 (reverseBits 64 x)) := by
    intro x _ y _
    show reverseBits 64 (reverseBits 64 (x ^^^ y)) = _
    rw [isLin_reverseBits 64 x y, isLin_reverseBits 64 (reverseBits 64 x) (reverseBits 64 y)]
  have h2 : LinOn 64 (fun x => x) := fun _ _ _ _ => rfl
  exact fun x hx => linOn_ext 64 h1 h2 (by decide) x hx

set_option maxRecDepth 1000000 in
/-- Multiplication by 256 in the reflected view is the zero-byte update. -/
theorem m256_64_reflected : ∀ inv, inv < 2 ^ 64 →
    reverseBits 64 (m256_64 (reverseBits 64 inv)) = uz64 inv := by
  have h1 : LinOn 64 (fun inv => reverseBits 64 (m256_64 (reverseBits 64 inv))) := by
    intro x _ y _
    show reverseBits 64 (m256_64 (reverseBits 64 (x ^^^ y))) = _
    rw [isLin_reverseBits 64 x y,
      show m256_64 (reverseBits 64 x ^^^ reverseBits 64 y)
          = m256_64 (reverseBits 64 x) ^^^ m256_64 (reverseBits 64 y) from
        mul64_linear_a (reverseBits_lt ..) (reverseBits_lt ..) 256,
      isLin_reverseBits 64 (m256_64 (reverseBits 64 x)) (m256_64 (reverseBits 64 y))]
  have h2 : LinOn 64 uz64 := isLin_uz64.linOn 64
  exact fun inv h => linOn_ext 64 h1 h2 (by decide) inv h

set_option maxRecDepth 100000 in
/-- Applying `Zeros::new N` to an inverted CRC-64 state is `N` zero-byte
updates. -/
theorem apply64_eq_uz_iter {N : Nat} (hN : N < 2 ^ 64) :
    ∀ inv, inv < 2 ^ 64 →
    (Zeros.new N).apply_to_inverted_crc64 inv = uz64^[N] inv := by
  have key : ∀ (M : Nat), ∀ inv, inv < 2 ^ 64 →
      reverseBits 64 (m256_64^[M] (reverseBits 64 inv)) = uz64^[M] inv := by
    intro M
    induction M with
    | zero => intro inv h; exact reverseBits64_involutive inv h
    | succ M ih =>
        intro inv h
        rw [Function.iterate_succ_apply]
        have hb : m256_64 (reverseBits 64 inv) < 2 ^ 64 := m256_64_lt (reverseBits_lt ..)
        rw [show m256_64 (reverseBits 64 inv)
            = reverseBits 64 (reverseBits 64 (m256_64 (reverseBits 64 inv))) from
            (reverseBits64_involutive _ hb).symm,
          ih _ (reverseBits_lt ..), m256_64_reflected inv h]
        exact (Function.iterate_succ_apply uz64 M inv).symm
  intro inv hinv
  show reverseBits 64 (mul64 (reverseBits 64 inv) (pow256_64 N)) = _
  rw [pow256_64_eq_iter hN, mul64_m256_iter_right N (reverseBits_lt ..) (by norm_num),
    mul64_one_right _ (reverseBits_lt ..)]
  exact key N inv hinv

-- ======================================================================
-- Zero-run updates

theorem fold32_replicate_zero (N : Nat) : ∀ (inv : Nat),
    (List.replicate N 0).foldl update_inverted_crc32 inv = uz32^[N] inv := by
  induction N with
  | zero => intro inv; rfl
  | succ N ih =>
      intro inv
      rw [List.replicate_succ, List.foldl_cons, update32_zero, ih]
      exact (Function.iterate_succ_apply uz32 N inv).symm

theorem fold64_replicate_zero (N : Nat) : ∀ (inv : Nat),
    (List.replicate N 0).foldl update_inverted_crc64 inv = uz64^[N] inv := by
  induction N with
  | zero => intro inv; rfl
  | succ N ih =>
      intro inv
      rw [List.replicate_succ, List.foldl_cons, update64_zero, ih]
      exact (Function.iterate_succ_apply uz64 N inv).symm

theorem update_with_zeros_eq_update_zeros (c : DualCrc) {N : Nat} (hN : N < 2 ^ 64)
    (h32 : c.inverted_crc32 < 2 ^ 32) (h64 : c.inverted_crc64 < 2 ^ 64) :
    c.update_with_zeros (Zeros.new N) = c.update (List.replicate N 0) := by
  rw [DualCrc.update_eq_fold c _ (fun b hb => by
    rw [List.eq_of_mem_replicate hb]; norm_num) h32 h64]
  show DualCrc.mk _ _ = DualCrc.mk _ _
  rw [fold32_replicate_zero, fold64_replicate_zero]
  show DualCrc.mk ((Zeros.new N).apply_to_inverted_crc32 c.inverted_crc32)
      ((Zeros.new N).apply_to_inverted_crc64 c.inverted_crc64) = _
  rw [apply32_eq_uz_iter hN c.inverted_crc32 h32,
    apply64_eq_uz_iter hN c.inverted_crc64 h64]

-- ======================================================================
-- Rolling buffer invariant

theorem windowBytes_length (c : RollingDualCrc) :
    c.windowBytes.length = c.data.length := by
  unfold RollingDualCrc.windowBytes
  rw [List.length_append, List.length_drop, List.length_take]
  omega

theorem roll_window_size (c : RollingDualCrc) (b : Nat) :
    (c.roll b).window_size = c.window_size := rfl

theorem roll_data_length (c : RollingDualCrc) (b : Nat) :
    (c.roll b).data.length = c.data.length := by
  show (c.data.set c.start_pos b).length = _
  rw [List.length_set]

theorem roll_start_pos_lt (c : RollingDualCrc) (b : Nat)
    (hsp : c.start_pos < c.window_size) :
    (c.roll b).start_pos < c.window_size := by
  show (if c.start_pos + 1 = c.window_size then 0 else c.start_pos + 1) < c.window_size
  by_cases h : c.start_pos + 1 = c.window_size
  · rw [if_pos h]; omega
  · rw [if_neg h]; omega

theorem roll_windowBytes (c : RollingDualCrc) (b : Nat)
    (hlen : c.data.length = c.window_size) (hsp : c.start_pos < c.window_size) :
    (c.roll b).windowBytes = c.windowBytes.drop 1 ++ [b] := by
  have hsp' : c.start_pos < c.data.length := by omega
  have hset : c.data.set c.start_pos b
      = c.data.take c.start_pos ++ b :: c.data.drop (c.start_pos + 1) := by
    rw [List.set_eq_take_append_cons_drop, if_pos hsp']
  have hdropsp : c.data.drop c.start_pos
      = c.data.get ⟨c.start_pos, hsp'⟩ :: c.data.drop (c.start_pos + 1) := by
    rw [List.get_eq_getElem]
    exact List.drop_eq_getElem_cons hsp'
  have htakelen : (c.data.take c.start_pos).length = c.start_pos :=
    List.length_take_of_le (by omega)
  have hwb : c.windowBytes.drop 1
      = c.data.drop (c.start_pos + 1) ++ c.data.take c.start_pos := by
    unfold RollingDualCrc.windowBytes
    rw [hdropsp, List.cons_append, List.drop_one, List.tail_cons]
  show (c.data.set c.start_pos b).drop
        (if c.start_pos + 1 = c.window_size then 0 else c.start_pos + 1)
      ++ (c.data.set c.start_pos b).take
        (if c.start_pos + 1 = c.window_size then 0 else c.start_pos + 1)
      = c.windowBytes.drop 1 ++ [b]
  rw [hwb]
  by_cases h : c.start_pos + 1 = c.window_size
  · rw [if_pos h]
    have hdrop : c.data.drop (c.start_pos + 1) = [] :=
      List.drop_eq_nil_of_le (by omega)
    simp only [List.drop_zero, List.take_zero, List.append_nil, hset, hdrop,
      List.nil_append]
  · rw [if_neg h, hset]
    have hd : (c.data.take c.start_pos ++ b :: c.data.drop (c.start_pos + 1)).drop
        (c.start_pos + 1) = c.data.drop (c.start_pos + 1) := by
      rw [show c.start_pos + 1 = (c.data.take c.start_pos).length + 1 by omega,
        List.drop_append 1, List.drop_one, List.tail_cons]
    have ht : (c.data.take c.start_pos ++ b :: c.data.drop (c.start_pos + 1)).take
        (c.start_pos + 1) = c.data.take c.start_pos ++ [b] := by
      rw [show c.start_pos + 1 = (c.data.take c.start_pos).length + 1 by omega,
        List.take_append 1, List.take_succ_cons, List.take_zero]
    rw [hd, ht, List.append_assoc]

theorem roll_slice_buffer : ∀ (bs : List Nat) (c : RollingDualCrc),
    c.data.length = c.window_size → c.start_pos < c.window_size →
    (c.roll_slice bs).window_size = c.window_size ∧
    (c.roll_slice bs).data.length = c.window_size ∧
    (c.roll_slice bs).start_pos < c.window_size ∧
    (c.roll_slice bs).windowBytes = (c.windowBytes ++ bs).drop bs.length := by
  intro bs
  induction bs with
  | nil =>
      intro c hlen hsp
      exact ⟨rfl, hlen, hsp, by simp [RollingDualCrc.roll_slice]⟩
  | cons b bs ih =>
      intro c hlen hsp
      have hstep : RollingDualCrc.roll_slice c (b :: bs)
          = RollingDualCrc.roll_slice (c.roll b) bs := rfl
      have hlen' : (c.roll b).data.length = (c.roll b).window_size := by
        rw [roll_data_length, roll_window_size, hlen]
      have hsp' : (c.roll b).start_pos < (c.roll b).window_size :=
        roll_start_pos_lt c b hsp
      obtain ⟨h1, h2, h3, h4⟩ := ih (c.roll b) hlen' hsp'
      rw [hstep]
      refine ⟨h1.trans (roll_window_size c b), ?_, ?_, ?_⟩
      · rw [h2, roll_window_size]
      · rw [← roll_window_size c b]; exact h3
      · rw [h4, roll_windowBytes c b hlen hsp]
        have hwlen : 1 ≤ c.windowBytes.length := by
          rw [windowBytes_length]; omega
        rcases hcw : c.windowBytes with _ | ⟨w0, rest⟩
        · rw [hcw] at hwlen; simp at hwlen
        · simp only [List.drop_one, List.tail_cons, List.cons_append,
            List.length_cons, List.drop_succ_cons, List.append_assoc,
            List.singleton_append, List.drop_zero, List.nil_append]

-- ======================================================================
-- Rolling CRC state invariant: removal-table characterization

theorem xor_cancel (x y : Nat) : x ^^^ (x ^^^ y) = y := by
  rw [← Nat.xor_assoc, Nat.xor_self, Nat.zero_xor]

theorem not32_xor_not32 (x y : Nat) : not32 x ^^^ not32 y = x ^^^ y := by
  unfold not32
  rw [xor_xor_swap, Nat.xor_self, Nat.xor_zero]

theorem not64_xor_not64 (x y : Nat) : not64 x ^^^ not64 y = x ^^^ y := by
  unfold not64
  rw [xor_xor_swap, Nat.xor_self, Nat.xor_zero]

theorem tower32_append (b : Nat) : ∀ (l : List Nat),
    tower32 (l ++ [b]) = uz32 (tower32 l) ^^^ uz32 b := by
  have h0 : uz32 0 = 0 := by decide
  intro l
  induction l with
  | nil =>
      show uz32^[List.length [] + 1] b ^^^ tower32 [] = uz32 (tower32 []) ^^^ uz32 b
      show uz32^[1] b ^^^ 0 = uz32 0 ^^^ uz32 b
      rw [h0, Nat.xor_zero, Nat.zero_xor, Function.iterate_one]
  | cons d l ih =>
      show uz32^[(l ++ [b]).length + 1] d ^^^ tower32 (l ++ [b]) = uz32 (tower32 (d :: l)) ^^^ uz32 b
      rw [ih, tower32, isLin_uz32 (uz32^[l.length + 1] d) (tower32 l),
        ← Function.iterate_succ_apply' uz32 (l.length + 1) d,
        List.length_append, List.length_singleton, ← Nat.xor_assoc]

/-- The 32-bit removal table holds the contribution of a byte entering a
window of `W` zeros, relative to the all-zeros window. -/
theorem build_table32_spec (W : Nat) (hW : W < 2 ^ 64) {b : Nat} (hb : b < 256) :
    (RollingDualCrc.build_tables W).1 b
      = uz32^[W + 1] b ^^^ uz32^[W + 1] 0xFFFFFFFF ^^^ uz32^[W] 0xFFFFFFFF := by
  show not32 ((Zeros.new W).apply_to_inverted_crc32 (update_inverted_crc32 0xFFFFFFFF b))
      ^^^ not32 ((Zeros.new W).apply_to_inverted_crc32 0xFFFFFFFF) = _
  rw [apply32_eq_uz_iter hW _ (update32_lt (by norm_num) hb),
    apply32_eq_uz_iter hW _ (by norm_num), not32_xor_not32,
    update32_eq_uz32 _ hb, isLin_uz32 0xFFFFFFFF b,
    isLin_uz32_iter W (uz32 0xFFFFFFFF) (uz32 b),
    ← Function.iterate_succ_apply uz32 W 0xFFFFFFFF,
    ← Function.iterate_succ_apply uz32 W b]
  simp [Nat.xor_assoc, Nat.xor_comm, xor_left_comm, Nat.xor_self, Nat.xor_zero,
    Nat.zero_xor, xor_cancel]

theorem roll_inverted_crc32 (c : RollingDualCrc) {b : Nat} (hb : b < 256)
    (hlen : c.data.length = c.window_size) (hsp : c.start_pos < c.window_size)
    (hdata : ∀ x ∈ c.data, x < 256) (hW : c.window_size < 2 ^ 64)
    (htab : c.table32 = (RollingDualCrc.build_tables c.window_size).1)
    (hinv : c.inverted_crc32 = c.windowBytes.foldl update_inverted_crc32 0xFFFFFFFF) :
    (c.roll b).inverted_crc32
      = (c.roll b).windowBytes.foldl update_inverted_crc32 0xFFFFFFFF := by
  have hsp' : c.start_pos < c.data.length := by omega
  have hwin : c.windowBytes
      = c.data.get ⟨c.start_pos, hsp'⟩
        :: (c.data.drop (c.start_pos + 1) ++ c.data.take c.start_pos) := by
    unfold RollingDualCrc.windowBytes
    rw [List.get_eq_getElem, List.drop_eq_getElem_cons hsp', List.cons_append]
  have hleaving : c.data.getD c.start_pos 0 = c.data.get ⟨c.start_pos, hsp'⟩ := by
    rw [List.getD_eq_getElem c.data 0 hsp', List.get_eq_getElem]
  have hwinb : ∀ x ∈ c.windowBytes, x < 256 := by
    intro x hx
    unfold RollingDualCrc.windowBytes at hx
    rcases List.mem_append.mp hx with h | h
    · exact hdata x (List.mem_of_mem_drop h)
    · exact hdata x (List.mem_of_mem_take h)
  have hw0b : c.data.get ⟨c.start_pos, hsp'⟩ < 256 := by
    apply hwinb
    rw [hwin]
    exact List.mem_cons_self _ _
  have hrestb : ∀ x ∈ c.data.drop (c.start_pos + 1) ++ c.data.take c.start_pos, x < 256 := by
    intro x hx
    exact hwinb x (by rw [hwin]; exact List.mem_cons_of_mem _ hx)
  have hnewb : ∀ x ∈ (c.data.drop (c.start_pos + 1) ++ c.data.take c.start_pos) ++ [b],
      x < 256 := by
    intro x hx
    rcases List.mem_append.mp hx with h | h
    · exact hrestb x h
    · rw [List.mem_singleton.mp h]; exact hb
  have hlenwin : c.windowBytes.length = c.window_size := by
    rw [windowBytes_length]; omega
  have hlenrest :
      (c.data.drop (c.start_pos + 1) ++ c.data.take c.start_pos).length + 1
        = c.window_size := by
    rw [hwin, List.length_cons] at hlenwin
    exact hlenwin
  have hwb' : (c.roll b).windowBytes
      = (c.data.drop (c.start_pos + 1) ++ c.data.take c.start_pos) ++ [b] := by
    rw [roll_windowBytes c b hlen hsp, hwin, List.drop_one, List.tail_cons]
  show update_inverted_crc32 c.inverted_crc32 b
      ^^^ c.table32 (c.data.getD c.start_pos 0) = _
  rw [hwb', fold32_split _ hnewb, tower32_append, List.length_append,
    List.length_singleton, htab, hleaving, build_table32_spec _ hW hw0b, hinv,
    fold32_split _ hwinb, update32_eq_uz32 _ hb, hwin, List.length_cons, tower32,
    ← hlenrest]
  rw [isLin_uz32 _ b,
    isLin_uz32 (uz32^[(c.data.drop (c.start_pos + 1) ++ c.data.take c.start_pos).length + 1]
        0xFFFFFFFF)
      (uz32^[(c.data.drop (c.start_pos + 1) ++ c.data.take c.start_pos).length + 1]
          (c.data.get ⟨c.start_pos, hsp'⟩)
        ^^^ tower32 (c.data.drop (c.start_pos + 1) ++ c.data.take c.start_pos)),
    isLin_uz32 (uz32^[(c.data.drop (c.start_pos + 1) ++ c.data.take c.start_pos).length + 1]
        (c.data.get ⟨c.start_pos, hsp'⟩))
      (tower32 (c.data.drop (c.start_pos + 1) ++ c.data.take c.start_pos)),
    ← Function.iterate_succ_apply' uz32
      ((c.data.drop (c.start_pos + 1) ++ c.data.take c.start_pos).length + 1) 0xFFFFFFFF,
    ← Function.iterate_succ_apply' uz32
      ((c.data.drop (c.start_pos + 1) ++ c.data.take c.start_pos).length + 1)
      (c.data.get ⟨c.start_pos, hsp'⟩)]
  simp [Nat.xor_assoc, Nat.xor_comm, xor_left_comm, Nat.xor_self, Nat.xor_zero,
    Nat.zero_xor, xor_cancel]

theorem tower64_append (b : Nat) : ∀ (l : List Nat),
    tower64 (l ++ [b]) = uz64 (tower64 l) ^^^ uz64 b := by
  have h0 : uz64 0 = 0 := by decide
  intro l
  induction l with
  | nil =>
      show uz64^[List.length [] + 1] b ^^^ tower64 [] = uz64 (tower64 []) ^^^ uz64 b
      show uz64^[1] b ^^^ 0 = uz64 0 ^^^ uz64 b
      rw [h0, Nat.xor_zero, Nat.zero_xor, Function.iterate_one]
  | cons d l ih =>
      show uz64^[(l ++ [b]).length + 1] d ^^^ tower64 (l ++ [b]) = uz64 (tower64 (d :: l)) ^^^ uz64 b
      rw [ih, tower64, isLin_uz64 (uz64^[l.length + 1] d) (tower64 l),
        ← Function.iterate_succ_apply' uz64 (l.length + 1) d,
        List.length_append, List.length_singleton, ← Nat.xor_assoc]

set_option maxRecDepth 100000 in
/-- The 64-bit removal table holds the contribution of a byte entering a
window of `W` zeros, relative to the all-zeros window. -/
theorem build_table64_spec (W : Nat) (hW : W < 2 ^ 64) {b : Nat} (hb : b < 256) :
    (RollingDualCrc.build_tables W).2 b
      = uz64^[W + 1] b ^^^ uz64^[W + 1] 0xFFFFFFFFFFFFFFFF ^^^ uz64^[W] 0xFFFFFFFFFFFFFFFF := by
  show not64 ((Zeros.new W).apply_to_inverted_crc64 (update_inverted_crc64 0xFFFFFFFFFFFFFFFF b))
      ^^^ not64 ((Zeros.new W).apply_to_inverted_crc64 0xFFFFFFFFFFFFFFFF) = _
  rw [apply64_eq_uz_iter hW _ (update64_lt (by norm_num) hb),
    apply64_eq_uz_iter hW _ (by norm_num), not64_xor_not64,
    update64_eq_uz64 _ hb, isLin_uz64 0xFFFFFFFFFFFFFFFF b,
    isLin_uz64_iter W (uz64 0xFFFFFFFFFFFFFFFF) (uz64 b),
    ← Function.iterate_succ_apply uz64 W 0xFFFFFFFFFFFFFFFF,
    ← Function.iterate_succ_apply uz64 W b]
  simp [Nat.xor_assoc, Nat.xor_comm, xor_left_comm, Nat.xor_self, Nat.xor_zero,
    Nat.zero_xor, xor_cancel]

theorem roll_inverted_crc64 (c : RollingDualCrc) {b : Nat} (hb : b < 256)
    (hlen : c.data.length = c.window_size) (hsp : c.start_pos < c.window_size)
    (hdata : ∀ x ∈ c.data, x < 256) (hW : c.window_size < 2 ^ 64)
    (htab : c.table64 = (RollingDualCrc.build_tables c.window_size).2)
    (hinv : c.inverted_crc64 = c.windowBytes.foldl update_inverted_crc64 0xFFFFFFFFFFFFFFFF) :
    (c.roll b).inverted_crc64
      = (c.roll b).windowBytes.foldl update_inverted_crc64 0xFFFFFFFFFFFFFFFF := by
  have hsp' : c.start_pos < c.data.length := by omega
  have hwin : c.windowBytes
      = c.data.get ⟨c.start_pos, hsp'⟩
        :: (c.data.drop (c.start_pos + 1) ++ c.data.take c.start_pos) := by
    unfold RollingDualCrc.windowBytes
    rw [List.get_eq_getElem, List.drop_eq_getElem_cons hsp', List.cons_append]
  have hleaving : c.data.getD c.start_pos 0 = c.data.get ⟨c.start_pos, hsp'⟩ := by
    rw [List.getD_eq_getElem c.data 0 hsp', List.get_eq_getElem]
  have hwinb : ∀ x ∈ c.windowBytes, x < 256 := by
    intro x hx
    unfold RollingDualCrc.windowBytes at hx
    rcases List.mem_append.mp hx with h | h
    · exact hdata x (List.mem_of_mem_drop h)
    · exact hdata x (List.mem_of_mem_take h)
  have hw0b : c.data.get ⟨c.start_pos, hsp'⟩ < 256 := by
    apply hwinb
    rw [hwin]
    exact List.mem_cons_self _ _
  have hrestb : ∀ x ∈ c.data.drop (c.start_pos + 1) ++ c.data.take c.start_pos, x < 256 := by
    intro x hx
    exact hwinb x (by rw [hwin]; exact List.mem_cons_of_mem _ hx)
  have hnewb : ∀ x ∈ (c.data.drop (c.start_pos + 1) ++ c.data.take c.start_pos) ++ [b],
      x < 256 := by
    intro x hx
    rcases List.mem_append.mp hx with h | h
    · exact hrestb x h
    · rw [List.mem_singleton.mp h]; exact hb
  have hlenwin : c.windowBytes.length = c.window_size := by
    rw [windowBytes_length]; omega
  have hlenrest :
      (c.data.drop (c.start_pos + 1) ++ c.data.take c.start_pos).length + 1
        = c.window_size := by
    rw [hwin, List.length_cons] at hlenwin
    exact hlenwin
  have hwb' : (c.roll b).windowBytes
      = (c.data.drop (c.start_pos + 1) ++ c.data.take c.start_pos) ++ [b] := by
    rw [roll_windowBytes c b hlen hsp, hwin, List.drop_one, List.tail_cons]
  show update_inverted_crc64 c.inverted_crc64 b
      ^^^ c.table64 (c.data.getD c.start_pos 0) = _
  rw [hwb', fold64_split _ hnewb, tower64_append, List.length_append,
    List.length_singleton, htab, hleaving, build_table64_spec _ hW hw0b, hinv,
    fold64_split _ hwinb, update64_eq_uz64 _ hb, hwin, List.length_cons, tower64,
    ← hlenrest]
  rw [isLin_uz64 _ b,
    isLin_uz64 (uz64^[(c.data.drop (c.start_pos + 1) ++ c.data.take c.start_pos).length + 1]
        0xFFFFFFFFFFFFFFFF)
      (uz64^[(c.data.drop (c.start_pos + 1) ++ c.data.take c.start_pos).length + 1]
          (c.data.get ⟨c.start_pos, hsp'⟩)
        ^^^ tower64 (c.data.drop (c.start_pos + 1) ++ c.data.take c.start_pos)),
    isLin_uz64 (uz64^[(c.data.drop (c.start_pos + 1) ++ c.data.take c.start_pos).length + 1]
        (c.data.get ⟨c.start_pos, hsp'⟩))
      (tower64 (c.data.drop (c.start_pos + 1) ++ c.data.take c.start_pos)),
    ← Function.iterate_succ_apply' uz64
      ((c.data.drop (c.start_pos + 1) ++ c.data.take c.start_pos).length + 1) 0xFFFFFFFFFFFFFFFF,
    ← Function.iterate_succ_apply' uz64
      ((c.data.drop (c.start_pos + 1) ++ c.data.take c.start_pos).length + 1)
      (c.data.get ⟨c.start_pos, hsp'⟩)]
  simp [Nat.xor_assoc, Nat.xor_comm, xor_left_comm, Nat.xor_self, Nat.xor_zero,
    Nat.zero_xor, xor_cancel]


-- ======================================================================
-- Establishing and preserving the rolling invariant

theorem not32_not32 (x : Nat) : not32 (not32 x) = x := by
  unfold not32
  rw [Nat.xor_assoc, Nat.xor_self, Nat.xor_zero]

theorem not64_not64 (x : Nat) : not64 (not64 x) = x := by
  unfold not64
  rw [Nat.xor_assoc, Nat.xor_self, Nat.xor_zero]

theorem RollingDualCrc.new_eq_some {S0 : List Nat} (hne : S0 ≠ []) :
    RollingDualCrc.new S0
      = some
        { inverted_crc32 := not32 (DualCrc.checksum S0).1
          inverted_crc64 := not64 (DualCrc.checksum S0).2
          start_pos := 0
          window_size := S0.length
          data := S0
          table32 := (RollingDualCrc.build_tables S0.length).1
          table64 := (RollingDualCrc.build_tables S0.length).2 } := by
  unfold RollingDualCrc.new
  rw [if_neg (by simpa using hne)]

theorem roll_slice_crc : ∀ (bs : List Nat), (∀ x ∈ bs, x < 256) →
    ∀ (c : RollingDualCrc),
    c.data.length = c.window_size → c.start_pos < c.window_size →
    (∀ x ∈ c.data, x < 256) → c.window_size < 2 ^ 64 →
    c.table32 = (RollingDualCrc.build_tables c.window_size).1 →
    c.table64 = (RollingDualCrc.build_tables c.window_size).2 →
    c.inverted_crc32 = c.windowBytes.foldl update_inverted_crc32 0xFFFFFFFF →
    c.inverted_crc64 = c.windowBytes.foldl update_inverted_crc64 0xFFFFFFFFFFFFFFFF →
    (c.roll_slice bs).inverted_crc32
        = (c.roll_slice bs).windowBytes.foldl update_inverted_crc32 0xFFFFFFFF ∧
    (c.roll_slice bs).inverted_crc64
        = (c.roll_slice bs).windowBytes.foldl update_inverted_crc64 0xFFFFFFFFFFFFFFFF := by
  intro bs
  induction bs with
  | nil =>
      intro _ c _ _ _ _ _ _ h32 h64
      exact ⟨h32, h64⟩
  | cons b bs ih =>
      intro hbs c hlen hsp hdata hW htab32 htab64 h32 h64
      have hb : b < 256 := hbs b (by simp)
      have hbs' : ∀ x ∈ bs, x < 256 := fun x hx => hbs x (by simp [hx])
      have hstep : RollingDualCrc.roll_slice c (b :: bs)
          = RollingDualCrc.roll_slice (c.roll b) bs := rfl
      rw [hstep]
      have hwseq : (c.roll b).window_size = c.window_size := roll_window_size c b
      refine ih hbs' (c.roll b) ?_ ?_ ?_ ?_ ?_ ?_ ?_ ?_
      · rw [roll_data_length, hwseq, hlen]
      · rw [hwseq]; exact roll_start_pos_lt c b hsp
      · intro x hx
        have hx' : x ∈ c.data.set c.start_pos b := hx
        rcases List.mem_or_eq_of_mem_set hx' with h | h
        · exact hdata x h
        · rw [h]; exact hb
      · rw [hwseq]; exact hW
      · rw [hwseq]; exact htab32
      · rw [hwseq]; exact htab64
      · exact roll_inverted_crc32 c hb hlen hsp hdata hW htab32 h32
      · exact roll_inverted_crc64 c hb hlen hsp hdata hW htab64 h64

-- ======================================================================
-- The checked table reads never go out of bounds

theorem POW256_32table_get {pos : Nat} (h : pos < 64) :
    POW256_32table.get? pos = some (POW256_32 pos) := by
  unfold POW256_32table USIZE_BITS
  rw [List.get?_eq_getElem?, List.getElem?_map, List.getElem?_range h]
  rfl

theorem POW256_64table_get {pos : Nat} (h : pos < 64) :
    POW256_64table.get? pos = some (POW256_64 pos) := by
  unfold POW256_64table USIZE_BITS
  rw [List.get?_eq_getElem?, List.getElem?_map, List.getElem?_range h]
  rfl

theorem pow256_32goChecked_eq : ∀ (fuel pos power result : Nat),
    power < 2 ^ (64 - pos) →
    pow256_32goChecked fuel result pos power
      = some (pow256_32go fuel result pos power) := by
  intro fuel
  induction fuel with
  | zero => intro pos power result _; rfl
  | succ fuel ih =>
      intro pos power result hpw
      by_cases h0 : power = 0
      · simp [pow256_32goChecked, pow256_32go, h0]
      · have hpos : pos < 64 := by
          by_contra hge
          have hz : 64 - pos = 0 := by omega
          rw [hz, Nat.pow_zero] at hpw
          omega
        have hhalf : power >>> 1 < 2 ^ (64 - (pos + 1)) := by
          rw [Nat.shiftRight_eq_div_pow, Nat.pow_one]
          have hsplit : 64 - pos = (64 - (pos + 1)) + 1 := by omega
          rw [hsplit, Nat.pow_succ] at hpw
          omega
        by_cases hodd : power &&& 1 = 1
        · simp only [pow256_32goChecked, pow256_32go, if_neg h0, if_pos hodd,
            POW256_32table_get hpos, Option.map_some, Option.some_bind]
          exact ih (pos + 1) (power >>> 1) _ hhalf
        · simp only [pow256_32goChecked, pow256_32go, if_neg h0, if_neg hodd,
            Option.some_bind]
          exact ih (pos + 1) (power >>> 1) _ hhalf

theorem pow256_64goChecked_eq : ∀ (fuel pos power result : Nat),
    power < 2 ^ (64 - pos) →
    pow256_64goChecked fuel result pos power
      = some (pow256_64go fuel result pos power) := by
  intro fuel
  induction fuel with
  | zero => intro pos power result _; rfl
  | succ fuel ih =>
      intro pos power result hpw
      by_cases h0 : power = 0
      · simp [pow256_64goChecked, pow256_64go, h0]
      · have hpos : pos < 64 := by
          by_contra hge
          have hz : 64 - pos = 0 := by omega
          rw [hz, Nat.pow_zero] at hpw
          omega
        have hhalf : power >>> 1 < 2 ^ (64 - (pos + 1)) := by
          rw [Nat.shiftRight_eq_div_pow, Nat.pow_one]
          have hsplit : 64 - pos = (64 - (pos + 1)) + 1 := by omega
          rw [hsplit, Nat.pow_succ] at hpw
          omega
        by_cases hodd : power &&& 1 = 1
        · simp only [pow256_64goChecked, pow256_64go, if_neg h0, if_pos hodd,
            POW256_64table_get hpos, Option.map_some, Option.some_bind]
          exact ih (pos + 1) (power >>> 1) _ hhalf
        · simp only [pow256_64goChecked, pow256_64go, if_neg h0, if_neg hodd,
            Option.some_bind]
          exact ih (pos + 1) (power >>> 1) _ hhalf

theorem pow256_32Checked_eq {N : Nat} (hN : N < 2 ^ 64)
    (hNe : N ≠ 0x8000000000000000) :
    pow256_32Checked N = some (pow256_32 N) := by
  by_cases h0 : N = 0
  · simp [pow256_32Checked, pow256_32, h0]
  · obtain ⟨hmod, htz⟩ := trailing_zeros_spec h0 hN
    have htz62 : trailing_zeros N + 1 < 64 := by
      rcases Nat.lt_or_ge (trailing_zeros N) 63 with h | h
      · omega
      · have he : trailing_zeros N = 63 := by omega
        rw [he] at hmod
        rw [Nat.mod_eq_of_lt (show N < 2 ^ (63 + 1) by simpa using hN)] at hmod
        exact absurd (by rw [hmod]; norm_num) hNe
    have hmask : (trailing_zeros N + 1) % 64 = trailing_zeros N + 1 :=
      Nat.mod_eq_of_lt htz62
    unfold pow256_32Checked pow256_32
    rw [if_neg h0, if_neg h0]
    show (POW256_32table.get? (trailing_zeros N)).bind
        (fun result => pow256_32goChecked 64 result (trailing_zeros N + 1)
          (N >>> ((trailing_zeros N + 1) % 64)))
      = some (pow256_32go 64 (POW256_32 (trailing_zeros N)) (trailing_zeros N + 1)
          (N >>> (trailing_zeros N + 1)))
    rw [hmask, POW256_32table_get htz, Option.some_bind]
    apply pow256_32goChecked_eq
    rw [Nat.shiftRight_eq_div_pow]
    have hle : trailing_zeros N + 1 ≤ 64 := by omega
    have hmul : 2 ^ (64 - (trailing_zeros N + 1)) * 2 ^ (trailing_zeros N + 1)
        = 2 ^ 64 := by
      rw [← Nat.pow_add]
      congr 1
      omega
    apply Nat.div_lt_of_lt_mul
    rw [Nat.mul_comm, hmul]
    exact hN

theorem pow256_64Checked_eq {N : Nat} (hN : N < 2 ^ 64)
    (hNe : N ≠ 0x8000000000000000) :
    pow256_64Checked N = some (pow256_64 N) := by
  by_cases h0 : N = 0
  · simp [pow256_64Checked, pow256_64, h0]
  · obtain ⟨hmod, htz⟩ := trailing_zeros_spec h0 hN
    have htz62 : trailing_zeros N + 1 < 64 := by
      rcases Nat.lt_or_ge (trailing_zeros N) 63 with h | h
      · omega
      · have he : trailing_zeros N = 63 := by omega
        rw [he] at hmod
        rw [Nat.mod_eq_of_lt (show N < 2 ^ (63 + 1) by simpa using hN)] at hmod
        exact absurd (by rw [hmod]; norm_num) hNe
    have hmask : (trailing_zeros N + 1) % 64 = trailing_zeros N + 1 :=
      Nat.mod_eq_of_lt htz62
    unfold pow256_64Checked pow256_64
    rw [if_neg h0, if_neg h0]
    show (POW256_64table.get? (trailing_zeros N)).bind
        (fun result => pow256_64goChecked 64 result (trailing_zeros N + 1)
          (N >>> ((trailing_zeros N + 1) % 64)))
      = some (pow256_64go 64 (POW256_64 (trailing_zeros N)) (trailing_zeros N + 1)
          (N >>> (trailing_zeros N + 1)))
    rw [hmask, POW256_64table_get htz, Option.some_bind]
    apply pow256_64goChecked_eq
    rw [Nat.shiftRight_eq_div_pow]
    have hle : trailing_zeros N + 1 ≤ 64 := by omega
    have hmul : 2 ^ (64 - (trailing_zeros N + 1)) * 2 ^ (trailing_zeros N + 1)
        = 2 ^ 64 := by
      rw [← Nat.pow_add]
      congr 1
      omega
    apply Nat.div_lt_of_lt_mul
    rw [Nat.mul_comm, hmul]
    exact hN

-- ======================================================================
-- One-shot checksums as folds

theorem checksum32_eq_fold (data : List Nat) (h : ∀ x ∈ data, x < 256) :
    DualCrc.checksum32 data
      = not32 (data.foldl update_inverted_crc32 0xFFFFFFFF) := by
  unfold DualCrc.checksum32
  rw [checksum32Loop_eq_fold data.length data (le_refl _) h 0xFFFFFFFF (by norm_num)]

theorem checksum64_eq_fold (data : List Nat) (h : ∀ x ∈ data, x < 256) :
    DualCrc.checksum64 data
      = not64 (data.foldl update_inverted_crc64 0xFFFFFFFFFFFFFFFF) := by
  unfold DualCrc.checksum64
  rw [checksum64Loop_eq_fold data.length data (le_refl _) h 0xFFFFFFFFFFFFFFFF
    (by norm_num)]

theorem get_new_update (data : List Nat) (h : ∀ x ∈ data, x < 256) :
    (DualCrc.new.update data).get = DualCrc.checksum data := by
  rw [DualCrc.update_eq_fold DualCrc.new data h (by decide) (by decide)]
  show (not32 (data.foldl update_inverted_crc32 0xFFFFFFFF),
        not64 (data.foldl update_inverted_crc64 0xFFFFFFFFFFFFFFFF))
      = (DualCrc.checksum32 data, DualCrc.checksum64 data)
  rw [checksum32_eq_fold data h, checksum64_eq_fold data h]


-- ======================================================================
-- The claims

/-- C1: after `RollingDualCrc::new(S0)` on a non-empty seed `S0` of
byte values and rolling through bytes `bs`, `get()` equals
`DualCrc::checksum` of the last `|S0|` bytes of `S0 ++ bs` (the window
starting `|bs|` bytes in), and `get32`/`get64` return its components. -/
theorem C1_rolling_equivalence (S0 bs : List Nat) (hne : S0 ≠ [])
    (hS0 : ∀ x ∈ S0, x < 256) (hbs : ∀ x ∈ bs, x < 256)
    (hW : S0.length < 2 ^ 64) (c0 : RollingDualCrc)
    (hnew : RollingDualCrc.new S0 = some c0) :
    (c0.roll_slice bs).get = DualCrc.checksum ((S0 ++ bs).drop bs.length) ∧
    (c0.roll_slice bs).get32 = DualCrc.checksum32 ((S0 ++ bs).drop bs.length) ∧
    (c0.roll_slice bs).get64 = DualCrc.checksum64 ((S0 ++ bs).drop bs.length) := by
  rw [RollingDualCrc.new_eq_some hne] at hnew
  have hc0 := Option.some.inj hnew
  have hlen0 : c0.data.length = c0.window_size := by rw [← hc0]
  have hsp0 : c0.start_pos < c0.window_size := by
    rw [← hc0]
    exact List.length_pos.mpr hne
  have hdata0 : ∀ x ∈ c0.data, x < 256 := by rw [← hc0]; exact hS0
  have hW0 : c0.window_size < 2 ^ 64 := by rw [← hc0]; exact hW
  have htab32 : c0.table32 = (RollingDualCrc.build_tables c0.window_size).1 := by
    rw [← hc0]
  have htab64 : c0.table64 = (RollingDualCrc.build_tables c0.window_size).2 := by
    rw [← hc0]
  have hwb0 : c0.windowBytes = S0 := by
    rw [← hc0]
    show S0.drop 0 ++ S0.take 0 = S0
    simp
  have hinv32 : c0.inverted_crc32
      = c0.windowBytes.foldl update_inverted_crc32 0xFFFFFFFF := by
    rw [hwb0, ← hc0]
    show not32 (DualCrc.checksum32 S0) = _
    rw [checksum32_eq_fold S0 hS0, not32_not32]
  have hinv64 : c0.inverted_crc64
      = c0.windowBytes.foldl update_inverted_crc64 0xFFFFFFFFFFFFFFFF := by
    rw [hwb0, ← hc0]
    show not64 (DualCrc.checksum64 S0) = _
    rw [checksum64_eq_fold S0 hS0, not64_not64]
  obtain ⟨h32, h64⟩ :=
    roll_slice_crc bs hbs c0 hlen0 hsp0 hdata0 hW0 htab32 htab64 hinv32 hinv64
  obtain ⟨_, _, _, hwbs⟩ := roll_slice_buffer bs c0 hlen0 hsp0
  rw [hwb0] at hwbs
  have hwinb : ∀ x ∈ (S0 ++ bs).drop bs.length, x < 256 := by
    intro x hx
    rcases List.mem_append.mp (List.mem_of_mem_drop hx) with h | h
    · exact hS0 x h
    · exact hbs x h
  have hg32 : (c0.roll_slice bs).get32
      = DualCrc.checksum32 ((S0 ++ bs).drop bs.length) := by
    show not32 (c0.roll_slice bs).inverted_crc32 = _
    rw [h32, hwbs, checksum32_eq_fold _ hwinb]
  have hg64 : (c0.roll_slice bs).get64
      = DualCrc.checksum64 ((S0 ++ bs).drop bs.length) := by
    show not64 (c0.roll_slice bs).inverted_crc64 = _
    rw [h64, hwbs, checksum64_eq_fold _ hwinb]
  refine ⟨?_, hg32, hg64⟩
  show ((c0.roll_slice bs).get32, (c0.roll_slice bs).get64)
      = (DualCrc.checksum32 ((S0 ++ bs).drop bs.length),
         DualCrc.checksum64 ((S0 ++ bs).drop bs.length))
  rw [hg32, hg64]

theorem C1_witness :
    RollingDualCrc.new [97] = some rollSeed ∧
    ((rollSeed.roll_slice [98]).get = DualCrc.checksum (([97] ++ [98]).drop [98].length) ∧
     (rollSeed.roll_slice [98]).get32
        = DualCrc.checksum32 (([97] ++ [98]).drop [98].length) ∧
     (rollSeed.roll_slice [98]).get64
        = DualCrc.checksum64 (([97] ++ [98]).drop [98].length)) :=
  ⟨rfl, C1_rolling_equivalence [97] [98] (by decide) (by decide) (by decide)
    (by norm_num) rollSeed rfl⟩

/-- C2 (corrected): for every `usize` count except `N = 2^63` — where
the source's `Zeros::new` panics (shift overflow in debug builds, an
out-of-bounds `POW256` read in release builds) — the fallible model of
`Zeros::new` succeeds with the ideal factors, and applying
`update_with_zeros(&Zeros::new(N))` from any well-formed accumulator
state leaves the `DualCrc` in exactly the state reached by `update` on
`N` zero bytes. -/
theorem C2_update_with_zeros_eq_update (c : DualCrc) (N : Nat) (hN : N < 2 ^ 64)
    (hNe : N ≠ 0x8000000000000000)
    (h32 : c.inverted_crc32 < 2 ^ 32) (h64 : c.inverted_crc64 < 2 ^ 64) :
    Zeros.newChecked N = some (Zeros.new N) ∧
    c.update_with_zeros (Zeros.new N) = c.update (List.replicate N 0) := by
  refine ⟨?_, update_with_zeros_eq_update_zeros c hN h32 h64⟩
  unfold Zeros.newChecked
  rw [pow256_32Checked_eq hN hNe, pow256_64Checked_eq hN hNe]
  rfl

/-- C2 (counterexample): at `N = 2^63`, the one representable count the
original claim also ranged over, the faithful model of `Zeros::new`
fails — the masked shift leaves `power` unchanged and the squaring loop
reaches table index 127, out of bounds of the 64-entry tables — so
there is no resulting state to compare with `update(replicate N 0)`. -/
theorem C2_counterexample : Zeros.newChecked 0x8000000000000000 = none := by
  decide

theorem C2_witness :
    ((5 : Nat) < 2 ^ 64 ∧ (5 : Nat) ≠ 0x8000000000000000 ∧
      DualCrc.new.inverted_crc32 < 2 ^ 32 ∧ DualCrc.new.inverted_crc64 < 2 ^ 64) ∧
    (Zeros.newChecked 5 = some (Zeros.new 5) ∧
     DualCrc.new.update_with_zeros (Zeros.new 5)
        = DualCrc.new.update (List.replicate 5 0)) :=
  ⟨⟨by norm_num, by decide, by decide, by decide⟩,
   C2_update_with_zeros_eq_update DualCrc.new 5 (by norm_num) (by decide)
     (by decide) (by decide)⟩

/-- C3: `update(A)` then `update(B)` reaches the same state as
`update(A ++ B)`, and `checksum(A ++ B)` equals the pair obtained by
`new` + `update(A)` + `update(B)` + `get`. -/
theorem C3_update_append (c : DualCrc) (A B : List Nat)
    (hA : ∀ x ∈ A, x < 256) (hB : ∀ x ∈ B, x < 256)
    (h32 : c.inverted_crc32 < 2 ^ 32) (h64 : c.inverted_crc64 < 2 ^ 64) :
    (c.update A).update B = c.update (A ++ B) ∧
    DualCrc.checksum (A ++ B) = ((DualCrc.new.update A).update B).get := by
  have hAB : ∀ x ∈ A ++ B, x < 256 := by
    intro x hx
    rcases List.mem_append.mp hx with h | h
    · exact hA x h
    · exact hB x h
  have hsplit : ∀ d : DualCrc, d.inverted_crc32 < 2 ^ 32 →
      d.inverted_crc64 < 2 ^ 64 → (d.update A).update B = d.update (A ++ B) := by
    intro d d32 d64
    rw [DualCrc.update_eq_fold d A hA d32 d64,
      DualCrc.update_eq_fold _ B hB (fold32_lt A hA _ d32) (fold64_lt A hA _ d64),
      DualCrc.update_eq_fold d (A ++ B) hAB d32 d64]
    show DualCrc.mk _ _ = DualCrc.mk _ _
    rw [List.foldl_append, List.foldl_append]
  refine ⟨hsplit c h32 h64, ?_⟩
  rw [hsplit DualCrc.new (by decide) (by decide)]
  exact (get_new_update (A ++ B) hAB).symm

theorem C3_witness :
    ((∀ x ∈ [1, 2], x < 256) ∧ (∀ x ∈ [3], x < 256) ∧
      DualCrc.new.inverted_crc32 < 2 ^ 32 ∧ DualCrc.new.inverted_crc64 < 2 ^ 64) ∧
    ((DualCrc.new.update [1, 2]).update [3] = DualCrc.new.update ([1, 2] ++ [3]) ∧
     DualCrc.checksum ([1, 2] ++ [3]) = ((DualCrc.new.update [1, 2]).update [3]).get) :=
  ⟨⟨by decide, by decide, by decide, by decide⟩,
   C3_update_append DualCrc.new [1, 2] [3] (by decide) (by decide) (by decide)
     (by decide)⟩

/-- C4: for every 8-byte chunk and well-formed inverted state, the
slicing-by-8 kernels return exactly the fold of the single-byte kernels
over the 8 bytes in order. -/
theorem C4_8byte_kernels (x32 x64 d0 d1 d2 d3 d4 d5 d6 d7 : Nat)
    (hx32 : x32 < 2 ^ 32) (hx64 : x64 < 2 ^ 64)
    (h0 : d0 < 256) (h1 : d1 < 256) (h2 : d2 < 256) (h3 : d3 < 256)
    (h4 : d4 < 256) (h5 : d5 < 256) (h6 : d6 < 256) (h7 : d7 < 256) :
    update_inverted_crc32_8bytes x32 d0 d1 d2 d3 d4 d5 d6 d7
      = [d0, d1, d2, d3, d4, d5, d6, d7].foldl update_inverted_crc32 x32 ∧
    update_inverted_crc64_8bytes x64 d0 d1 d2 d3 d4 d5 d6 d7
      = [d0, d1, d2, d3, d4, d5, d6, d7].foldl update_inverted_crc64 x64 :=
  ⟨kernel32_eq_fold hx32 h0 h1 h2 h3 h4 h5 h6 h7,
   kernel64_eq_fold hx64 h0 h1 h2 h3 h4 h5 h6 h7⟩

theorem C4_witness :
    ((0x12345678 : Nat) < 2 ^ 32 ∧ (0x123456789ABCDEF0 : Nat) < 2 ^ 64 ∧
      (10 : Nat) < 256 ∧ (20 : Nat) < 256 ∧ (30 : Nat) < 256 ∧ (40 : Nat) < 256 ∧
      (50 : Nat) < 256 ∧ (60 : Nat) < 256 ∧ (70 : Nat) < 256 ∧ (80 : Nat) < 256) ∧
    (update_inverted_crc32_8bytes 0x12345678 10 20 30 40 50 60 70 80
        = [10, 20, 30, 40, 50, 60, 70, 80].foldl update_inverted_crc32 0x12345678 ∧
     update_inverted_crc64_8bytes 0x123456789ABCDEF0 10 20 30 40 50 60 70 80
        = [10, 20, 30, 40, 50, 60, 70, 80].foldl update_inverted_crc64
            0x123456789ABCDEF0) :=
  ⟨⟨by decide, by decide, by decide, by decide, by decide, by decide, by decide,
    by decide, by decide, by decide⟩,
   C4_8byte_kernels 0x12345678 0x123456789ABCDEF0 10 20 30 40 50 60 70 80
     (by decide) (by decide) (by decide) (by decide) (by decide) (by decide)
     (by decide) (by decide) (by decide) (by decide)⟩

/-- C5: `checksum` is the pair `(checksum32, checksum64)`, and equals the
result of `new` + `update` + `get`, even though the one-shot functions run
their own dedicated loops. -/
theorem C5_checksum_paths (data : List Nat) (hdata : ∀ x ∈ data, x < 256) :
    DualCrc.checksum data = (DualCrc.checksum32 data, DualCrc.checksum64 data) ∧
    DualCrc.checksum data = (DualCrc.new.update data).get :=
  ⟨rfl, (get_new_update data hdata).symm⟩

theorem C5_witness :
    (∀ x ∈ [104, 105], x < 256) ∧
    (DualCrc.checksum [104, 105]
        = (DualCrc.checksum32 [104, 105], DualCrc.checksum64 [104, 105]) ∧
     DualCrc.checksum [104, 105] = (DualCrc.new.update [104, 105]).get) :=
  ⟨by decide, C5_checksum_paths [104, 105] (by decide)⟩

/-- C6: the reference check values: `checksum("123456789")` is
`(0xE3069283, 0x995DC9BBDF1939FA)` and `checksum("")` is `(0, 0)`. -/
theorem C6_check_values :
    DualCrc.checksum [0x31, 0x32, 0x33, 0x34, 0x35, 0x36, 0x37, 0x38, 0x39]
      = (0xE3069283, 0x995DC9BBDF1939FA) ∧
    DualCrc.checksum [] = (0x00000000, 0x0000000000000000) := by
  constructor
  · decide
  · decide

/-- C7: `RollingDualCrc::new` fails (returns `none`, modelling the panic)
exactly on the empty seed; on every non-empty seed it succeeds and the
constructed window's `get`/`get32`/`get64` equal `DualCrc::checksum` of
the seed. -/
theorem C7_new_empty_seed (seed : List Nat) :
    (RollingDualCrc.new seed = none ↔ seed = []) ∧
    (∀ c0 : RollingDualCrc, RollingDualCrc.new seed = some c0 →
      c0.get = DualCrc.checksum seed ∧ c0.get32 = DualCrc.checksum32 seed ∧
      c0.get64 = DualCrc.checksum64 seed) := by
  constructor
  · constructor
    · intro h
      by_contra hne
      rw [RollingDualCrc.new_eq_some hne] at h
      cases h
    · intro h
      subst h
      rfl
  · intro c0 h
    have hne : seed ≠ [] := by
      intro hempty
      subst hempty
      cases h
    rw [RollingDualCrc.new_eq_some hne] at h
    have hc0 := Option.some.inj h
    refine ⟨?_, ?_, ?_⟩
    · rw [← hc0]
      show (not32 (not32 (DualCrc.checksum seed).1),
            not64 (not64 (DualCrc.checksum seed).2)) = DualCrc.checksum seed
      rw [not32_not32, not64_not64]
    · rw [← hc0]
      show not32 (not32 (DualCrc.checksum seed).1) = DualCrc.checksum32 seed
      rw [not32_not32]
      rfl
    · rw [← hc0]
      show not64 (not64 (DualCrc.checksum seed).2) = DualCrc.checksum64 seed
      rw [not64_not64]
      rfl

theorem C7_witness :
    RollingDualCrc.new ([] : List Nat) = none ∧
    (rollSeed.get = DualCrc.checksum [97] ∧
     rollSeed.get32 = DualCrc.checksum32 [97] ∧
     rollSeed.get64 = DualCrc.checksum64 [97]) :=
  ⟨(C7_new_empty_seed []).1.mpr rfl, (C7_new_empty_seed [97]).2 rollSeed rfl⟩

/-- C8: `Zeros::new(0)` has factors `(1, 1)` and is neutral: applying it
leaves both inverted CRC states, and hence the whole `DualCrc`,
unchanged. -/
theorem C8_zeros_zero_neutral :
    Zeros.new 0 = ⟨1, 1⟩ ∧
    (∀ inv, inv < 2 ^ 32 → (Zeros.new 0).apply_to_inverted_crc32 inv = inv) ∧
    (∀ inv, inv < 2 ^ 64 → (Zeros.new 0).apply_to_inverted_crc64 inv = inv) ∧
    (∀ c : DualCrc, c.inverted_crc32 < 2 ^ 32 → c.inverted_crc64 < 2 ^ 64 →
      c.update_with_zeros (Zeros.new 0) = c) := by
  have h32 : ∀ inv, inv < 2 ^ 32 → (Zeros.new 0).apply_to_inverted_crc32 inv = inv :=
    fun inv h => apply32_eq_uz_iter (by norm_num) inv h
  have h64 : ∀ inv, inv < 2 ^ 64 → (Zeros.new 0).apply_to_inverted_crc64 inv = inv :=
    fun inv h => apply64_eq_uz_iter (by norm_num) inv h
  refine ⟨rfl, h32, h64, ?_⟩
  intro c hc32 hc64
  show DualCrc.mk ((Zeros.new 0).apply_to_inverted_crc32 c.inverted_crc32)
      ((Zeros.new 0).apply_to_inverted_crc64 c.inverted_crc64) = c
  rw [h32 _ hc32, h64 _ hc64]

theorem C8_witness :
    ((7 : Nat) < 2 ^ 32 ∧ (11 : Nat) < 2 ^ 64 ∧
      DualCrc.new.inverted_crc32 < 2 ^ 32 ∧ DualCrc.new.inverted_crc64 < 2 ^ 64) ∧
    ((Zeros.new 0).apply_to_inverted_crc32 7 = 7 ∧
     (Zeros.new 0).apply_to_inverted_crc64 11 = 11 ∧
     DualCrc.new.update_with_zeros (Zeros.new 0) = DualCrc.new) :=
  ⟨⟨by decide, by decide, by decide, by decide⟩,
   C8_zeros_zero_neutral.2.1 7 (by decide),
   C8_zeros_zero_neutral.2.2.1 11 (by decide),
   C8_zeros_zero_neutral.2.2.2 DualCrc.new (by decide) (by decide)⟩

/-- C9 (code bug): `Zeros::new` is NOT total over the `usize` range.
Both `POW256` tables do have `usize::BITS` entries, but at
`N = 2^63` the source computes `pos = trailing_zeros(N) + 1 = 64` and
`power >>= pos` overflows the shift: debug builds panic there, and
release builds mask the amount (leaving `power` unchanged), after which
the squaring loop reads `POW256_32[127]` / `POW256_64[127]`, out of
bounds of the 64-entry tables.  The faithful bounds-checked models
return `none` at exactly that input. -/
theorem C9_zeros_new_oob :
    POW256_32table.length = USIZE_BITS ∧ POW256_64table.length = USIZE_BITS ∧
    pow256_32Checked 0x8000000000000000 = none ∧
    pow256_64Checked 0x8000000000000000 = none := by
  refine ⟨by simp [POW256_32table], by simp [POW256_64table], ?_, ?_⟩
  · decide
  · decide

/-- C10: after `new(S0)` and any sequence of rolls, the buffer length and
`window_size` stay equal to the seed length, `start_pos` stays below
`window_size`, and the circular read from `start_pos` is exactly the last
`window_size` bytes processed, in order. -/
theorem C10_buffer_invariant (S0 bs : List Nat) (c0 : RollingDualCrc)
    (hnew : RollingDualCrc.new S0 = some c0) :
    (c0.roll_slice bs).window_size = S0.length ∧
    (c0.roll_slice bs).data.length = S0.length ∧
    (c0.roll_slice bs).start_pos < S0.length ∧
    (c0.roll_slice bs).windowBytes = (S0 ++ bs).drop bs.length := by
  have hne : S0 ≠ [] := by
    intro hempty
    subst hempty
    cases hnew
  rw [RollingDualCrc.new_eq_some hne] at hnew
  have hc0 := Option.some.inj hnew
  have hlen0 : c0.data.length = c0.window_size := by rw [← hc0]
  have hsp0 : c0.start_pos < c0.window_size := by
    rw [← hc0]
    exact List.length_pos.mpr hne
  have hws : c0.window_size = S0.length := by rw [← hc0]
  have hwb0 : c0.windowBytes = S0 := by
    rw [← hc0]
    show S0.drop 0 ++ S0.take 0 = S0
    simp
  obtain ⟨h1, h2, h3, h4⟩ := roll_slice_buffer bs c0 hlen0 hsp0
  rw [hwb0] at h4
  exact ⟨h1.trans hws, h2.trans hws, hws ▸ h3, h4⟩

theorem C10_witness :
    RollingDualCrc.new [97] = some rollSeed ∧
    ((rollSeed.roll_slice [98]).window_size = [97].length ∧
     (rollSeed.roll_slice [98]).data.length = [97].length ∧
     (rollSeed.roll_slice [98]).start_pos < [97].length ∧
     (rollSeed.roll_slice [98]).windowBytes = ([97] ++ [98]).drop [98].length) :=
  ⟨rfl, C10_buffer_invariant [97] [98] rollSeed rfl⟩
